import Mathlib

/-!
MatraC: dynamically sized matrices over dense and sparse buffers.

A shallow embedding of `src/DynMat.h`, `src/Range.h` and the static matrix of
`src/Matrix.h`.

* `size_t` and `int64_t` values are modelled as `Nat` and `Int`; all dimensions
  are assumed small enough that `rows * cols` and the loop bounds do not wrap
  (the `size_t` subtraction that can wrap in `slice`, and the arithmetic of
  `show_sparse` on the keys of the table, are modelled modulo `2^64`; the
  bounds `stop + 1` of `slice` are taken in the naturals, and modulo `2^64`
  in `slice_size_t`, which is `slice` for stops below `2^64 - 1`).
* The elements of the two products are modelled as integers with the signed
  integer type `T` given by its number of bits: a product is computed in `T`,
  and overflow is undefined.
* `PANIC(...)` and a failed `assert` abort the process; they are modelled as
  the errors `Err.panic` and `Err.assertion` of the `Except` monad.
* `std::unordered_map<size_t, T>` is modelled as an association list whose
  first entry for a key is the entry of the table.
* A reference `T&` returned by a mutable accessor is modelled by the state
  after the access together with the linear slot the reference designates; a
  store through the reference is a separate operation on that slot.
* A pointer `T*` into a parent matrix is modelled by the linear slot it points
  to (`none` is the null pointer).
* The `double` computations of the source on integers, `ceil(0.05 * n)` and
  the accumulators of the two products, are modelled with the rounding of
  binary64 (53 significant digits, ties to even).
-/

namespace MatraC

/-! ## Errors -/

/-- Ways in which an operation does not return a value: `PANIC` (abort with a
message), a failed `assert`, an access outside a `std::vector` or through a
null pointer (undefined behaviour), a division by zero, a loop that never
ends. -/
inductive Err where
  | panic
  | assertion
  | undefined
  | diverge
  deriving DecidableEq, Repr

/-- Whether an operation ends in an error instead of returning a value. -/
def failed {α : Type} : Except Err α → Bool
  | .ok _ => false
  | .error _ => true

/-! ## `std::unordered_map<size_t, T>` -/

/-- An association list standing for `std::unordered_map<size_t, T>`. -/
abbrev HMap (T : Type) := List (Nat × T)

namespace HMap

variable {T : Type}

/-- The lookup `raw_.at(i)`: `none` stands for the `std::out_of_range` exception. -/
def at? : HMap T → Nat → Option T
  | [], _ => none
  | (k, v) :: rest, i => if k = i then some v else at? rest i

/-- The state of the table after `raw_[i]`: the key is inserted with the
value `T()` when it is absent. -/
def index [Inhabited T] (m : HMap T) (i : Nat) : HMap T :=
  match m.at? i with
  | some _ => m
  | none => (i, default) :: m

/-- The call `raw_.erase(x)`. -/
def erase : HMap T → Nat → HMap T
  | [], _ => []
  | (k, v) :: rest, x => if k = x then erase rest x else (k, v) :: erase rest x

/-- Assignment through a reference to the entry of key `i`. -/
def assign : HMap T → Nat → T → HMap T
  | [], _, _ => []
  | (k, v) :: rest, i, w => if k = i then (k, w) :: rest else (k, v) :: assign rest i w

end HMap

/-! ## `SparseBuffer` -/

/-- The fields of `SparseBuffer<T>`. -/
structure SparseBuffer (T : Type) where
  raw_ : HMap T
  potentially_zero_ : List Nat
  cnt_ : Nat
  max_size_ : Nat
  treshold_ : Nat

/-- Number of binary digits of `n`, searched below `fuel`. -/
def bitLength : Nat → Nat → Nat
  | 0, _ => 0
  | fuel + 1, n => if n = 0 then 0 else bitLength fuel (n / 2) + 1

/-- Round the natural number `N` to 53 significant binary digits, ties to even
(the rounding of an IEEE binary64 operation on a value `N * 2^e`). -/
def roundTo53 (N : Nat) : Nat :=
  let L := bitLength (N + 1) N
  if L ≤ 53 then N
  else
    let s := L - 53
    let q := N / 2 ^ s
    let r := N % 2 ^ s
    let half := 2 ^ (s - 1)
    if r > half ∨ (r = half ∧ q % 2 = 1) then (q + 1) * 2 ^ s else q * 2 ^ s

/-- The value `ceil(0.05 * max_size_)` of the constructor, computed as the
binary64 arithmetic does: the `size_t` value `max_size_` is converted to
`double` (rounded to 53 significant digits), the literal `0.05` is the double
`7205759403792794 / 2^57`, the product is rounded to 53 significant digits,
and `ceil` is then taken. -/
def ceil_0_05 (max_size : Nat) : Nat :=
  (roundTo53 (roundTo53 max_size * 7205759403792794) + (2 ^ 57 - 1)) / 2 ^ 57

/-- The integer value of the `double` nearest to the integer `x`, ties to even
(overflow to infinity, beyond `2^1024`, is left out). -/
def roundDouble (x : Int) : Int :=
  if 0 ≤ x then (roundTo53 x.toNat : Int) else -(roundTo53 (-x).toNat : Int)

/-- An integer of magnitude below `2^53`: the range on which every integer is
a `double` and integer sums are computed without rounding. -/
def exactInt (x : Int) : Prop := x.natAbs < 2 ^ 53

instance (x : Int) : Decidable (exactInt x) := by
  unfold exactInt
  infer_instance

/-- The values of the element type `T` when it is a signed integer type of
`bits` bits (two's complement; `int` or wider, so that the operands of a
product are not promoted). -/
def fitsT (bits : Nat) (x : Int) : Prop := -(2 ^ (bits - 1) : Int) ≤ x ∧ x < 2 ^ (bits - 1)

instance (bits : Nat) (x : Int) : Decidable (fitsT bits x) := by
  unfold fitsT
  infer_instance

/-- The product `a * b` of two elements, computed in `T`: a product that is
not a value of `T` is a signed overflow, which is undefined. -/
def mulT (bits : Nat) (a b : Int) : Except Err Int :=
  if fitsT bits (a * b) then .ok (a * b) else .error .undefined

/-- The conversion to `T` of a `double` holding the integer `x`: undefined
when `x` is not a value of `T`. -/
def ofDouble (bits : Nat) (x : Int) : Except Err Int :=
  if fitsT bits x then .ok x else .error .undefined

namespace SparseBuffer

variable {T : Type}

/-- A buffer with empty table, nothing recorded, and the given threshold. -/
def fresh (max_size treshold : Nat) : SparseBuffer T :=
  ⟨[], [], 0, max_size, treshold⟩

/-- The constructor `SparseBuffer(size_t rows, size_t cols)`. -/
def new (rows cols : Nat) : SparseBuffer T :=
  fresh (rows * cols) (ceil_0_05 (rows * cols))

/-- The read-only `T operator[](size_t i) const`: the stored value, or `T()`
when `raw_.at(i)` throws. -/
def index_const [Inhabited T] (b : SparseBuffer T) (i : Nat) : T :=
  match b.raw_.at? i with
  | some v => v
  | none => default

/-- One iteration of the compaction loop: `if (raw_[x] == zero) raw_.erase(x)`.
The test `raw_[x]` itself inserts `x` when it is absent. -/
def sweepStep [Inhabited T] [DecidableEq T] (m : HMap T) (x : Nat) : HMap T :=
  let m1 := m.index x
  if m1.at? x = some default then m1.erase x else m1

/-- The compaction loop over `potentially_zero_`. -/
def sweep [Inhabited T] [DecidableEq T] (m : HMap T) (pz : List Nat) : HMap T :=
  pz.foldl sweepStep m

/-- The mutable `T &operator[](size_t i)`: the state of the buffer once the
reference to the entry of `i` has been returned. -/
def index [Inhabited T] [DecidableEq T] (b : SparseBuffer T) (i : Nat) : SparseBuffer T :=
  let cnt := b.cnt_ + 1
  if cnt > b.treshold_ then
    { raw_ := (sweep b.raw_ b.potentially_zero_).index i
      potentially_zero_ := [i]
      cnt_ := 0
      max_size_ := b.max_size_
      treshold_ := b.treshold_ }
  else
    { raw_ := b.raw_.index i
      potentially_zero_ := b.potentially_zero_ ++ [i]
      cnt_ := cnt
      max_size_ := b.max_size_
      treshold_ := b.treshold_ }

/-- A store `ref = v` through the reference returned for the entry of `i`. -/
def store (b : SparseBuffer T) (i : Nat) (v : T) : SparseBuffer T :=
  { b with raw_ := b.raw_.assign i v }

/-- The statement `buf[i] = v`: mutable access to `i`, then store of `v`. -/
def write [Inhabited T] [DecidableEq T] (b : SparseBuffer T) (i : Nat) (v : T) :
    SparseBuffer T :=
  (b.index i).store i v

/-- A finite sequence of statements `buf[i] = v`, in order. -/
def writes [Inhabited T] [DecidableEq T] (b : SparseBuffer T) (ws : List (Nat × T)) :
    SparseBuffer T :=
  ws.foldl (fun s w => s.write w.1 w.2) b

/-- After `n` writes that follow a zero write to `k`: either `k` has left the
table, or it is still recorded in `potentially_zero_` with a zero value and the
counter has advanced by at least `n` without passing the threshold. -/
def zeroPending [Inhabited T] (k n : Nat) (s : SparseBuffer T) : Prop :=
  s.raw_.at? k = none ∨
    (k ∈ s.potentially_zero_ ∧ (s.raw_.at? k).getD default = default ∧
      n ≤ s.cnt_ ∧ s.cnt_ ≤ s.treshold_)

/-- Whether the next mutable access runs the compaction loop: the test
`cnt_ > treshold_` after `cnt_++`. -/
def sweeps (b : SparseBuffer T) : Bool :=
  decide (b.cnt_ + 1 > b.treshold_)

/-- Number of entries of the table whose value is the zero element `T()`. -/
def zeroCount [Inhabited T] [DecidableEq T] (b : SparseBuffer T) : Nat :=
  (b.raw_.filter (fun p => decide (p.2 = default))).length

/-- Number of entries of the table whose value is not the zero element. -/
def nonzeroCount [Inhabited T] [DecidableEq T] (b : SparseBuffer T) : Nat :=
  (b.raw_.filter (fun p => decide (p.2 ≠ default))).length

/-- The invariant of the buffer: the keys of the table are distinct, every key
stored with the zero value is recorded in `potentially_zero_`, which holds at
most `cnt_ + 1` indices, and `cnt_` does not exceed the threshold. -/
def Inv [Inhabited T] (b : SparseBuffer T) : Prop :=
  (b.raw_.map Prod.fst).Nodup ∧
  (∀ k, b.raw_.at? k = some default → k ∈ b.potentially_zero_) ∧
  b.potentially_zero_.length ≤ b.cnt_ + 1 ∧
  b.cnt_ ≤ b.treshold_

end SparseBuffer

/-! ## `DynBuffer` -/

/-- The field of `DynBuffer<T>`: a `std::vector<T>`. -/
structure DynBuffer (T : Type) where
  raw_ : List T

namespace DynBuffer

variable {T : Type}

/-- The constructor `DynBuffer(size_t rows, size_t cols)`: `rows * cols`
value-initialised elements. -/
def new [Inhabited T] (rows cols : Nat) : DynBuffer T :=
  ⟨List.replicate (rows * cols) default⟩

/-- The read-only `T operator[](size_t i) const`; reading outside the vector
is undefined. -/
def index_const (b : DynBuffer T) (i : Nat) : Except Err T :=
  match b.raw_[i]? with
  | some v => .ok v
  | none => .error .undefined

/-- The mutable `T &operator[](size_t i)`: the buffer is not changed by taking
the reference; a reference outside the vector is undefined. -/
def index (b : DynBuffer T) (i : Nat) : Except Err (DynBuffer T) :=
  if i < b.raw_.length then .ok b else .error .undefined

/-- A store through a reference or pointer to element `i`. -/
def store (b : DynBuffer T) (i : Nat) (v : T) : Except Err (DynBuffer T) :=
  if i < b.raw_.length then .ok ⟨b.raw_.set i v⟩ else .error .undefined

/-- The statement `buf[i] = v`: mutable access to `i`, then store of `v`. -/
def write (b : DynBuffer T) (i : Nat) (v : T) : Except Err (DynBuffer T) := do
  let b1 ← b.index i
  b1.store i v

/-- A finite sequence of statements `buf[i] = v`, in order. -/
def writes (b : DynBuffer T) (ws : List (Nat × T)) : Except Err (DynBuffer T) :=
  ws.foldlM (fun s w => s.write w.1 w.2) b

end DynBuffer

/-- The specification of a buffer as a store of values: the last value written
to `k` in the sequence `ws`, or the zero element `T()` when `k` was never
written. -/
def lastWritten {T : Type} [Inhabited T] (ws : List (Nat × T)) (k : Nat) : T :=
  match ws.reverse.find? (fun w => decide (w.1 = k)) with
  | some w => w.2
  | none => default

/-! ## The template parameter `MemBuf` -/

/-- The two buffer templates a matrix is instantiated with. -/
inductive BufKind where
  | dyn
  | sparse
  deriving DecidableEq, Repr

/-- A buffer of either kind. -/
inductive MemBuf (T : Type) where
  | dyn (b : DynBuffer T)
  | sparse (b : SparseBuffer T)

namespace MemBuf

variable {T : Type}

/-- The constructor call `MemBuf<T>(rows, cols)`. -/
def new [Inhabited T] (kind : BufKind) (rows cols : Nat) : MemBuf T :=
  match kind with
  | .dyn => .dyn (DynBuffer.new rows cols)
  | .sparse => .sparse (SparseBuffer.new rows cols)

/-- Which template the buffer instantiates. -/
def kind : MemBuf T → BufKind
  | .dyn _ => .dyn
  | .sparse _ => .sparse

/-- The read-only `operator[]` of the buffer. -/
def index_const [Inhabited T] (b : MemBuf T) (i : Nat) : Except Err T :=
  match b with
  | .dyn d => d.index_const i
  | .sparse s => .ok (s.index_const i)

/-- The mutable `operator[]` of the buffer: the buffer after the access; the
reference returned designates slot `i`. -/
def index [Inhabited T] [DecidableEq T] (b : MemBuf T) (i : Nat) : Except Err (MemBuf T) :=
  match b with
  | .dyn d => (d.index i).map MemBuf.dyn
  | .sparse s => .ok (.sparse (s.index i))

/-- A store through a reference or pointer to slot `i`; the slot has to exist
(an element of the vector, an entry of the table). -/
def store (b : MemBuf T) (i : Nat) (v : T) : Except Err (MemBuf T) :=
  match b with
  | .dyn d => (d.store i v).map MemBuf.dyn
  | .sparse s =>
    match s.raw_.at? i with
    | some _ => .ok (.sparse (s.store i v))
    | none => .error .undefined

/-- A load through a reference or pointer to slot `i`. -/
def load (b : MemBuf T) (i : Nat) : Except Err T :=
  match b with
  | .dyn d => d.index_const i
  | .sparse s =>
    match s.raw_.at? i with
    | some v => .ok v
    | none => .error .undefined

/-- The buffer has the `size` slots of its matrix: a dense buffer is a vector
of that length (a sparse buffer holds only the slots accessed so far). -/
def WF (b : MemBuf T) (size : Nat) : Prop :=
  match b with
  | .dyn d => d.raw_.length = size
  | .sparse _ => True

/-- The logical value of slot `k`: the element of the vector, or the value the
table gives to `k` (`T()` for an absent key). -/
def val [Inhabited T] (b : MemBuf T) (k : Nat) : T :=
  match b with
  | .dyn d => d.raw_.getD k default
  | .sparse s => s.index_const k

end MemBuf

/-! ## `Range` -/

/-- The fields of `Range`. -/
structure Range where
  START_ : Int
  i_ : Int
  STOP_ : Int
  STEP_ : Int
  deriving DecidableEq, Repr

namespace Range

/-- The constructor `Range(start, stop, step)`; it panics when `stop < start`. -/
def new (start stop step : Int) : Except Err Range :=
  if stop < start then .error .panic else .ok ⟨start, start, stop, step⟩

/-- The method `done()`. -/
def done (r : Range) : Bool :=
  !(decide (r.START_ ≤ r.i_) && decide (r.i_ < r.STOP_))

/-- The pre-increment `operator++`. -/
def incr (r : Range) : Range :=
  { r with i_ := r.i_ + r.STEP_ }

/-- The values a range-based `for` visits: test `!done()`, take `*it`, apply
`++it`, at most `fuel + 1` tests; `none` when the loop has not ended by then. -/
def visit : Nat → Range → Option (List Int)
  | 0, r => if r.done then some [] else none
  | fuel + 1, r =>
    if r.done then some []
    else (visit fuel r.incr).map (fun rest => r.i_ :: rest)

/-- The values visited by `for (auto &&i : r)`. The number of tests allowed is
`STOP_ - START_`, which suffices unless the loop runs forever. -/
def values (r : Range) : Option (List Int) :=
  visit (r.STOP_ - r.START_).toNat r

end Range

/-- Number of values `start + n * step` below `stop`. -/
def stepCount (start stop step : Nat) : Nat := (stop - start + step - 1) / step

/-- The loop `for (auto &&i : Range(start, stop, step)) body`, threading the
state `s` through the body. -/
def forRange {σ : Type} (start stop step : Int) (body : Int → σ → Except Err σ) (s : σ) :
    Except Err σ :=
  match Range.new start stop step with
  | .error e => .error e
  | .ok r =>
    match r.values with
    | none => .error .diverge
    | some xs => xs.foldlM (fun st i => body i st) s

/-! ## `AbstractDynMat` -/

/-- A `std::string`, as the sequence of its characters. -/
abbrev Str := List Char

/-- The fields of `AbstractDynMat<T, MemBuf>`. -/
structure AbstractDynMat (T : Type) where
  raw_ : MemBuf T
  SIZE : Nat
  ROWS_ : Nat
  COLS_ : Nat

/-- An element of a view: a pointer `T*` into the buffer of the parent, given
by the slot it points to; `none` is the null pointer of a value-initialised
element. -/
abbrev Ptr := Option Nat

/-- The `size_t` value of `stop - start + 1`, for `size_t` values `start` and
`stop`: the arithmetic is modulo `2^64`. -/
def spanWrap (start stop : Nat) : Nat :=
  (stop + 1 + 2 ^ 64 - start) % 2 ^ 64

/-- The `size_t` value of `stop - start + 1` for `stop < SIZE_MAX = 2^64 - 1`:
it wraps modulo `2^64` when `stop + 1 < start`. The sum `stop + 1` itself is
taken in the naturals; this is `spanWrap` for every `stop` below `SIZE_MAX`. -/
def spanSize (start stop : Nat) : Nat :=
  if start ≤ stop + 1 then stop + 1 - start else 2 ^ 64 - (start - (stop + 1))

namespace AbstractDynMat

variable {T : Type}

/-- The constructor `AbstractDynMat(size_t rows, size_t cols)`. -/
def new [Inhabited T] (kind : BufKind) (rows cols : Nat) : AbstractDynMat T :=
  { raw_ := MemBuf.new kind rows cols, SIZE := rows * cols, ROWS_ := rows, COLS_ := cols }

/-- The matrix is one a constructor builds: `SIZE` is `ROWS_ * COLS_` and the
buffer has `SIZE` slots. -/
def WF (m : AbstractDynMat T) : Prop :=
  m.SIZE = m.ROWS_ * m.COLS_ ∧ m.raw_.WF m.SIZE

/-- The two matrices have the same dimensions. -/
def SameShape {U : Type} (m : AbstractDynMat T) (m1 : AbstractDynMat U) : Prop :=
  m1.ROWS_ = m.ROWS_ ∧ m1.COLS_ = m.COLS_ ∧ m1.SIZE = m.SIZE

/-- The mutable `T &operator()(size_t i, size_t j)`: the matrix after the
access and the slot the returned reference designates. -/
def operator_call [Inhabited T] [DecidableEq T] (m : AbstractDynMat T) (i j : Nat) :
    Except Err (AbstractDynMat T × Nat) :=
  if i ≥ m.ROWS_ then .error .panic
  else if j ≥ m.COLS_ then .error .panic
  else (m.raw_.index (j + i * m.COLS_)).map (fun b => ({ m with raw_ := b }, j + i * m.COLS_))

/-- The read-only `T operator()(size_t i, size_t j) const`. -/
def operator_call_const [Inhabited T] (m : AbstractDynMat T) (i j : Nat) : Except Err T :=
  if i ≥ m.ROWS_ then .error .panic
  else if j ≥ m.COLS_ then .error .panic
  else m.raw_.index_const (j + i * m.COLS_)

/-- The entry `m(i, j)` as the read-only accessor returns it (`T()` where the
accessor fails). -/
def entry [Inhabited T] (m : AbstractDynMat T) (i j : Nat) : T :=
  match m.operator_call_const i j with
  | .ok v => v
  | .error _ => default

/-- The mutable `T &operator[](size_t i)`: the matrix after the access and the
slot the returned reference designates. -/
def operator_index [Inhabited T] [DecidableEq T] (m : AbstractDynMat T) (i : Nat) :
    Except Err (AbstractDynMat T × Nat) :=
  if i ≥ m.SIZE then .error .panic
  else (m.raw_.index i).map (fun b => ({ m with raw_ := b }, i))

/-- The read-only `T operator[](size_t i) const`. -/
def operator_index_const [Inhabited T] (m : AbstractDynMat T) (i : Nat) : Except Err T :=
  if i ≥ m.SIZE then .error .panic
  else m.raw_.index_const i

/-- A store through a reference or pointer to a slot of the matrix. -/
def store (m : AbstractDynMat T) (slot : Nat) (v : T) : Except Err (AbstractDynMat T) :=
  (m.raw_.store slot v).map (fun b => { m with raw_ := b })

/-- A load through a reference or pointer to a slot of the matrix. -/
def load (m : AbstractDynMat T) (slot : Nat) : Except Err T :=
  m.raw_.load slot

/-- The statement `m(i, j) = v`. -/
def set_call [Inhabited T] [DecidableEq T] (m : AbstractDynMat T) (i j : Nat) (v : T) :
    Except Err (AbstractDynMat T) := do
  let (m1, slot) ← m.operator_call i j
  m1.store slot v

/-- The static `identity(rows, cols)`. -/
def identity (kind : BufKind) (rows cols : Nat) : Except Err (AbstractDynMat Int) :=
  forRange 0 cols 1 (fun i m => m.set_call i.toNat i.toNat 1) (new kind rows cols)

/-- The method `transpose()`. It is not `const`: the result is the pair of the
receiver after the call and the matrix returned. The copy `m1` is read through
its mutable accessor. -/
def transpose [Inhabited T] [DecidableEq T] (self : AbstractDynMat T) :
    Except Err (AbstractDynMat T × AbstractDynMat T) := do
  let m1 := self
  let m2 : AbstractDynMat T := new self.raw_.kind self.COLS_ self.ROWS_
  let (_, m2) ← forRange 0 self.ROWS_ 1 (fun i st =>
    forRange 0 self.COLS_ 1 (fun j st => do
      let (m1, src) ← st.1.operator_call i.toNat j.toNat
      let v ← m1.load src
      let m2 ← st.2.set_call j.toNat i.toNat v
      pure (m1, m2)) st) (m1, m2)
  pure (self, m2)

/-- The member `operator+` on two dynamic matrices; `out` is the template
parameter `MemBufOut`. -/
def operator_add [Inhabited T] [DecidableEq T] [Add T] (out : BufKind)
    (self other : AbstractDynMat T) : Except Err (AbstractDynMat T) :=
  forRange 0 self.ROWS_ 1 (fun i m3 =>
    forRange 0 self.COLS_ 1 (fun j m3 => do
      let a ← self.operator_call_const i.toNat j.toNat
      let b ← other.operator_call_const i.toNat j.toNat
      m3.set_call i.toNat j.toNat (a + b)) m3) (new out self.ROWS_ self.COLS_)

/-- The value the accumulator `sum` of the matrix product holds after the loop
over `k` for the entry `(i, j)`, where no product leaves `T`: it starts at
`0.0`, and each `sum += a * b` converts the integer product to `double` and
rounds the addition. -/
def dotAcc (self other : AbstractDynMat Int) (i j : Nat) : Int :=
  (List.range self.COLS_).foldl
    (fun sum k => roundDouble (sum + roundDouble (self.entry i k * other.entry k j))) 0

/-- The free `operator*` returning a matrix, on elements of the signed
integer type `T` of `bits` bits. The accumulator `sum` is a `double`: it
always holds an integer value, each product `self(i, k) * other(k, j)` is
computed in `T`, converted to `double` and added with rounding, and
`m3(i, j) = sum` converts the integer-valued `double` back to `T`. -/
def operator_mul_T (bits : Nat) (out : BufKind) (self other : AbstractDynMat Int) :
    Except Err (AbstractDynMat Int) :=
  if self.COLS_ ≠ other.ROWS_ then .error .assertion
  else
    forRange 0 self.ROWS_ 1 (fun i m3 =>
      forRange 0 other.COLS_ 1 (fun j m3 => do
        let sum ← forRange 0 self.COLS_ 1 (fun k sum => do
          let a ← self.operator_call_const i.toNat k.toNat
          let b ← other.operator_call_const k.toNat j.toNat
          let p ← mulT bits a b
          pure (roundDouble (sum + roundDouble p))) (0 : Int)
        let v ← ofDouble bits sum
        m3.set_call i.toNat j.toNat v) m3) (new out self.ROWS_ other.COLS_)

/-- The free `operator*` returning a matrix, with the products and the final
conversion taken in the integers: it is `operator_mul_T` on every pair of
matrices on which no product and no accumulated sum leaves `T`. -/
def operator_mul (out : BufKind) (self other : AbstractDynMat Int) :
    Except Err (AbstractDynMat Int) :=
  if self.COLS_ ≠ other.ROWS_ then .error .assertion
  else
    forRange 0 self.ROWS_ 1 (fun i m3 =>
      forRange 0 other.COLS_ 1 (fun j m3 => do
        let sum ← forRange 0 self.COLS_ 1 (fun k sum => do
          let a ← self.operator_call_const i.toNat k.toNat
          let b ← other.operator_call_const k.toNat j.toNat
          pure (roundDouble (sum + roundDouble (a * b)))) (0 : Int)
        m3.set_call i.toNat j.toNat sum) m3) (new out self.ROWS_ other.COLS_)

/-- The slot a view element points to: the slot of the parent entry
`(start_row + a * step_row, start_col + b * step_col)`. -/
def sliceSlot (cols start_row start_col step_row step_col a b : Nat) : Nat :=
  (start_col + b * step_col) + (start_row + a * step_row) * cols

/-- The method `slice(start_row, stop_row, start_col, stop_col, step_row,
step_col)` on `size_t` arguments: the receiver after the call and the view
returned. The counters `i_m` and `j_m` are carried in the loop state. The
spans `stop - start + 1` and the loop bounds `stop + 1` are computed in
`size_t`, modulo `2^64`. -/
def slice_size_t [Inhabited T] [DecidableEq T] (out : BufKind) (self : AbstractDynMat T)
    (start_row stop_row start_col stop_col step_row step_col : Nat) :
    Except Err (AbstractDynMat T × AbstractDynMat Ptr) :=
  if step_row = 0 ∨ step_col = 0 then .error .undefined
  else do
    let m : AbstractDynMat Ptr :=
      new out (spanWrap start_row stop_row / step_row) (spanWrap start_col stop_col / step_col)
    let (self1, m, _) ← forRange start_row (((stop_row + 1) % 2 ^ 64 : Nat) : Int) step_row
      (fun i st => do
        let (self2, m2, _) ← forRange start_col (((stop_col + 1) % 2 ^ 64 : Nat) : Int) step_col
          (fun j st2 => do
            let (p, slot) ← st2.1.operator_call i.toNat j.toNat
            let m3 ← st2.2.1.set_call st.2.2 st2.2.2 (some slot)
            pure (p, m3, st2.2.2 + 1)) (st.1, st.2.1, 0)
        pure (self2, m2, st.2.2 + 1)) (self, m, 0)
    pure (self1, m)

/-- The method `slice(start_row, stop_row, start_col, stop_col, step_row,
step_col)`: the receiver after the call and the view returned. The counters
`i_m` and `j_m` are carried in the loop state. The loop bounds `stop_row + 1`
and `stop_col + 1` are taken in the naturals: this is `slice_size_t` for
stops below `SIZE_MAX = 2^64 - 1`; at `SIZE_MAX` the `size_t` sum wraps to
`0`, which only `slice_size_t` models. -/
def slice [Inhabited T] [DecidableEq T] (out : BufKind) (self : AbstractDynMat T)
    (start_row stop_row start_col stop_col step_row step_col : Nat) :
    Except Err (AbstractDynMat T × AbstractDynMat Ptr) :=
  if step_row = 0 ∨ step_col = 0 then .error .undefined
  else do
    let m : AbstractDynMat Ptr :=
      new out (spanSize start_row stop_row / step_row) (spanSize start_col stop_col / step_col)
    let (self1, m, _) ← forRange start_row (stop_row + 1) step_row (fun i st => do
      let (self2, m2, _) ← forRange start_col (stop_col + 1) step_col (fun j st2 => do
        let (p, slot) ← st2.1.operator_call i.toNat j.toNat
        let m3 ← st2.2.1.set_call st.2.2 st2.2.2 (some slot)
        pure (p, m3, st2.2.2 + 1)) (st.1, st.2.1, 0)
      pure (self2, m2, st.2.2 + 1)) (self, m, 0)
    pure (self1, m)

/-- The scalar `operator=` of a view: `*(this->raw_[i]) = scalar` for every
`i` in `Range(SIZE)`. The result is the view and the parent after the call. -/
def operator_assign_scalar [Inhabited T] (view : AbstractDynMat Ptr)
    (parent : AbstractDynMat T) (scalar : T) :
    Except Err (AbstractDynMat Ptr × AbstractDynMat T) :=
  forRange 0 view.SIZE 1 (fun i st => do
    let b ← st.1.raw_.index i.toNat
    let ptr ← b.load i.toNat
    match ptr with
    | none => .error .undefined
    | some slot =>
      let p ← st.2.store slot scalar
      pure ({ st.1 with raw_ := b }, p)) (view, parent)

/-- The element `m[k]` as the read-only linear accessor returns it (`T()` where
the accessor fails). -/
def item [Inhabited T] (m : AbstractDynMat T) (k : Nat) : T :=
  match m.operator_index_const k with
  | .ok v => v
  | .error _ => default

/-- The method `map(f)`; `out` is the template parameter `MemBufOut`. The
function `f` may fail (a dereference). -/
def map {U : Type} [Inhabited T] [Inhabited U] [DecidableEq U] (out : BufKind)
    (self : AbstractDynMat T) (f : T → Except Err U) : Except Err (AbstractDynMat U) :=
  forRange 0 self.ROWS_ 1 (fun i m =>
    forRange 0 self.COLS_ 1 (fun j m => do
      let x ← self.operator_call_const i.toNat j.toNat
      let y ← f x
      m.set_call i.toNat j.toNat y) m) (new out self.ROWS_ self.COLS_)

/-- The dereference `*x` of a view element: a load from the parent slot the
pointer designates; dereferencing the null pointer is undefined. -/
def deref (parent : AbstractDynMat T) (x : Ptr) : Except Err T :=
  match x with
  | none => .error .undefined
  | some slot => parent.load slot

/-- The method `to_owned()` of a view: `map` with the dereference; the result
has the buffer kind of the view. The parent is only read. -/
def to_owned [Inhabited T] [DecidableEq T] (view : AbstractDynMat Ptr)
    (parent : AbstractDynMat T) : Except Err (AbstractDynMat T) :=
  view.map view.raw_.kind (deref parent)

/-- The `operator=` of a view taking a matrix: `*(this->raw_[i]) = other[i]` for
every `i` in `Range(SIZE)`. The argument is a `const` copy, read through the
read-only `operator[]`. The result is the view and the parent after the
call. -/
def operator_assign [Inhabited T] (view : AbstractDynMat Ptr) (parent other : AbstractDynMat T) :
    Except Err (AbstractDynMat Ptr × AbstractDynMat T) :=
  forRange 0 view.SIZE 1 (fun i st => do
    let v ← other.operator_index_const i.toNat
    let b ← st.1.raw_.index i.toNat
    let ptr ← b.load i.toNat
    match ptr with
    | none => .error .undefined
    | some slot =>
      let p ← st.2.store slot v
      pure ({ st.1 with raw_ := b }, p)) (view, parent)

/-- The invariant of the loops of `slice` that panic: both matrices are well
formed, the parent has the shape of the receiver, the view has its shape. -/
def SliceInv (R C VR VC : Nat) (p : AbstractDynMat T) (m : AbstractDynMat Ptr) : Prop :=
  p.WF ∧ p.ROWS_ = R ∧ p.COLS_ = C ∧ m.WF ∧ m.ROWS_ = VR ∧ m.COLS_ = VC

/-- The entries the loop `for (auto &&x : m)` iterates over, through `begin()`
and `end()`: the entries of the table of a sparse matrix, here in the order of
the list (the order of a `std::unordered_map` is unspecified). A dense buffer
has no `begin()`; no entry is given for it. -/
def entries (m : AbstractDynMat T) : List (Nat × T) :=
  match m.raw_ with
  | .sparse s => s.raw_
  | .dyn _ => []

/-- The decoding of a key `x.first` in the body of the loop of `show_sparse`,
in `size_t` arithmetic modulo `2^64`: `j = x.first % COLS_` (undefined for
`COLS_ = 0`), `i = (x.first - j) / COLS_`, then
`assert(j + i * COLS_ == x.first)`. The result is `(i, j)`. -/
def decodeIndex (cols k : Nat) : Except Err (Nat × Nat) :=
  if cols = 0 then .error .undefined
  else
    let j := k % cols
    let i := ((k + 2 ^ 64 - j) % 2 ^ 64) / cols
    if (j + i * cols) % 2 ^ 64 = k then .ok (i, j) else .error .assertion

/-- The function `show_sparse(m)`, with `strIdx` for `std::to_string` on
`size_t` and `str` for `std::to_string` on the elements: for every entry, the
text `(i,j)value` followed by a space. -/
def show_sparse (strIdx : Nat → Str) (str : T → Str) (m : AbstractDynMat T) : Except Err Str :=
  m.entries.foldlM (fun s x => do
    let (i, j) ← decodeIndex m.COLS_ x.1
    pure (s ++ (['('] ++ strIdx i ++ [','] ++ strIdx j ++ [')'] ++ str x.2 ++ [' ']))) []

/-- The constructor `AbstractDynMat(rows, cols, a11, ...)`, with `rest` for
the variadic arguments after `a11`: a new buffer, `raw_[0] = a11`, then
`raw_[i] = va_arg(vl, T)` for `i` in `Range(1, SIZE)`. Taking an argument that
was not passed is undefined. -/
def new_listed [Inhabited T] [DecidableEq T] (kind : BufKind) (rows cols : Nat) (a11 : T)
    (rest : List T) : Except Err (AbstractDynMat T) := do
  let m : AbstractDynMat T := new kind rows cols
  let raw0 ← (MemBuf.new kind rows cols : MemBuf T).index 0
  let raw1 ← raw0.store 0 a11
  let st ← forRange 1 m.SIZE 1 (fun i (st : MemBuf T × List T) =>
    match st.2 with
    | [] => .error .undefined
    | v :: vl => do
      let b ← st.1.index i.toNat
      let b2 ← b.store i.toNat v
      pure (b2, vl)) (raw1, rest)
  pure { m with raw_ := st.1 }

end AbstractDynMat

/-! ## Concrete matrices -/

/-- The dense `2 x 3` matrix `[[1,2,3],[4,5,6]]`. -/
def example_lhs : AbstractDynMat Int :=
  { raw_ := .dyn ⟨[1, 2, 3, 4, 5, 6]⟩, SIZE := 6, ROWS_ := 2, COLS_ := 3 }

/-- The dense `3 x 4` matrix `[[7,8,9,10],[11,12,13,14],[15,16,17,18]]`. -/
def example_rhs : AbstractDynMat Int :=
  { raw_ := .dyn ⟨[7, 8, 9, 10, 11, 12, 13, 14, 15, 16, 17, 18]⟩, SIZE := 12, ROWS_ := 3,
    COLS_ := 4 }

/-- The dense `2 x 2` matrix `[[1,2],[3,4]]`. -/
def example_square : AbstractDynMat Int :=
  { raw_ := .dyn ⟨[1, 2, 3, 4]⟩, SIZE := 4, ROWS_ := 2, COLS_ := 2 }

/-- The sparse `2 x 3` matrix `[[0,7,0],[0,0,9]]` obtained from a fresh one by
the writes `m[1] = 7`, `m[5] = 9`, `m[2] = 0`; the zero written last is still
an entry of the table. -/
def example_sparse : AbstractDynMat Int :=
  { raw_ := .sparse ((((SparseBuffer.new 2 3).write 1 7).write 5 9).write 2 0), SIZE := 6,
    ROWS_ := 2, COLS_ := 3 }

/-- The dense `3 x 3` matrix `[[1,2,3],[4,5,6],[7,8,9]]`. -/
def example_3x3 : AbstractDynMat Int :=
  { raw_ := .dyn ⟨[1, 2, 3, 4, 5, 6, 7, 8, 9]⟩, SIZE := 9, ROWS_ := 3, COLS_ := 3 }

/-- The dense `3 x 2` matrix `[[1,2],[3,4],[5,6]]`. -/
def example_3x2 : AbstractDynMat Int :=
  { raw_ := .dyn ⟨[1, 2, 3, 4, 5, 6]⟩, SIZE := 6, ROWS_ := 3, COLS_ := 2 }

/-- The view `example_3x3.slice(0, 1, 0, 1, 1, 1)`: the upper left `2 x 2` block. -/
def example_view : AbstractDynMat Ptr :=
  { raw_ := .dyn ⟨[some 0, some 1, some 3, some 4]⟩, SIZE := 4, ROWS_ := 2, COLS_ := 2 }

/-- The view `example_rhs.slice(0, 2, 0, 3, 1, 2)`: the columns `0` and `2`. -/
def example_strided : AbstractDynMat Ptr :=
  { raw_ := .dyn ⟨[some 0, some 2, some 4, some 6, some 8, some 10]⟩, SIZE := 6, ROWS_ := 3,
    COLS_ := 2 }

/-- The decimal numeral of an integer, for `std::to_string`. -/
def strInt (v : Int) : Str := (toString v).toList

/-! ## The static matrix `Mat` of `src/Matrix.h` -/

/-- The field of `Mat<T, ROWS, COLS>`: the array `T raw_[ROWS * COLS]`. The
template parameters are parameters of the type. -/
structure Mat (T : Type) (ROWS COLS : Nat) where
  raw_ : List T

namespace Mat

variable {T : Type} {ROWS COLS : Nat}

/-- The constructor `Mat()`: a value-initialised array of `ROWS * COLS`
elements. -/
def new [Inhabited T] : Mat T ROWS COLS :=
  ⟨List.replicate (ROWS * COLS) default⟩

/-- The array has its `ROWS * COLS` elements. -/
def WF (m : Mat T ROWS COLS) : Prop :=
  m.raw_.length = ROWS * COLS

/-- The mutable `T &operator()(size_t i, size_t j)`: the slot the returned
reference designates. -/
def operator_call (_m : Mat T ROWS COLS) (i j : Nat) : Except Err Nat :=
  if i ≥ ROWS then .error .panic
  else if j ≥ COLS then .error .panic
  else .ok (j + i * COLS)

/-- The read-only `T operator()(size_t i, size_t j) const`. -/
def operator_call_const (m : Mat T ROWS COLS) (i j : Nat) : Except Err T :=
  if i ≥ ROWS then .error .panic
  else if j ≥ COLS then .error .panic
  else
    match m.raw_[j + i * COLS]? with
    | some v => .ok v
    | none => .error .undefined

/-- A load through a reference to a slot of the array. -/
def load (m : Mat T ROWS COLS) (slot : Nat) : Except Err T :=
  match m.raw_[slot]? with
  | some v => .ok v
  | none => .error .undefined

/-- A store through a reference to a slot of the array. -/
def store (m : Mat T ROWS COLS) (slot : Nat) (v : T) : Except Err (Mat T ROWS COLS) :=
  if slot < m.raw_.length then .ok ⟨m.raw_.set slot v⟩ else .error .undefined

/-- The method `Mat transpose()`: the result `m2` is declared `Mat()`, of the
shape of the receiver, and filled by `m2(j, i) = m1(i, j)`. -/
def transpose [Inhabited T] (self : Mat T ROWS COLS) : Except Err (Mat T ROWS COLS) :=
  let m1 := self
  forRange 0 ROWS 1 (fun i m2 =>
    forRange 0 COLS 1 (fun j m2 => do
      let src ← m1.operator_call i.toNat j.toNat
      let v ← m1.load src
      let dst ← m2.operator_call j.toNat i.toNat
      m2.store dst v) m2) (new : Mat T ROWS COLS)

end Mat

/-- The static `2 x 3` matrix `[[1,2,3],[4,5,6]]`, with the contents of
`example_lhs`. -/
def example_static : Mat Int 2 3 := ⟨[1, 2, 3, 4, 5, 6]⟩

/-- The static `3 x 2` matrix `[[1,2],[3,4],[5,6]]`, with the contents of
`example_3x2`. -/
def example_static_tall : Mat Int 3 2 := ⟨[1, 2, 3, 4, 5, 6]⟩

/-- The static `2 x 2` matrix `[[1,2],[3,4]]`, with the contents of
`example_square`. -/
def example_static_square : Mat Int 2 2 := ⟨[1, 2, 3, 4]⟩

/-! ## Lemmas on the table -/

namespace HMap
variable {T : Type}

theorem at?_index [Inhabited T] (m : HMap T) (x k : Nat) :
    (m.index x).at? k = if k = x then some ((m.at? x).getD default) else m.at? k := by
  unfold index
  cases h : m.at? x with
  | none =>
    by_cases hk : k = x
    · subst hk; simp [at?]
    · have : ¬ x = k := fun e => hk e.symm
      simp [at?, hk, this]
  | some v =>
    by_cases hk : k = x
    · subst hk; simp [h]
    · simp [hk]

theorem at?_erase (m : HMap T) (x k : Nat) :
    (m.erase x).at? k = if k = x then none else m.at? k := by
  induction m with
  | nil => simp [erase, at?]
  | cons p rest ih =>
    obtain ⟨a, b⟩ := p
    by_cases hax : a = x
    · subst hax
      by_cases hk : k = a
      · subst hk; simpa [erase] using ih
      · have : ¬ a = k := fun e => hk e.symm
        simp [erase, at?, ih, hk, this]
    · by_cases hk : k = x
      · subst hk
        simp [erase, at?, ih, hax]
      · simp [erase, at?, ih, hax, hk]

theorem at?_assign (m : HMap T) (x k : Nat) (v : T) :
    (m.assign x v).at? k = if k = x then (m.at? x).map (fun _ => v) else m.at? k := by
  induction m with
  | nil => simp [assign, at?]
  | cons p rest ih =>
    obtain ⟨a, b⟩ := p
    by_cases hax : a = x
    · subst hax
      by_cases hk : k = a
      · subst hk; simp [assign, at?]
      · have : ¬ a = k := fun e => hk e.symm
        simp [assign, at?, hk, this]
    · by_cases hk : k = x
      · subst hk
        simp [assign, at?, ih, hax]
      · simp [assign, at?, ih, hax, hk]

end HMap
/-! ## Lemmas on the sparse buffer -/

namespace SparseBuffer
variable {T : Type}

theorem at?_sweepStep [Inhabited T] [DecidableEq T] (m : HMap T) (x k : Nat) :
    (sweepStep m x).at? k =
      if k = x then (if (m.at? x).getD default = default then none else m.at? x)
      else m.at? k := by
  unfold sweepStep
  by_cases hk : k = x
  · subst hk
    cases h : m.at? k with
    | none => simp [HMap.at?_index, HMap.at?_erase, h]
    | some v =>
      by_cases hv : v = default
      · simp [HMap.at?_index, HMap.at?_erase, h, hv]
      · simp [HMap.at?_index, HMap.at?_erase, h, hv]
  · by_cases hc : (m.at? x).getD default = default
    · simp [hc, HMap.at?_index, HMap.at?_erase, hk]
    · simp [hc, HMap.at?_index, hk]

theorem getD_sweepStep [Inhabited T] [DecidableEq T] (m : HMap T) (x k : Nat) :
    ((sweepStep m x).at? k).getD default = (m.at? k).getD default := by
  rw [at?_sweepStep]
  by_cases hk : k = x
  · subst hk
    by_cases hv : (m.at? k).getD default = default
    · simp [hv]
    · simp [hv]
  · simp [hk]

theorem getD_sweep [Inhabited T] [DecidableEq T] (pz : List Nat) (m : HMap T) (k : Nat) :
    ((sweep m pz).at? k).getD default = (m.at? k).getD default := by
  induction pz generalizing m with
  | nil => rfl
  | cons x rest ih =>
    show ((sweep (sweepStep m x) rest).at? k).getD default = _
    rw [ih, getD_sweepStep]

theorem index_const_eq [Inhabited T] (b : SparseBuffer T) (k : Nat) :
    b.index_const k = (b.raw_.at? k).getD default := by
  unfold index_const
  cases b.raw_.at? k <;> rfl

theorem getD_index [Inhabited T] (m : HMap T) (x k : Nat) :
    ((m.index x).at? k).getD default = (m.at? k).getD default := by
  rw [HMap.at?_index]
  by_cases hk : k = x
  · subst hk; simp
  · simp [hk]

theorem index_of_gt [Inhabited T] [DecidableEq T] (b : SparseBuffer T) (i : Nat) (h : b.cnt_ + 1 > b.treshold_) :
    b.index i =
      { raw_ := (sweep b.raw_ b.potentially_zero_).index i
        potentially_zero_ := [i]
        cnt_ := 0
        max_size_ := b.max_size_
        treshold_ := b.treshold_ } := by
  simp [index, h]

theorem index_of_le [Inhabited T] [DecidableEq T] (b : SparseBuffer T) (i : Nat) (h : ¬ b.cnt_ + 1 > b.treshold_) :
    b.index i =
      { raw_ := b.raw_.index i
        potentially_zero_ := b.potentially_zero_ ++ [i]
        cnt_ := b.cnt_ + 1
        max_size_ := b.max_size_
        treshold_ := b.treshold_ } := by
  simp [index, h]

theorem index_const_index [Inhabited T] [DecidableEq T] (b : SparseBuffer T) (i k : Nat) :
    (b.index i).index_const k = b.index_const k := by
  simp only [index_const_eq]
  by_cases h : b.cnt_ + 1 > b.treshold_
  · rw [index_of_gt b i h]; simp [getD_index, getD_sweep]
  · rw [index_of_le b i h]; simp [getD_index]

theorem at?_index_self [Inhabited T] [DecidableEq T] (b : SparseBuffer T) (i : Nat) :
    ∃ v, (b.index i).raw_.at? i = some v := by
  by_cases h : b.cnt_ + 1 > b.treshold_
  · rw [index_of_gt b i h]; simp [HMap.at?_index]
  · rw [index_of_le b i h]; simp [HMap.at?_index]

theorem index_const_write [Inhabited T] [DecidableEq T] (b : SparseBuffer T) (i k : Nat) (v : T) :
    (b.write i v).index_const k = if k = i then v else b.index_const k := by
  obtain ⟨w, hw⟩ := at?_index_self b i
  have h := index_const_index b i k
  simp only [index_const_eq] at h ⊢
  unfold write store
  simp only [HMap.at?_assign]
  by_cases hk : k = i
  · subst hk; simp [hw]
  · simp [hk, h]

theorem writes_cons [Inhabited T] [DecidableEq T] (b : SparseBuffer T) (w : Nat × T) (ws : List (Nat × T)) :
    b.writes (w :: ws) = (b.write w.1 w.2).writes ws := rfl

theorem index_const_writes_of_ne [Inhabited T] [DecidableEq T] (ws : List (Nat × T)) (b : SparseBuffer T) (k : Nat)
    (hws : ∀ w ∈ ws, w.1 ≠ k) : (b.writes ws).index_const k = b.index_const k := by
  induction ws generalizing b with
  | nil => rfl
  | cons w rest ih =>
    rw [writes_cons, ih _ (fun u hu => hws u (List.mem_cons_of_mem _ hu)), index_const_write]
    have : ¬ k = w.1 := fun e => hws w (List.mem_cons_self _ _) e.symm
    simp [this]

theorem index_const_writes [Inhabited T] [DecidableEq T] (ws : List (Nat × T)) (b : SparseBuffer T) (k : Nat) :
    (b.writes ws).index_const k =
      match ws.reverse.find? (fun w => decide (w.1 = k)) with
      | some w => w.2
      | none => b.index_const k := by
  induction ws generalizing b with
  | nil => rfl
  | cons w rest ih =>
    rw [writes_cons, ih, List.reverse_cons, List.find?_append]
    cases h : rest.reverse.find? (fun w => decide (w.1 = k)) with
    | some u => simp
    | none =>
      by_cases hk : w.1 = k
      · simp [List.find?, hk, index_const_write]
      · have : ¬ k = w.1 := fun e => hk e.symm
        simp [List.find?, hk, index_const_write, this]

theorem sweep_cons [Inhabited T] [DecidableEq T] (m : HMap T) (x : Nat) (pz : List Nat) :
    sweep m (x :: pz) = sweep (sweepStep m x) pz := rfl

theorem sweep_none [Inhabited T] [DecidableEq T] (pz : List Nat) (m : HMap T) (k : Nat)
    (h : m.at? k = none) : (sweep m pz).at? k = none := by
  induction pz generalizing m with
  | nil => exact h
  | cons x rest ih =>
    rw [sweep_cons]
    apply ih
    rw [at?_sweepStep]
    by_cases hk : k = x
    · subst hk; simp [h]
    · simp [hk, h]

theorem sweep_zero [Inhabited T] [DecidableEq T] (pz : List Nat) (m : HMap T) (k : Nat)
    (h : (m.at? k).getD default = default) (hk : k ∈ pz) : (sweep m pz).at? k = none := by
  induction pz generalizing m with
  | nil => cases hk
  | cons x rest ih =>
    rw [sweep_cons]
    by_cases hx : k = x
    · apply sweep_none
      rw [at?_sweepStep]
      subst hx
      simp [h]
    · have hmem : k ∈ rest := by
        rcases List.mem_cons.mp hk with e | e
        · exact absurd e hx
        · exact e
      apply ih _ _ hmem
      rw [at?_sweepStep]
      simp [hx, h]

theorem treshold_write [Inhabited T] [DecidableEq T] (b : SparseBuffer T) (i : Nat) (v : T) :
    (b.write i v).treshold_ = b.treshold_ := by
  unfold write store
  by_cases h : b.cnt_ + 1 > b.treshold_
  · rw [index_of_gt b i h]
  · rw [index_of_le b i h]

theorem treshold_writes [Inhabited T] [DecidableEq T] (ws : List (Nat × T))
    (b : SparseBuffer T) : (b.writes ws).treshold_ = b.treshold_ := by
  induction ws generalizing b with
  | nil => rfl
  | cons w rest ih => rw [writes_cons, ih, treshold_write]

theorem zeroPending_init [Inhabited T] [DecidableEq T] (b : SparseBuffer T) (k : Nat) :
    zeroPending k 0 (b.write k default) := by
  right
  unfold write store
  by_cases h : b.cnt_ + 1 > b.treshold_
  · rw [index_of_gt b k h]
    simp [HMap.at?_assign, HMap.at?_index]
  · rw [index_of_le b k h]
    simp [HMap.at?_assign, HMap.at?_index]
    omega

theorem zeroPending_write [Inhabited T] [DecidableEq T] (s : SparseBuffer T) (k n j : Nat)
    (v : T) (hj : j ≠ k) (h : zeroPending k n s) : zeroPending k (n + 1) (s.write j v) := by
  have hkj : ¬ k = j := fun e => hj e.symm
  unfold write store
  by_cases hc : s.cnt_ + 1 > s.treshold_
  · left
    rw [index_of_gt s j hc]
    simp only [HMap.at?_assign, HMap.at?_index, hkj, if_false]
    rcases h with h | ⟨hmem, hz, _, _⟩
    · exact sweep_none _ _ _ h
    · exact sweep_zero _ _ _ hz hmem
  · rw [index_of_le s j hc]
    rcases h with h | ⟨hmem, hz, hn, ht⟩
    · left
      simp only [HMap.at?_assign, HMap.at?_index, hkj, if_false]
      exact h
    · right
      simp only [HMap.at?_assign, HMap.at?_index, hkj, if_false]
      refine ⟨?_, hz, ?_, ?_⟩
      · simp [hmem]
      · omega
      · omega

theorem zeroPending_writes [Inhabited T] [DecidableEq T] (ws : List (Nat × T))
    (s : SparseBuffer T) (k n : Nat) (hws : ∀ w ∈ ws, w.1 ≠ k) (h : zeroPending k n s) :
    zeroPending k (n + ws.length) (s.writes ws) := by
  induction ws generalizing s n with
  | nil => exact h
  | cons w rest ih =>
    rw [writes_cons]
    have h1 := zeroPending_write s k n w.1 w.2 (hws w (List.mem_cons_self _ _)) h
    have h2 := ih (s.write w.1 w.2) (n + 1) (fun u hu => hws u (List.mem_cons_of_mem _ hu)) h1
    have e : n + (w :: rest).length = n + 1 + rest.length := by
      simp [List.length_cons]; omega
    rw [e]; exact h2

end SparseBuffer

namespace DynBuffer
variable {T : Type}

theorem dyn_write_ok (b : DynBuffer T) (i : Nat) (v : T) (h : i < b.raw_.length) :
    b.write i v = .ok ⟨b.raw_.set i v⟩ := by
  simp [write, index, store, h, bind, Except.bind]

theorem dyn_writes_cons (b : DynBuffer T) (w : Nat × T) (ws : List (Nat × T)) :
    b.writes (w :: ws) = (b.write w.1 w.2) >>= fun b1 => b1.writes ws := by
  simp [writes, List.foldlM_cons]

theorem dyn_getElem?_writes (ws : List (Nat × T)) (b : DynBuffer T) (k : Nat)
    (hws : ∀ w ∈ ws, w.1 < b.raw_.length) :
    ∃ d, b.writes ws = .ok d ∧ d.raw_.length = b.raw_.length ∧
      d.raw_[k]? =
        match ws.reverse.find? (fun w => decide (w.1 = k)) with
        | some w => if k < b.raw_.length then some w.2 else none
        | none => b.raw_[k]? := by
  induction ws generalizing b with
  | nil => exact ⟨b, rfl, rfl, rfl⟩
  | cons w rest ih =>
    have hw : w.1 < b.raw_.length := hws w (List.mem_cons_self _ _)
    have hlen : (⟨b.raw_.set w.1 w.2⟩ : DynBuffer T).raw_.length = b.raw_.length := by simp
    obtain ⟨d, hd, hl, hv⟩ := ih ⟨b.raw_.set w.1 w.2⟩
      (fun u hu => by rw [hlen]; exact hws u (List.mem_cons_of_mem _ hu))
    refine ⟨d, ?_, by rw [hl, hlen], ?_⟩
    · rw [dyn_writes_cons, dyn_write_ok b w.1 w.2 hw]
      simpa [bind, Except.bind] using hd
    · rw [hv, List.reverse_cons, List.find?_append]
      cases h : rest.reverse.find? (fun w => decide (w.1 = k)) with
      | some u => simp
      | none =>
        by_cases hk : w.1 = k
        · subst hk
          simp [List.find?, hw]
        · simp [List.find?, hk, List.getElem?_set_ne hk]

theorem dyn_length_new [Inhabited T] (rows cols : Nat) :
    (DynBuffer.new rows cols : DynBuffer T).raw_.length = rows * cols := by
  simp [DynBuffer.new]

theorem dyn_getElem?_new [Inhabited T] (rows cols k : Nat) (hk : k < rows * cols) :
    (DynBuffer.new rows cols : DynBuffer T).raw_[k]? = some default := by
  simp [DynBuffer.new, List.getElem?_replicate, hk]

end DynBuffer

/-- Claim C1. Sparse read-after-write survives eviction: in a sparse buffer freshly
constructed for `rows * cols ≥ 1` slots, after the write of a non-zero `v` to
an index `k < rows * cols`, followed by any finite sequence of writes (of any
values) to indices other than `k`, the read-only access to `k` returns `v`,
whatever number of compaction sweeps the sequence triggers. -/
theorem sparse_read_after_write {T : Type} [Inhabited T] [DecidableEq T] (rows cols k : Nat)
    (v : T) (ws : List (Nat × T)) (hn : 1 ≤ rows * cols) (hk : k < rows * cols)
    (hv : v ≠ default) (hws : ∀ w ∈ ws, w.1 ≠ k) :
    (((SparseBuffer.new rows cols : SparseBuffer T).write k v).writes ws).index_const k = v := by
  rw [SparseBuffer.index_const_writes_of_ne ws _ k hws, SparseBuffer.index_const_write]
  simp

theorem sparse_read_after_write_witness :
    (((SparseBuffer.new 5 8 : SparseBuffer Int).write 7 3).writes
        [(1, 4), (2, 0), (1, 0), (3, 9), (4, 0), (5, 0), (6, 1), (8, 0), (9, 2)]).index_const 7
      = 3 :=
  sparse_read_after_write 5 8 7 3 _ (by decide) (by decide) (by decide) (by decide)

/-- Claim C2. Sparse eviction does not resurrect stale values: from any state `b`
of a sparse buffer (in particular any state reached from a fresh buffer by
writes), after writing zero to `k` and then performing at least
`treshold_ + 1` writes to indices other than `k`, the read-only access to `k`
returns the zero element and `k` is not a key of the table. -/
theorem sparse_zero_evicted {T : Type} [Inhabited T] [DecidableEq T] (b : SparseBuffer T)
    (k : Nat) (ws : List (Nat × T)) (hws : ∀ w ∈ ws, w.1 ≠ k)
    (hlen : b.treshold_ + 1 ≤ ws.length) :
    ((b.write k default).writes ws).index_const k = default ∧
      ((b.write k default).writes ws).raw_.at? k = none := by
  have h := SparseBuffer.zeroPending_writes ws (b.write k default) k 0 hws
    (SparseBuffer.zeroPending_init b k)
  have ht : ((b.write k default).writes ws).treshold_ = b.treshold_ := by
    rw [SparseBuffer.treshold_writes, SparseBuffer.treshold_write]
  have hnone : ((b.write k default).writes ws).raw_.at? k = none := by
    rcases h with h | ⟨_, _, h1, h2⟩
    · exact h
    · omega
  exact ⟨by rw [SparseBuffer.index_const_eq, hnone]; rfl, hnone⟩

/-- Claim C3. The sparse and the dense buffer are observationally equivalent: for
every shape and every sequence of writes to indices below `rows * cols`, the
writes succeed on a fresh `DynBuffer`, and the read-only access at every index
`k < rows * cols` of the resulting dense and sparse buffers both return the
last value written to `k` (the zero element when `k` was never written); a
compaction sweep changes no logical value. -/
theorem sparse_dense_equivalent {T : Type} [Inhabited T] [DecidableEq T] (rows cols : Nat)
    (ws : List (Nat × T)) (hws : ∀ w ∈ ws, w.1 < rows * cols) :
    (∃ d, (DynBuffer.new rows cols : DynBuffer T).writes ws = .ok d ∧
      ∀ k, k < rows * cols →
        d.index_const k = .ok (lastWritten ws k) ∧
        ((SparseBuffer.new rows cols : SparseBuffer T).writes ws).index_const k
          = lastWritten ws k) ∧
    (∀ (s : SparseBuffer T) (pz : List Nat) (k : Nat),
      ({ s with raw_ := SparseBuffer.sweep s.raw_ pz } : SparseBuffer T).index_const k
        = s.index_const k) := by
  constructor
  · obtain ⟨d, hd, _, _⟩ := DynBuffer.dyn_getElem?_writes ws (DynBuffer.new rows cols : DynBuffer T) 0
      (by rw [DynBuffer.dyn_length_new]; exact hws)
    refine ⟨d, hd, fun k hk => ⟨?_, ?_⟩⟩
    · obtain ⟨d', hd', _, hv⟩ :=
        DynBuffer.dyn_getElem?_writes ws (DynBuffer.new rows cols : DynBuffer T) k
          (by rw [DynBuffer.dyn_length_new]; exact hws)
      rw [hd] at hd'
      cases hd'
      unfold DynBuffer.index_const lastWritten
      rw [hv, DynBuffer.dyn_length_new, DynBuffer.dyn_getElem?_new rows cols k hk]
      cases ws.reverse.find? (fun w => decide (w.1 = k)) <;> simp [hk]
    · rw [SparseBuffer.index_const_writes]
      unfold lastWritten
      cases ws.reverse.find? (fun w => decide (w.1 = k)) <;> rfl
  · intro s pz k
    simp only [SparseBuffer.index_const_eq]
    exact SparseBuffer.getD_sweep pz s.raw_ k

theorem sparse_dense_equivalent_witness :
    (∃ d, (DynBuffer.new 2 3 : DynBuffer Int).writes [(0, 5), (4, 0), (0, 0), (5, 2)] = .ok d ∧
      ∀ k, k < 2 * 3 →
        d.index_const k = .ok (lastWritten [(0, 5), (4, 0), (0, 0), (5, 2)] k) ∧
        ((SparseBuffer.new 2 3 : SparseBuffer Int).writes
            [(0, 5), (4, 0), (0, 0), (5, 2)]).index_const k
          = lastWritten [(0, 5), (4, 0), (0, 0), (5, 2)] k) ∧
    (∀ (s : SparseBuffer Int) (pz : List Nat) (k : Nat),
      ({ s with raw_ := SparseBuffer.sweep s.raw_ pz } : SparseBuffer Int).index_const k
        = s.index_const k) :=
  sparse_dense_equivalent 2 3 [(0, 5), (4, 0), (0, 0), (5, 2)] (by decide)

theorem sparse_zero_evicted_witness :
    (((SparseBuffer.new 5 8 : SparseBuffer Int).write 7 0).writes
        [(1, 4), (2, 0), (3, 9)]).index_const 7 = 0 ∧
      (((SparseBuffer.new 5 8 : SparseBuffer Int).write 7 0).writes
        [(1, 4), (2, 0), (3, 9)]).raw_.at? 7 = none :=
  sparse_zero_evicted (SparseBuffer.new 5 8) 7 [(1, 4), (2, 0), (3, 9)] (by decide) (by decide)

/-! ## Lemmas on loops -/

theorem stepCount_zero (start stop step : Nat) (hstep : 1 ≤ step) (h : stop ≤ start) :
    stepCount start stop step = 0 := by
  unfold stepCount
  have : stop - start + step - 1 < step := by omega
  exact Nat.div_eq_of_lt this

theorem stepCount_succ (start stop step : Nat) (hstep : 1 ≤ step) (h : start < stop) :
    stepCount start stop step = stepCount (start + step) stop step + 1 := by
  unfold stepCount
  by_cases h2 : start + step ≤ stop
  · have e : stop - start + step - 1 = (stop - (start + step) + step - 1) + step := by omega
    rw [e, Nat.add_div_right _ (by omega : 0 < step)]
  · have e1 : stop - (start + step) + step - 1 < step := by omega
    rw [Nat.div_eq_of_lt e1]
    have e2 : stop - start + step - 1 = (stop - start - 1) + step := by omega
    have e3 : stop - start - 1 < step := by omega
    rw [e2, Nat.add_div_right _ (by omega : 0 < step), Nat.div_eq_of_lt e3]

theorem stepCount_one (start stop : Nat) : stepCount start stop 1 = stop - start := by
  simp [stepCount]

theorem stepCount_dvd (start stop step : Nat) (hstep : 1 ≤ step) (hd : step ∣ stop - start) :
    stepCount start stop step = (stop - start) / step := by
  obtain ⟨c, hc⟩ := hd
  unfold stepCount
  rw [hc]
  have e : step * c + step - 1 = (step - 1) + step * c := by omega
  rw [e, Nat.add_mul_div_left _ _ (by omega : 0 < step),
    Nat.div_eq_of_lt (by omega : step - 1 < step), Nat.mul_div_cancel_left _ (by omega : 0 < step)]
  omega

theorem visit_eq (fuel : Nat) (s0 i stop step : Nat) (hstep : 1 ≤ step) (hs : s0 ≤ i)
    (hf : stop - i ≤ fuel) :
    Range.visit fuel ⟨(s0 : Int), (i : Int), (stop : Int), (step : Int)⟩ =
      some ((List.range (stepCount i stop step)).map (fun n => ((i + n * step : Nat) : Int))) := by
  induction fuel generalizing i with
  | zero =>
    have h : stop ≤ i := by omega
    have hd : Range.done ⟨(s0 : Int), (i : Int), (stop : Int), (step : Int)⟩ = true := by
      simp [Range.done]; omega
    simp [Range.visit, hd, stepCount_zero i stop step hstep h]
  | succ fuel ih =>
    by_cases h : stop ≤ i
    · have hd : Range.done ⟨(s0 : Int), (i : Int), (stop : Int), (step : Int)⟩ = true := by
        simp [Range.done]; omega
      simp [Range.visit, hd, stepCount_zero i stop step hstep h]
    · have hd : Range.done ⟨(s0 : Int), (i : Int), (stop : Int), (step : Int)⟩ = false := by
        simp [Range.done]; omega
      have hi : Range.incr ⟨(s0 : Int), (i : Int), (stop : Int), (step : Int)⟩
          = ⟨(s0 : Int), ((i + step : Nat) : Int), (stop : Int), (step : Int)⟩ := by
        simp [Range.incr]
      have ih' := ih (i + step) (by omega) (by omega)
      rw [Range.visit]
      simp only [hd, hi, ih', Bool.false_eq_true, if_false, Option.map_some']
      rw [stepCount_succ i stop step hstep (by omega), List.range_succ_eq_map]
      simp only [List.map_cons, List.map_map]
      congr 1
      congr 1
      · simp
      · apply List.map_congr_left
        intro n _
        simp only [Function.comp]
        congr 1
        rw [Nat.succ_mul]; omega

theorem forRange_eq {σ : Type} (start stop step : Nat) (hstep : 1 ≤ step) (hle : start ≤ stop)
    (body : Int → σ → Except Err σ) (s : σ) :
    forRange (start : Int) (stop : Int) (step : Int) body s =
      (List.range (stepCount start stop step)).foldlM
        (fun st n => body ((start + n * step : Nat) : Int) st) s := by
  unfold forRange Range.new
  have h1 : ¬ ((stop : Int) < (start : Int)) := by omega
  simp only [h1, if_false]
  unfold Range.values
  have hf : ((stop : Int) - (start : Int)).toNat = stop - start := by omega
  simp only [hf]
  rw [visit_eq (stop - start) start start stop step hstep (le_refl _) (le_refl _)]
  simp only [List.foldlM_map]

theorem foldlM_range_inv {σ : Type} (body : σ → Nat → Except Err σ) (Inv : Nat → σ → Prop)
    (n : Nat) (s0 : σ) (h0 : Inv 0 s0)
    (hstep : ∀ i s, i < n → Inv i s → ∃ s1, body s i = .ok s1 ∧ Inv (i + 1) s1) :
    ∃ s1, (List.range n).foldlM body s0 = .ok s1 ∧ Inv n s1 := by
  induction n with
  | zero => exact ⟨s0, rfl, h0⟩
  | succ n ih =>
    obtain ⟨s1, h1, hI⟩ := ih (fun i s hi hinv => hstep i s (by omega) hinv)
    obtain ⟨s2, h2, hI2⟩ := hstep n s1 (by omega) hI
    refine ⟨s2, ?_, hI2⟩
    rw [List.range_succ, List.foldlM_append, h1]
    simp [bind, Except.bind, h2, pure, Except.pure]

/-- A loop `for (auto &&i : Range(start, stop, step))` with `step ≥ 1` runs its
body at `start + n * step` for `n = 0, 1, ...` below `stepCount`; an invariant
established by each iteration holds at the end. -/
theorem forRange_inv {σ : Type} (start stop step : Nat) (hstep : 1 ≤ step) (hle : start ≤ stop)
    (body : Int → σ → Except Err σ) (Inv : Nat → σ → Prop) (s0 : σ) (h0 : Inv 0 s0)
    (hbody : ∀ n s, n < stepCount start stop step → Inv n s →
      ∃ s1, body ((start + n * step : Nat) : Int) s = .ok s1 ∧ Inv (n + 1) s1) :
    ∃ s1, forRange (start : Int) (stop : Int) (step : Int) body s0 = .ok s1 ∧
      Inv (stepCount start stop step) s1 := by
  rw [forRange_eq start stop step hstep hle]
  exact foldlM_range_inv _ Inv _ s0 h0 hbody

/-- The loop `for (auto &&i : Range(n))`. -/
theorem forRange_zero_inv {σ : Type} (n : Nat) (body : Int → σ → Except Err σ)
    (Inv : Nat → σ → Prop) (s0 : σ) (h0 : Inv 0 s0)
    (hbody : ∀ i s, i < n → Inv i s → ∃ s1, body (i : Int) s = .ok s1 ∧ Inv (i + 1) s1) :
    ∃ s1, forRange 0 (n : Int) 1 body s0 = .ok s1 ∧ Inv n s1 := by
  have h := forRange_inv 0 n 1 (le_refl _) (Nat.zero_le _) body Inv s0 h0
    (fun i s hi hinv => by
      rw [stepCount_one] at hi
      obtain ⟨s1, h1, h2⟩ := hbody i s (by omega) hinv
      exact ⟨s1, by simpa using h1, h2⟩)
  rw [stepCount_one] at h
  simpa using h

/-! ## Lemmas on buffers of either kind -/

namespace MemBuf
variable {T : Type}

theorem index_const_ok [Inhabited T] (b : MemBuf T) (n k : Nat) (hwf : b.WF n) (hk : k < n) :
    b.index_const k = .ok (b.val k) := by
  cases b with
  | dyn d =>
    have hl : k < d.raw_.length := by simpa [WF] using (show d.raw_.length = n from hwf) ▸ hk
    simp [index_const, DynBuffer.index_const, val, List.getD, List.getElem?_eq_getElem hl]
  | sparse s => rfl

theorem index_const_fail_dyn [Inhabited T] (d : DynBuffer T) (k : Nat)
    (hk : d.raw_.length ≤ k) : (MemBuf.dyn d).index_const k = .error .undefined := by
  simp [index_const, DynBuffer.index_const, List.getElem?_eq_none hk]

/-- The mutable access to a slot `k` of the buffer succeeds, keeps every
logical value, and returns a reference through which the value of `k` is
loaded and any value can be stored, changing slot `k` only. -/
theorem index_ok [Inhabited T] [DecidableEq T] (b : MemBuf T) (n k : Nat) (hwf : b.WF n)
    (hk : k < n) :
    ∃ b1, b.index k = .ok b1 ∧ b1.WF n ∧ (∀ x, b1.val x = b.val x) ∧
      b1.load k = .ok (b.val k) ∧
      ∀ v, ∃ b2, b1.store k v = .ok b2 ∧ b2.WF n ∧
        ∀ x, b2.val x = if x = k then v else b.val x := by
  cases b with
  | dyn d =>
    have hl : k < d.raw_.length := by simpa [WF] using (show d.raw_.length = n from hwf) ▸ hk
    refine ⟨.dyn d, by simp [index, DynBuffer.index, hl, Except.map], hwf, fun _ => rfl, ?_, ?_⟩
    · simp [load, DynBuffer.index_const, val, List.getD, List.getElem?_eq_getElem hl]
    · intro v
      refine ⟨.dyn ⟨d.raw_.set k v⟩, by simp [store, DynBuffer.store, hl, Except.map], ?_, ?_⟩
      · show (d.raw_.set k v).length = n
        rw [List.length_set]; exact hwf
      · intro x
        simp only [val, List.getD]
        by_cases hx : x = k
        · subst hx; simp [hl]
        · have : ¬ k = x := fun e => hx e.symm
          simp [hx, List.getElem?_set_ne this]
  | sparse s =>
    obtain ⟨w, hw⟩ := SparseBuffer.at?_index_self s k
    refine ⟨.sparse (s.index k), rfl, trivial, fun x => SparseBuffer.index_const_index s k x,
      ?_, ?_⟩
    · have h := SparseBuffer.index_const_index s k k
      rw [SparseBuffer.index_const_eq, hw] at h
      simp only [load, hw, val]
      rw [← h]; rfl
    · intro v
      refine ⟨.sparse ((s.index k).store k v), by simp [store, hw], trivial, ?_⟩
      intro x
      exact SparseBuffer.index_const_write s k x v

theorem buf_WF_new [Inhabited T] (kind : BufKind) (rows cols : Nat) :
    (MemBuf.new kind rows cols : MemBuf T).WF (rows * cols) := by
  cases kind with
  | dyn => simp [MemBuf.new, WF, DynBuffer.new]
  | sparse => trivial

theorem buf_val_new [Inhabited T] (kind : BufKind) (rows cols k : Nat) :
    (MemBuf.new kind rows cols : MemBuf T).val k = default := by
  cases kind with
  | dyn =>
    simp only [MemBuf.new, val, DynBuffer.new, List.getD]
    by_cases hk : k < rows * cols
    · simp [List.getElem?_replicate, hk]
    · simp [List.getElem?_replicate, hk]
  | sparse => rfl

end MemBuf

/-! ## Lemmas on matrices -/

theorem slot_lt (R C i j : Nat) (hi : i < R) (hj : j < C) : j + i * C < R * C := by
  have h : (i + 1) * C ≤ R * C := Nat.mul_le_mul_right C hi
  rw [Nat.succ_mul] at h
  omega

theorem slot_inj (C i j i1 j1 : Nat) (hj : j < C) (hj1 : j1 < C)
    (h : j + i * C = j1 + i1 * C) : i = i1 ∧ j = j1 := by
  have hC : 0 < C := by omega
  have e1 : (j + i * C) / C = i := by
    rw [Nat.add_mul_div_right _ _ hC, Nat.div_eq_of_lt hj]; simp
  have e2 : (j1 + i1 * C) / C = i1 := by
    rw [Nat.add_mul_div_right _ _ hC, Nat.div_eq_of_lt hj1]; simp
  have hi : i = i1 := by rw [← e1, ← e2, h]
  subst hi
  exact ⟨rfl, by omega⟩

namespace AbstractDynMat
variable {T : Type}

theorem WF_new [Inhabited T] (kind : BufKind) (rows cols : Nat) :
    (new kind rows cols : AbstractDynMat T).WF :=
  ⟨rfl, MemBuf.buf_WF_new kind rows cols⟩

theorem val_new [Inhabited T] (kind : BufKind) (rows cols k : Nat) :
    (new kind rows cols : AbstractDynMat T).raw_.val k = default :=
  MemBuf.buf_val_new kind rows cols k

theorem operator_call_const_ok [Inhabited T] (m : AbstractDynMat T) (i j : Nat) (hwf : m.WF)
    (hi : i < m.ROWS_) (hj : j < m.COLS_) :
    m.operator_call_const i j = .ok (m.raw_.val (j + i * m.COLS_)) := by
  have hs : j + i * m.COLS_ < m.SIZE := by rw [hwf.1]; exact slot_lt _ _ _ _ hi hj
  have h1 : ¬ i ≥ m.ROWS_ := by omega
  have h2 : ¬ j ≥ m.COLS_ := by omega
  simp only [operator_call_const, h1, h2, if_false]
  exact MemBuf.index_const_ok _ _ _ hwf.2 hs

theorem operator_call_const_panic [Inhabited T] (m : AbstractDynMat T) (i j : Nat)
    (h : i ≥ m.ROWS_ ∨ j ≥ m.COLS_) : m.operator_call_const i j = .error .panic := by
  unfold operator_call_const
  by_cases h1 : i ≥ m.ROWS_
  · simp [h1]
  · have h2 : j ≥ m.COLS_ := by tauto
    simp [h1, h2]

theorem entry_eq [Inhabited T] (m : AbstractDynMat T) (i j : Nat) (hwf : m.WF)
    (hi : i < m.ROWS_) (hj : j < m.COLS_) : m.entry i j = m.raw_.val (j + i * m.COLS_) := by
  simp [entry, operator_call_const_ok m i j hwf hi hj]

theorem operator_index_const_ok [Inhabited T] (m : AbstractDynMat T) (k : Nat) (hwf : m.WF)
    (hk : k < m.SIZE) : m.operator_index_const k = .ok (m.raw_.val k) := by
  have h1 : ¬ k ≥ m.SIZE := by omega
  simp only [operator_index_const, h1, if_false]
  exact MemBuf.index_const_ok _ _ _ hwf.2 hk

/-- The mutable 2D access inside the bounds succeeds, keeps the shape and every
logical value, and returns the slot `j + i * COLS_`, through which the entry
is loaded and any value can be stored, changing that slot only. -/
theorem operator_call_ok [Inhabited T] [DecidableEq T] (m : AbstractDynMat T) (i j : Nat)
    (hwf : m.WF) (hi : i < m.ROWS_) (hj : j < m.COLS_) :
    ∃ m1, m.operator_call i j = .ok (m1, j + i * m.COLS_) ∧ m1.WF ∧ SameShape m m1 ∧
      (∀ x, m1.raw_.val x = m.raw_.val x) ∧
      m1.load (j + i * m.COLS_) = .ok (m.raw_.val (j + i * m.COLS_)) ∧
      ∀ v, ∃ m2, m1.store (j + i * m.COLS_) v = .ok m2 ∧ m2.WF ∧ SameShape m m2 ∧
        ∀ x, m2.raw_.val x = if x = j + i * m.COLS_ then v else m.raw_.val x := by
  have hs : j + i * m.COLS_ < m.SIZE := by rw [hwf.1]; exact slot_lt _ _ _ _ hi hj
  obtain ⟨b1, hb1, hwf1, hval1, hload, hstore⟩ := MemBuf.index_ok m.raw_ m.SIZE _ hwf.2 hs
  have h1 : ¬ i ≥ m.ROWS_ := by omega
  have h2 : ¬ j ≥ m.COLS_ := by omega
  refine ⟨{ m with raw_ := b1 }, ?_, ⟨hwf.1, hwf1⟩, ⟨rfl, rfl, rfl⟩, hval1, hload, ?_⟩
  · simp [operator_call, h1, h2, hb1, Except.map]
  · intro v
    obtain ⟨b2, hb2, hwf2, hval2⟩ := hstore v
    refine ⟨{ m with raw_ := b2 }, ?_, ⟨hwf.1, hwf2⟩, ⟨rfl, rfl, rfl⟩, hval2⟩
    simp [store, hb2, Except.map]

theorem operator_call_panic [Inhabited T] [DecidableEq T] (m : AbstractDynMat T) (i j : Nat)
    (h : i ≥ m.ROWS_ ∨ j ≥ m.COLS_) : m.operator_call i j = .error .panic := by
  unfold operator_call
  by_cases h1 : i ≥ m.ROWS_
  · simp [h1]
  · have h2 : j ≥ m.COLS_ := by tauto
    simp [h1, h2]

/-- The statement `m(i, j) = v` inside the bounds succeeds, keeps the shape, and
changes the logical value of slot `j + i * COLS_` only. -/
theorem set_call_ok [Inhabited T] [DecidableEq T] (m : AbstractDynMat T) (i j : Nat) (v : T)
    (hwf : m.WF) (hi : i < m.ROWS_) (hj : j < m.COLS_) :
    ∃ m2, m.set_call i j v = .ok m2 ∧ m2.WF ∧ SameShape m m2 ∧
      ∀ x, m2.raw_.val x = if x = j + i * m.COLS_ then v else m.raw_.val x := by
  obtain ⟨m1, h1, _, _, _, _, hstore⟩ := operator_call_ok m i j hwf hi hj
  obtain ⟨m2, h2, hwf2, hsh, hval⟩ := hstore v
  exact ⟨m2, by simp [set_call, h1, h2, bind, Except.bind], hwf2, hsh, hval⟩

theorem set_call_panic [Inhabited T] [DecidableEq T] (m : AbstractDynMat T) (i j : Nat) (v : T)
    (h : i ≥ m.ROWS_ ∨ j ≥ m.COLS_) : m.set_call i j v = .error .panic := by
  simp [set_call, operator_call_panic m i j h, bind, Except.bind]

end AbstractDynMat

namespace AbstractDynMat
variable {T : Type}

theorem operator_index_ok [Inhabited T] [DecidableEq T] (m : AbstractDynMat T) (k : Nat)
    (hwf : m.WF) (hk : k < m.SIZE) :
    ∃ m1, m.operator_index k = .ok (m1, k) := by
  obtain ⟨b1, hb1, _⟩ := MemBuf.index_ok m.raw_ m.SIZE k hwf.2 hk
  have h1 : ¬ k ≥ m.SIZE := by omega
  exact ⟨{ m with raw_ := b1 }, by simp [operator_index, h1, hb1, Except.map]⟩

end AbstractDynMat

/-- Claim C6. Bounds-checked indexing: on a `ROWS_ x COLS_` matrix of either
backend, the 2D access at `(i, j)`, mutable or read-only, fails exactly when
`i ≥ ROWS_` or `j ≥ COLS_`; the linear access at `k`, mutable or read-only,
fails exactly when `k ≥ ROWS_ * COLS_`; and inside the bounds the 2D access at
`(i, j)` is the linear access at `j + i * COLS_` (same state, same slot, same
value). -/
theorem bounds_checked_indexing {T : Type} [Inhabited T] [DecidableEq T]
    (m : AbstractDynMat T) (hwf : m.WF) :
    (∀ i j, failed (m.operator_call i j) = true ↔ (i ≥ m.ROWS_ ∨ j ≥ m.COLS_)) ∧
    (∀ i j, failed (m.operator_call_const i j) = true ↔ (i ≥ m.ROWS_ ∨ j ≥ m.COLS_)) ∧
    (∀ k, failed (m.operator_index k) = true ↔ k ≥ m.ROWS_ * m.COLS_) ∧
    (∀ k, failed (m.operator_index_const k) = true ↔ k ≥ m.ROWS_ * m.COLS_) ∧
    (∀ i j, i < m.ROWS_ → j < m.COLS_ →
      m.operator_call i j = m.operator_index (j + i * m.COLS_) ∧
      m.operator_call_const i j = m.operator_index_const (j + i * m.COLS_)) := by
  refine ⟨?_, ?_, ?_, ?_, ?_⟩
  · intro i j
    constructor
    · intro h
      by_contra hc
      obtain ⟨m1, h1, _⟩ := AbstractDynMat.operator_call_ok m i j hwf (by omega) (by omega)
      rw [h1] at h
      simp [failed] at h
    · intro h
      rw [AbstractDynMat.operator_call_panic m i j h]; rfl
  · intro i j
    constructor
    · intro h
      by_contra hc
      rw [AbstractDynMat.operator_call_const_ok m i j hwf (by omega) (by omega)] at h
      simp [failed] at h
    · intro h
      rw [AbstractDynMat.operator_call_const_panic m i j h]; rfl
  · intro k
    rw [← hwf.1]
    constructor
    · intro h
      by_contra hc
      obtain ⟨m1, h1⟩ := AbstractDynMat.operator_index_ok m k hwf (by omega)
      rw [h1] at h
      simp [failed] at h
    · intro h
      simp [AbstractDynMat.operator_index, h, failed]
  · intro k
    rw [← hwf.1]
    constructor
    · intro h
      by_contra hc
      rw [AbstractDynMat.operator_index_const_ok m k hwf (by omega)] at h
      simp [failed] at h
    · intro h
      simp [AbstractDynMat.operator_index_const, h, failed]
  · intro i j hi hj
    have hs : j + i * m.COLS_ < m.SIZE := by rw [hwf.1]; exact slot_lt _ _ _ _ hi hj
    have h1 : ¬ i ≥ m.ROWS_ := by omega
    have h2 : ¬ j ≥ m.COLS_ := by omega
    have h3 : ¬ j + i * m.COLS_ ≥ m.SIZE := by omega
    constructor
    · simp only [AbstractDynMat.operator_call, AbstractDynMat.operator_index, h1, h2, h3,
        if_false]
    · simp only [AbstractDynMat.operator_call_const, AbstractDynMat.operator_index_const, h1, h2,
        h3, if_false]

theorem bounds_checked_indexing_witness :
    failed ((AbstractDynMat.new .dyn 2 3 : AbstractDynMat Int).operator_call_const 2 0) = true ∧
    failed ((AbstractDynMat.new .dyn 2 3 : AbstractDynMat Int).operator_call_const 0 3) = true ∧
    failed ((AbstractDynMat.new .dyn 2 3 : AbstractDynMat Int).operator_index_const 6) = true ∧
    ¬ failed ((AbstractDynMat.new .dyn 2 3 : AbstractDynMat Int).operator_call_const 1 2) = true ∧
    ¬ failed ((AbstractDynMat.new .dyn 2 3 : AbstractDynMat Int).operator_index_const 5) = true ∧
    (AbstractDynMat.new .dyn 2 3 : AbstractDynMat Int).operator_call 1 2 =
      (AbstractDynMat.new .dyn 2 3 : AbstractDynMat Int).operator_index 5 :=
  have h := bounds_checked_indexing (AbstractDynMat.new .dyn 2 3 : AbstractDynMat Int)
    (AbstractDynMat.WF_new .dyn 2 3)
  ⟨(h.2.1 2 0).mpr (by decide), (h.2.1 0 3).mpr (by decide), (h.2.2.2.1 6).mpr (by decide),
    fun hf => absurd ((h.2.1 1 2).mp hf) (by decide),
    fun hf => absurd ((h.2.2.2.1 5).mp hf) (by decide),
    (h.2.2.2.2 1 2 (by decide) (by decide)).1⟩

/-- Two nested loops `for i in Range(R)`, `for j in Range(C)` whose body, at
`(i, j)`, keeps an invariant `P` of the state and changes the observed value
of position `pos i j` to `f i j` and no other: the loops return, `P` holds at
the end, every position `pos i j` holds `f i j` and every other position is
as before. -/
theorem nested_fill {σ T : Type} (R C : Nat) (body : Int → Int → σ → Except Err σ)
    (P : σ → Prop) (obs : σ → Nat → T) (pos : Nat → Nat → Nat) (f : Nat → Nat → T)
    (hpos : ∀ i j a b, i < R → j < C → a < R → b < C → pos i j = pos a b → i = a ∧ j = b)
    (hbody : ∀ i j s, i < R → j < C → P s →
      ∃ s1, body (i : Int) (j : Int) s = .ok s1 ∧ P s1 ∧
        ∀ x, obs s1 x = if x = pos i j then f i j else obs s x)
    (s0 : σ) (h0 : P s0) :
    ∃ s1, forRange 0 (R : Int) 1 (fun i s => forRange 0 (C : Int) 1 (fun j s => body i j s) s) s0
        = .ok s1 ∧ P s1 ∧
      (∀ i j, i < R → j < C → obs s1 (pos i j) = f i j) ∧
      (∀ x, (∀ i j, i < R → j < C → x ≠ pos i j) → obs s1 x = obs s0 x) := by
  let Inv : Nat → Nat → σ → Prop := fun i j s =>
    P s ∧ (∀ a b, a < R → b < C → (a < i ∨ (a = i ∧ b < j)) → obs s (pos a b) = f a b) ∧
      (∀ x, (∀ a b, a < R → b < C → x ≠ pos a b) → obs s x = obs s0 x)
  have hinner : ∀ i s, i < R → Inv i 0 s →
      ∃ s1, forRange 0 (C : Int) 1 (fun j s => body (i : Int) j s) s = .ok s1 ∧ Inv (i + 1) 0 s1 := by
    intro i s hi hinv
    obtain ⟨s1, h1, h2⟩ := forRange_zero_inv C (fun j s => body (i : Int) j s)
      (fun j s => Inv i j s) s hinv (by
        intro j s hj ⟨hP, hdone, hother⟩
        obtain ⟨s1, hb, hP1, hobs⟩ := hbody i j s hi hj hP
        refine ⟨s1, hb, hP1, ?_, ?_⟩
        · intro a b ha hb2 hab
          rw [hobs]
          by_cases he : pos a b = pos i j
          · obtain ⟨e1, e2⟩ := hpos a b i j ha hb2 hi hj he
            subst e1; subst e2
            simp
          · rw [if_neg he]
            apply hdone a b ha hb2
            rcases hab with h | ⟨h, h'⟩
            · exact Or.inl h
            · right
              refine ⟨h, ?_⟩
              have : b ≠ j := fun e => he (by rw [h, e])
              omega
        · intro x hx
          rw [hobs, if_neg (hx i j hi hj)]
          exact hother x hx)
    refine ⟨s1, h1, h2.1, ?_, h2.2.2⟩
    intro a b ha hb hab
    apply h2.2.1 a b ha hb
    rcases hab with h | ⟨h, h'⟩
    · by_cases e : a = i
      · exact Or.inr ⟨e, hb⟩
      · left; omega
    · omega
  obtain ⟨s1, h1, h2⟩ := forRange_zero_inv R
    (fun i s => forRange 0 (C : Int) 1 (fun j s => body i j s) s)
    (fun i s => Inv i 0 s) s0
    ⟨h0, fun a b _ _ hab => by omega, fun _ _ => rfl⟩ hinner
  refine ⟨s1, h1, h2.1, ?_, h2.2.2⟩
  intro i j hi hj
  exact h2.2.1 i j hi hj (Or.inl hi)

namespace AbstractDynMat

/-- For `cols ≤ rows`, `identity(rows, cols)` returns a `rows x cols` matrix
whose entry `(i, j)` is `1` when `i = j` and `0` otherwise. -/
theorem identity_ok (kind : BufKind) (rows cols : Nat) (h : cols ≤ rows) :
    ∃ m, identity kind rows cols = .ok m ∧ m.WF ∧ m.ROWS_ = rows ∧ m.COLS_ = cols ∧
      ∀ i j, i < rows → j < cols → m.entry i j = if i = j then 1 else 0 := by
  obtain ⟨m, h1, hwf, hr, hc, hval⟩ := forRange_zero_inv cols
    (fun i m => set_call m i.toNat i.toNat (1 : Int))
    (fun n m => m.WF ∧ m.ROWS_ = rows ∧ m.COLS_ = cols ∧
      ∀ x, m.raw_.val x = if ∃ a, a < n ∧ x = a + a * cols then 1 else 0)
    (new kind rows cols)
    ⟨WF_new _ _ _, rfl, rfl, fun x => by simp [val_new]⟩
    (by
      intro i m hi ⟨hwf, hr, hc, hval⟩
      obtain ⟨m2, h2, hwf2, hsh, hval2⟩ := set_call_ok m i i (1 : Int) hwf (by omega) (by omega)
      refine ⟨m2, by simpa using h2, hwf2, by rw [hsh.1, hr], by rw [hsh.2.1, hc], ?_⟩
      intro x
      rw [hval2 x, hc, hval x]
      by_cases hx : x = i + i * cols
      · have : ∃ a, a < i + 1 ∧ x = a + a * cols := ⟨i, by omega, hx⟩
        rw [if_pos hx, if_pos this]
      · rw [if_neg hx]
        by_cases he : ∃ a, a < i ∧ x = a + a * cols
        · obtain ⟨a, ha, hxa⟩ := he
          have : ∃ a, a < i + 1 ∧ x = a + a * cols := ⟨a, by omega, hxa⟩
          rw [if_pos ⟨a, ha, hxa⟩, if_pos this]
        · have : ¬ ∃ a, a < i + 1 ∧ x = a + a * cols := by
            rintro ⟨a, ha, hxa⟩
            by_cases hai : a = i
            · subst hai; exact hx hxa
            · exact he ⟨a, by omega, hxa⟩
          rw [if_neg he, if_neg this])
  refine ⟨m, h1, hwf, hr, hc, ?_⟩
  intro i j hi hj
  rw [entry_eq m i j hwf (by omega) (by omega), hval, hc]
  by_cases hij : i = j
  · subst hij
    have : ∃ a, a < cols ∧ i + i * cols = a + a * cols := ⟨i, hj, rfl⟩
    simp [this]
  · have : ¬ ∃ a, a < cols ∧ j + i * cols = a + a * cols := by
      rintro ⟨a, ha, hxa⟩
      obtain ⟨e1, e2⟩ := slot_inj cols i j a a hj ha hxa
      exact hij (by omega)
    simp [this, hij]

end AbstractDynMat

namespace AbstractDynMat
variable {T : Type}

end AbstractDynMat

theorem stride_le (start stop step n : Nat) (hle : start ≤ stop + 1)
    (hn : n < (stop + 1 - start) / step) : start + n * step ≤ stop := by
  have h1 : (n + 1) * step ≤ (stop + 1 - start) / step * step := Nat.mul_le_mul_right step hn
  have h2 : (stop + 1 - start) / step * step ≤ stop + 1 - start := Nat.div_mul_le_self _ _
  have hs : 0 < step := by
    rcases Nat.eq_zero_or_pos step with h | h
    · subst h; simp at hn
    · exact h
  rw [Nat.succ_mul] at h1
  omega

namespace AbstractDynMat
variable {T : Type}

/-- Taking a reference into a dense matrix does not change the matrix. -/
theorem operator_call_dyn [Inhabited T] [DecidableEq T] (m : AbstractDynMat T) (i j : Nat)
    (hwf : m.WF) (hk : m.raw_.kind = .dyn) (hi : i < m.ROWS_) (hj : j < m.COLS_) :
    m.operator_call i j = .ok (m, j + i * m.COLS_) := by
  have hs : j + i * m.COLS_ < m.SIZE := by rw [hwf.1]; exact slot_lt _ _ _ _ hi hj
  have h1 : ¬ i ≥ m.ROWS_ := by omega
  have h2 : ¬ j ≥ m.COLS_ := by omega
  obtain ⟨raw, S, R, C⟩ := m
  cases raw with
  | dyn d =>
    have hl : j + i * C < d.raw_.length := by
      have : d.raw_.length = S := hwf.2
      simp only at hs
      omega
    simp only at h1 h2
    simp [operator_call, h1, h2, MemBuf.index, DynBuffer.index, hl, Except.map]
  | sparse s => cases hk

/-- When every stride fits the span exactly, `slice` returns a view of
`(stop_row - start_row + 1) / step_row` rows and
`(stop_col - start_col + 1) / step_col` columns whose slot of `(a, b)` holds the
pointer to the parent slot of `(start_row + a * step_row, start_col + b *
step_col)`; the parent keeps its shape and every logical value, and a dense
parent is returned as it was. -/
theorem slice_ok [Inhabited T] [DecidableEq T] (out : BufKind) (self : AbstractDynMat T)
    (sr er sc ec stepr stepc : Nat) (hwf : self.WF) (h1 : 1 ≤ stepr) (h2 : 1 ≤ stepc)
    (hr : sr ≤ er) (hr2 : er < self.ROWS_) (hc : sc ≤ ec) (hc2 : ec < self.COLS_)
    (hdr : stepr ∣ er + 1 - sr) (hdc : stepc ∣ ec + 1 - sc) :
    ∃ p v, slice out self sr er sc ec stepr stepc = .ok (p, v) ∧
      (p.WF ∧ SameShape self p ∧ (∀ x, p.raw_.val x = self.raw_.val x) ∧
        (self.raw_.kind = .dyn → p = self)) ∧
      v.WF ∧ v.ROWS_ = (er + 1 - sr) / stepr ∧ v.COLS_ = (ec + 1 - sc) / stepc ∧
      ∀ a b, a < (er + 1 - sr) / stepr → b < (ec + 1 - sc) / stepc →
        v.raw_.val (b + a * ((ec + 1 - sc) / stepc))
          = some (sliceSlot self.COLS_ sr sc stepr stepc a b) := by
  have hz : ¬ (stepr = 0 ∨ stepc = 0) := by omega
  have hsr : spanSize sr er = er + 1 - sr := by simp [spanSize]; omega
  have hsc : spanSize sc ec = ec + 1 - sc := by simp [spanSize]; omega
  have hcr : stepCount sr (er + 1) stepr = (er + 1 - sr) / stepr := stepCount_dvd _ _ _ h1 hdr
  have hcc : stepCount sc (ec + 1) stepc = (ec + 1 - sc) / stepc := stepCount_dvd _ _ _ h2 hdc
  have her : ((er : Int) + 1) = ((er + 1 : Nat) : Int) := by push_cast; rfl
  have hec : ((ec : Int) + 1) = ((ec + 1 : Nat) : Int) := by push_cast; rfl
  generalize hVR : (er + 1 - sr) / stepr = VR at *
  generalize hVC : (ec + 1 - sc) / stepc = VC at *
  let PI : AbstractDynMat T → Prop := fun p =>
    p.WF ∧ SameShape self p ∧ (∀ x, p.raw_.val x = self.raw_.val x) ∧
      (self.raw_.kind = .dyn → p = self)
  let VI : Nat → Nat → AbstractDynMat Ptr → Prop := fun n n1 m =>
    m.WF ∧ m.ROWS_ = VR ∧ m.COLS_ = VC ∧
      ∀ a b, a < VR → b < VC → (a < n ∨ (a = n ∧ b < n1)) →
        m.raw_.val (b + a * VC) = some (sliceSlot self.COLS_ sr sc stepr stepc a b)
  have hinner : ∀ n (st : AbstractDynMat T × AbstractDynMat Ptr × Nat), n < VR →
      PI st.1 → VI n 0 st.2.1 → st.2.2 = n →
      ∃ s1, forRange (sc : Int) ((ec : Int) + 1) (stepc : Int) (fun j st2 => do
          let __discr ← st2.1.operator_call ((sr + n * stepr : Nat) : Int).toNat j.toNat
          let m3 ← st2.2.1.set_call st.2.2 st2.2.2 (some __discr.2)
          pure (__discr.1, m3, st2.2.2 + 1)) (st.1, st.2.1, 0) = .ok s1 ∧
        PI s1.1 ∧ VI (n + 1) 0 s1.2.1 := by
    intro n st hn hPI hVI him
    rw [hec]
    obtain ⟨s1, hs1, hI⟩ := forRange_inv sc (ec + 1) stepc h2 (by omega)
      (fun j (st2 : AbstractDynMat T × AbstractDynMat Ptr × Nat) => do
          let __discr ← st2.1.operator_call ((sr + n * stepr : Nat) : Int).toNat j.toNat
          let m3 ← st2.2.1.set_call st.2.2 st2.2.2 (some __discr.2)
          pure (__discr.1, m3, st2.2.2 + 1))
      (fun n1 st2 => PI st2.1 ∧ VI n n1 st2.2.1 ∧ st2.2.2 = n1)
      (st.1, st.2.1, 0) ⟨hPI, hVI, rfl⟩
      (by
        intro n1 st2 hn1 ⟨⟨hpwf, hpsh, hpval, hpdyn⟩, ⟨hvwf, hvr, hvc, hvval⟩, hjm⟩
        rw [hcc] at hn1
        have hi : sr + n * stepr < st2.1.ROWS_ := by
          rw [hpsh.1]
          have := stride_le sr er stepr n (by omega) (by rw [hVR]; exact hn)
          omega
        have hj : sc + n1 * stepc < st2.1.COLS_ := by
          rw [hpsh.2.1]
          have := stride_le sc ec stepc n1 (by omega) (by rw [hVC]; exact hn1)
          omega
        obtain ⟨p1, hcall, hwf1, hsh1, hval1, _, _⟩ := operator_call_ok st2.1 _ _ hpwf hi hj
        obtain ⟨m3, hset, hwf3, hsh3, hval3⟩ := set_call_ok st2.2.1 n n1
          (some (sc + n1 * stepc + (sr + n * stepr) * st2.1.COLS_)) hvwf (by omega) (by omega)
        refine ⟨(p1, m3, n1 + 1), ?_, ⟨hwf1, ?_, ?_, ?_⟩, ⟨hwf3, ?_, ?_, ?_⟩, rfl⟩
        · simp only [Int.toNat_ofNat, hcall, him, hjm, hset, bind, Except.bind, pure,
            Except.pure]
        · exact ⟨by rw [hsh1.1, hpsh.1], by rw [hsh1.2.1, hpsh.2.1], by rw [hsh1.2.2, hpsh.2.2]⟩
        · intro x; rw [hval1 x, hpval x]
        · intro hk
          have e := hpdyn hk
          have hcall2 := operator_call_dyn st2.1 _ _ hpwf (by rw [e]; exact hk) hi hj
          rw [hcall] at hcall2
          have : p1 = st2.1 := by
            have := Except.ok.inj hcall2
            exact congrArg Prod.fst this
          rw [this, e]
        · rw [hsh3.1, hvr]
        · rw [hsh3.2.1, hvc]
        · intro a b ha hb hab
          rw [hval3, hvc, hpsh.2.1]
          by_cases he : b + a * VC = n1 + n * VC
          · obtain ⟨e1, e2⟩ := slot_inj VC a b n n1 hb hn1 he
            subst e1; subst e2
            simp [sliceSlot]
          · rw [if_neg he]
            apply hvval a b ha hb
            rcases hab with h | ⟨h, h'⟩
            · exact Or.inl h
            · right
              refine ⟨h, ?_⟩
              have : b ≠ n1 := fun e => he (by rw [h, e])
              omega)
    rw [hcc] at hI
    refine ⟨s1, hs1, hI.1, hI.2.1.1, hI.2.1.2.1, hI.2.1.2.2.1, ?_⟩
    intro a b ha hb hab
    apply hI.2.1.2.2.2 a b ha hb
    rcases hab with h | ⟨h, h'⟩
    · by_cases e : a = n
      · exact Or.inr ⟨e, hb⟩
      · left; omega
    · omega
  obtain ⟨s1, hs1, hI⟩ := forRange_inv sr (er + 1) stepr h1 (by omega)
    (fun i (st : AbstractDynMat T × AbstractDynMat Ptr × Nat) => do
      let __discr ← forRange (sc : Int) ((ec : Int) + 1) (stepc : Int) (fun j st2 => do
          let __discr ← st2.1.operator_call i.toNat j.toNat
          let m3 ← st2.2.1.set_call st.2.2 st2.2.2 (some __discr.2)
          pure (__discr.1, m3, st2.2.2 + 1)) (st.1, st.2.1, 0)
      pure (__discr.1, __discr.2.1, st.2.2 + 1))
    (fun n st => PI st.1 ∧ VI n 0 st.2.1 ∧ st.2.2 = n)
    (self, new out VR VC, 0)
    ⟨⟨hwf, ⟨rfl, rfl, rfl⟩, fun _ => rfl, fun _ => rfl⟩,
      ⟨WF_new _ _ _, rfl, rfl, fun a b _ _ hab => by omega⟩, rfl⟩
    (by
      intro n st hn ⟨hPI, hVI, him⟩
      rw [hcr] at hn
      obtain ⟨s1, hs1, hP1, hV1⟩ := hinner n st hn hPI hVI him
      refine ⟨(s1.1, s1.2.1, n + 1), ?_, hP1, hV1, rfl⟩
      beta_reduce
      rw [hs1]
      simp only [him, bind, Except.bind, pure, Except.pure])
  rw [hcr] at hI
  refine ⟨s1.1, s1.2.1, ?_, hI.1, hI.2.1.1, hI.2.1.2.1, hI.2.1.2.2.1, ?_⟩
  · simp only [slice, hz, if_false, hsr, hsc, hVR, hVC, her]
    simp only [her] at hs1
    rw [hs1]
    rfl
  · intro a b ha hb
    exact hI.2.1.2.2.2 a b ha hb (Or.inl ha)

end AbstractDynMat

namespace AbstractDynMat
variable {T : Type}

/-- A store through a pointer to a slot of a dense matrix succeeds and changes
that slot only. -/
theorem store_dyn_ok [Inhabited T] (m : AbstractDynMat T) (slot : Nat) (v : T) (hwf : m.WF)
    (hk : m.raw_.kind = .dyn) (hs : slot < m.SIZE) :
    ∃ m2, m.store slot v = .ok m2 ∧ m2.WF ∧ SameShape m m2 ∧ m2.raw_.kind = .dyn ∧
      ∀ x, m2.raw_.val x = if x = slot then v else m.raw_.val x := by
  obtain ⟨raw, S, R, C⟩ := m
  cases raw with
  | sparse s => cases hk
  | dyn d =>
    have hlen : d.raw_.length = S := hwf.2
    have hl : slot < d.raw_.length := by simp only at hs; omega
    refine ⟨⟨.dyn ⟨d.raw_.set slot v⟩, S, R, C⟩, ?_, ⟨hwf.1, ?_⟩, ⟨rfl, rfl, rfl⟩, rfl, ?_⟩
    · simp [store, MemBuf.store, DynBuffer.store, hl, Except.map]
    · show (d.raw_.set slot v).length = S
      rw [List.length_set]; exact hlen
    · intro x
      simp only [MemBuf.val, List.getD]
      by_cases hx : x = slot
      · subst hx; simp [hl]
      · have : ¬ slot = x := fun e => hx e.symm
        simp [hx, List.getElem?_set_ne this]

/-- The scalar assignment of a view all of whose elements point into a dense
parent stores the scalar in every slot pointed to and in no other. -/
theorem operator_assign_scalar_ok [Inhabited T] (view : AbstractDynMat Ptr)
    (parent : AbstractDynMat T) (scalar : T) (hv : view.WF) (hp : parent.WF)
    (hk : parent.raw_.kind = .dyn)
    (hptr : ∀ k, k < view.SIZE → ∃ slot, view.raw_.val k = some slot ∧ slot < parent.SIZE) :
    ∃ v2 p2, operator_assign_scalar view parent scalar = .ok (v2, p2) ∧
      p2.WF ∧ SameShape parent p2 ∧
      ∀ x, p2.raw_.val x =
        if ∃ k, k < view.SIZE ∧ view.raw_.val k = some x then scalar else parent.raw_.val x := by
  obtain ⟨s1, h1, hI⟩ := forRange_zero_inv view.SIZE
    (fun i (st : AbstractDynMat Ptr × AbstractDynMat T) => do
      let b ← st.1.raw_.index i.toNat
      let ptr ← b.load i.toNat
      match ptr with
      | none => .error .undefined
      | some slot =>
        let p ← st.2.store slot scalar
        pure ({ st.1 with raw_ := b }, p))
    (fun n st => (st.1.raw_.WF view.SIZE ∧ ∀ x, st.1.raw_.val x = view.raw_.val x) ∧
      st.2.WF ∧ SameShape parent st.2 ∧ st.2.raw_.kind = .dyn ∧
      ∀ x, st.2.raw_.val x =
        if ∃ k, k < n ∧ view.raw_.val k = some x then scalar else parent.raw_.val x)
    (view, parent)
    ⟨⟨hv.2, fun _ => rfl⟩, hp, ⟨rfl, rfl, rfl⟩, hk, fun x => by simp⟩
    (by
      intro i st hi ⟨⟨hvwf, hvval⟩, hpwf, hpsh, hpk, hpval⟩
      obtain ⟨slot, hslot, hlt⟩ := hptr i hi
      obtain ⟨b1, hb1, hwf1, hval1, hload, _⟩ := MemBuf.index_ok st.1.raw_ view.SIZE i hvwf hi
      obtain ⟨p2, hst, hwf2, hsh2, hk2, hval2⟩ :=
        store_dyn_ok st.2 slot scalar hpwf hpk (by rw [hpsh.2.2]; exact hlt)
      refine ⟨({ st.1 with raw_ := b1 }, p2), ?_, ⟨hwf1, ?_⟩, hwf2, ?_, hk2, ?_⟩
      · rw [hvval i, hslot] at hload
        simp [hb1, hload, hst, bind, Except.bind, pure, Except.pure]
      · intro x
        show b1.val x = _
        rw [hval1 x, hvval x]
      · exact ⟨by rw [hsh2.1, hpsh.1], by rw [hsh2.2.1, hpsh.2.1], by rw [hsh2.2.2, hpsh.2.2]⟩
      · intro x
        show p2.raw_.val x = _
        rw [hval2 x, hpval x]
        by_cases hx : x = slot
        · have : ∃ k, k < i + 1 ∧ view.raw_.val k = some x := ⟨i, by omega, by rw [hslot, hx]⟩
          rw [if_pos hx, if_pos this]
        · rw [if_neg hx]
          by_cases he : ∃ k, k < i ∧ view.raw_.val k = some x
          · obtain ⟨k, hk1, hk2⟩ := he
            rw [if_pos ⟨k, hk1, hk2⟩, if_pos ⟨k, by omega, hk2⟩]
          · have : ¬ ∃ k, k < i + 1 ∧ view.raw_.val k = some x := by
              rintro ⟨k, hk1, hk2⟩
              by_cases hki : k = i
              · subst hki
                rw [hslot] at hk2
                exact hx (Option.some.inj hk2).symm
              · exact he ⟨k, by omega, hk2⟩
            rw [if_neg he, if_neg this])
  refine ⟨s1.1, s1.2, ?_, hI.2.1, hI.2.2.1, hI.2.2.2.2⟩
  simp only [operator_assign_scalar]
  exact h1

end AbstractDynMat

theorem unslot (R C k : Nat) (hk : k < R * C) :
    k / C < R ∧ k % C < C ∧ k % C + k / C * C = k := by
  have hC : 0 < C := by
    rcases Nat.eq_zero_or_pos C with h | h
    · subst h; simp at hk
    · exact h
  refine ⟨?_, Nat.mod_lt _ hC, Nat.mod_add_div' k C⟩
  apply Nat.div_lt_of_lt_mul
  rw [Nat.mul_comm]; exact hk

/-- Claim C4. View write-through with frame: for a dense `ROWS_ x COLS_` matrix
`M` and an in-range unit-step slice (`start_row ≤ stop_row < ROWS_`,
`start_col ≤ stop_col < COLS_`), the slice returns a view `V` (leaving `M` as
it was), the scalar assignment `V = s` returns, and afterwards the read-only
access of the parent at `(i, j)` returns `s` for every `(i, j)` with
`start_row ≤ i ≤ stop_row` and `start_col ≤ j ≤ stop_col`, and what it
returned on `M` for every other valid `(i, j)`; the shape is unchanged. -/
theorem view_write_through {T : Type} [Inhabited T] [DecidableEq T] (out : BufKind)
    (M : AbstractDynMat T) (start_row stop_row start_col stop_col : Nat) (s : T)
    (hwf : M.WF) (hdyn : M.raw_.kind = .dyn)
    (hr : start_row ≤ stop_row) (hr2 : stop_row < M.ROWS_)
    (hc : start_col ≤ stop_col) (hc2 : stop_col < M.COLS_) :
    ∃ V V2 M2, M.slice out start_row stop_row start_col stop_col 1 1 = .ok (M, V) ∧
      AbstractDynMat.operator_assign_scalar V M s = .ok (V2, M2) ∧
      M2.ROWS_ = M.ROWS_ ∧ M2.COLS_ = M.COLS_ ∧
      ∀ i j, i < M.ROWS_ → j < M.COLS_ →
        M2.operator_call_const i j =
          if start_row ≤ i ∧ i ≤ stop_row ∧ start_col ≤ j ∧ j ≤ stop_col then .ok s
          else M.operator_call_const i j := by
  obtain ⟨p, V, hslice, ⟨_, _, _, hp⟩, hVwf, hVr, hVc, hVval⟩ :=
    AbstractDynMat.slice_ok out M start_row stop_row start_col stop_col 1 1 hwf (le_refl _)
      (le_refl _) hr hr2 hc hc2 (one_dvd _) (one_dvd _)
  have hpM : p = M := hp hdyn
  subst hpM
  simp only [Nat.div_one] at hVr hVc hVval
  have hVsize : V.SIZE = (stop_row + 1 - start_row) * (stop_col + 1 - start_col) := by
    rw [hVwf.1, hVr, hVc]
  have hptr : ∀ k, k < V.SIZE →
      ∃ slot, V.raw_.val k = some slot ∧ slot < p.SIZE := by
    intro k hk
    rw [hVsize] at hk
    obtain ⟨ha, hb, hab⟩ := unslot _ _ k hk
    refine ⟨_, by rw [← hab]; exact hVval _ _ ha hb, ?_⟩
    rw [hwf.1]
    simp only [AbstractDynMat.sliceSlot, Nat.mul_one]
    generalize k / (stop_col + 1 - start_col) = a at ha
    generalize k % (stop_col + 1 - start_col) = b at hb
    exact slot_lt _ _ _ _ (by omega) (by omega)
  obtain ⟨V2, M2, hassign, hwf2, hsh2, hval2⟩ :=
    AbstractDynMat.operator_assign_scalar_ok V p s hVwf hwf hdyn hptr
  refine ⟨V, V2, M2, hslice, hassign, hsh2.1, hsh2.2.1, ?_⟩
  intro i j hi hj
  rw [AbstractDynMat.operator_call_const_ok M2 i j hwf2 (by rw [hsh2.1]; exact hi)
      (by rw [hsh2.2.1]; exact hj),
    AbstractDynMat.operator_call_const_ok p i j hwf hi hj, hsh2.2.1, hval2]
  by_cases hin : start_row ≤ i ∧ i ≤ stop_row ∧ start_col ≤ j ∧ j ≤ stop_col
  · have hex : ∃ k, k < V.SIZE ∧ V.raw_.val k = some (j + i * p.COLS_) := by
      refine ⟨(j - start_col) + (i - start_row) * (stop_col + 1 - start_col), ?_, ?_⟩
      · rw [hVsize]
        exact slot_lt _ _ _ _ (by omega) (by omega)
      · rw [hVval _ _ (by omega) (by omega)]
        simp only [AbstractDynMat.sliceSlot, Nat.mul_one]
        have e1 : start_col + (j - start_col) = j := by omega
        have e2 : start_row + (i - start_row) = i := by omega
        rw [e1, e2]
    rw [if_pos hex, if_pos hin]
  · have hex : ¬ ∃ k, k < V.SIZE ∧ V.raw_.val k = some (j + i * p.COLS_) := by
      rintro ⟨k, hk, hkv⟩
      rw [hVsize] at hk
      obtain ⟨ha, hb, hab⟩ := unslot _ _ k hk
      rw [← hab, hVval _ _ ha hb] at hkv
      simp only [AbstractDynMat.sliceSlot, Nat.mul_one] at hkv
      generalize k / (stop_col + 1 - start_col) = a at ha hkv
      generalize k % (stop_col + 1 - start_col) = b at hb hkv
      obtain ⟨e1, e2⟩ := slot_inj p.COLS_ _ _ _ _ (by omega) hj (Option.some.inj hkv)
      exact hin (by omega)
    rw [if_neg hex, if_neg hin]

theorem view_write_through_witness :
    ∃ V V2 M2, (AbstractDynMat.new .dyn 3 3 : AbstractDynMat Int).slice .dyn 0 1 0 1 1 1
        = .ok (AbstractDynMat.new .dyn 3 3, V) ∧
      AbstractDynMat.operator_assign_scalar V (AbstractDynMat.new .dyn 3 3 : AbstractDynMat Int) 5
        = .ok (V2, M2) ∧
      M2.operator_call_const 0 0 = .ok 5 ∧ M2.operator_call_const 0 1 = .ok 5 ∧
      M2.operator_call_const 1 0 = .ok 5 ∧ M2.operator_call_const 1 1 = .ok 5 ∧
      M2.operator_call_const 2 2 = .ok 0 := by
  obtain ⟨V, V2, M2, h1, h2, _, _, h⟩ :=
    view_write_through .dyn (AbstractDynMat.new .dyn 3 3 : AbstractDynMat Int) 0 1 0 1 5
      (AbstractDynMat.WF_new .dyn 3 3) rfl (by decide) (by decide) (by decide) (by decide)
  refine ⟨V, V2, M2, h1, h2, ?_, ?_, ?_, ?_, ?_⟩
  · rw [h 0 0 (by decide) (by decide)]; rfl
  · rw [h 0 1 (by decide) (by decide)]; rfl
  · rw [h 1 0 (by decide) (by decide)]; rfl
  · rw [h 1 1 (by decide) (by decide)]; rfl
  · rw [h 2 2 (by decide) (by decide)]; rfl

namespace AbstractDynMat
variable {T : Type}

end AbstractDynMat

/-- Claim C5. The failing input of the slice postcondition: on the dense `3 x 3`
zero matrix, `slice(0, 2, 0, 2, 2, 2)` is in range with steps `2`, yet it does
not return a view: the view is built with `3 / 2 = 1` row while the loop over
`Range(0, 3, 2)` visits the rows `0` and `2`, and the store into view row `1`
panics. -/
theorem slice_stride_panics :
    (AbstractDynMat.new .dyn 3 3 : AbstractDynMat Int).slice .dyn 0 2 0 2 2 2
      = .error .panic := by
  rfl

/-- Claim C8. The failing input of the addition shape contract: the sum of the
`2 x 2` matrix `[[1,2],[3,4]]` and the `3 x 3` matrix `[[1,2,3],[4,5,6],[7,8,9]]`
does not fail: it returns the `2 x 2` matrix `[[2,4],[7,9]]` (the sum of a
`2 x 3` and a `3 x 2` matrix does abort, through the index check of
`other(0, 2)`). -/
theorem operator_add_accepts_mismatch :
    (∃ m3, AbstractDynMat.operator_add .dyn example_square example_3x3 = .ok m3 ∧
      m3.ROWS_ = 2 ∧ m3.COLS_ = 2 ∧
      m3.operator_call_const 0 0 = .ok 2 ∧ m3.operator_call_const 0 1 = .ok 4 ∧
      m3.operator_call_const 1 0 = .ok 7 ∧ m3.operator_call_const 1 1 = .ok 9) ∧
    AbstractDynMat.operator_add .dyn example_lhs example_3x2 = .error .panic := by
  refine ⟨⟨_, rfl, rfl, rfl, rfl, rfl, rfl, rfl⟩, rfl⟩

/-! ## Lemmas on the `double` accumulator -/

theorem bitLength_le (fuel N k : Nat) (h : N < 2 ^ k) : bitLength fuel N ≤ k := by
  induction fuel generalizing N k with
  | zero => simp [bitLength]
  | succ fuel ih =>
    by_cases hN : N = 0
    · simp [bitLength, hN]
    · have hk : 1 ≤ k := by
        rcases Nat.eq_zero_or_pos k with e | e
        · subst e; simp at h; exact absurd h hN
        · exact e
      have h2 : N / 2 < 2 ^ (k - 1) := by
        apply Nat.div_lt_of_lt_mul
        have : 2 * 2 ^ (k - 1) = 2 ^ k := by
          rw [← Nat.pow_succ']
          congr 1
          omega
        omega
      have := ih (N / 2) (k - 1) h2
      simp only [bitLength, hN, if_false]
      omega

theorem roundTo53_of_lt (N : Nat) (h : N < 2 ^ 53) : roundTo53 N = N := by
  have := bitLength_le (N + 1) N 53 h
  simp [roundTo53, this]

theorem roundDouble_of_exact (x : Int) (h : exactInt x) : roundDouble x = x := by
  unfold exactInt at h
  unfold roundDouble
  by_cases hx : 0 ≤ x
  · have e : x.toNat = x.natAbs := by omega
    rw [if_pos hx, e, roundTo53_of_lt _ h]
    omega
  · have e : (-x).toNat = x.natAbs := by omega
    rw [if_neg hx, e, roundTo53_of_lt _ h]
    omega

namespace AbstractDynMat

theorem dot_loop (self other : AbstractDynMat Int) (i j : Nat) (hs : self.WF) (ho : other.WF)
    (hc : self.COLS_ = other.ROWS_) (hi : i < self.ROWS_) (hj : j < other.COLS_) :
    forRange 0 (self.COLS_ : Int) 1 (fun k sum => do
        let a ← self.operator_call_const (i : Int).toNat k.toNat
        let b ← other.operator_call_const k.toNat (j : Int).toNat
        pure (roundDouble (sum + roundDouble (a * b)))) (0 : Int)
      = .ok (dotAcc self other i j) := by
  obtain ⟨s1, h1, h2⟩ := forRange_zero_inv self.COLS_ (fun k sum => do
        let a ← self.operator_call_const (i : Int).toNat k.toNat
        let b ← other.operator_call_const k.toNat (j : Int).toNat
        pure (roundDouble (sum + roundDouble (a * b))))
    (fun n s => s = (List.range n).foldl
      (fun sum k => roundDouble (sum + roundDouble (self.entry i k * other.entry k j))) 0)
    (0 : Int) (by simp)
    (by
      intro k s hk hinv
      refine ⟨roundDouble (s + roundDouble (self.entry i k * other.entry k j)), ?_, ?_⟩
      · have e1 := operator_call_const_ok self i k hs hi hk
        have e2 := operator_call_const_ok other k j ho (by omega) hj
        simp [e1, e2, entry, bind, Except.bind, pure, Except.pure]
      · show _ = (List.range (k + 1)).foldl _ 0
        rw [List.range_succ, List.foldl_append, ← hinv]
        rfl)
  rw [h1, h2]
  rfl

open Finset in
/-- Where every product and every partial sum for the entry `(i, j)` has
magnitude below `2^53`, the `double` accumulator holds the exact sum. -/
theorem dotAcc_exact (self other : AbstractDynMat Int) (i j : Nat)
    (hex : ∀ n, n < self.COLS_ →
      exactInt (self.entry i n * other.entry n j) ∧
      exactInt (∑ k ∈ range (n + 1), self.entry i k * other.entry k j)) :
    dotAcc self other i j = ∑ k ∈ range self.COLS_, self.entry i k * other.entry k j := by
  unfold dotAcc
  generalize self.COLS_ = c at hex
  induction c with
  | zero => simp
  | succ c ih =>
    rw [List.range_succ, List.foldl_append, ih (fun n hn => hex n (by omega)), sum_range_succ]
    simp only [List.foldl_cons, List.foldl_nil]
    rw [roundDouble_of_exact _ (hex c (by omega)).1]
    have := (hex c (by omega)).2
    rw [sum_range_succ] at this
    exact roundDouble_of_exact _ this

theorem operator_mul_assert (out : BufKind) (self other : AbstractDynMat Int)
    (hc : self.COLS_ ≠ other.ROWS_) : operator_mul out self other = .error .assertion := by
  simp [operator_mul, hc]

end AbstractDynMat

theorem exactInt_zero : exactInt 0 := by decide

namespace AbstractDynMat
variable {T : Type}

theorem item_eq [Inhabited T] (m : AbstractDynMat T) (k : Nat) (hwf : m.WF) (hk : k < m.SIZE) :
    m.item k = m.raw_.val k := by
  simp [item, operator_index_const_ok m k hwf hk]

end AbstractDynMat

/-- Claim C13, the claim as stated fails: `identity(2, 3)` (a shape with
`rows < cols`) does not return a matrix; the store `m(2, 2) = 1` panics. -/
theorem identity_wide_panics :
    AbstractDynMat.identity .dyn 2 3 = .error .panic := by
  rfl

/-- Claim C13, amended. Identity construction: for every shape with
`cols ≤ rows` (square, or more rows than columns), `identity(rows, cols)`
returns a `rows x cols` matrix that reads `1` at `(i, i)` for every `i < cols`
and `0` at every other valid `(i, j)`. -/
theorem identity_construction (kind : BufKind) (rows cols : Nat) (h : cols ≤ rows) :
    ∃ m, AbstractDynMat.identity kind rows cols = .ok m ∧ m.ROWS_ = rows ∧ m.COLS_ = cols ∧
      ∀ i j, i < rows → j < cols →
        m.operator_call_const i j = .ok (if i = j then 1 else 0) := by
  obtain ⟨m, hm, hwf, hr, hc, hv⟩ := AbstractDynMat.identity_ok kind rows cols h
  refine ⟨m, hm, hr, hc, ?_⟩
  intro i j hi hj
  rw [AbstractDynMat.operator_call_const_ok m i j hwf (by omega) (by omega),
    ← AbstractDynMat.entry_eq m i j hwf (by omega) (by omega), hv i j hi hj]

theorem identity_construction_witness :
    ∃ m, AbstractDynMat.identity .sparse 3 2 = .ok m ∧ m.ROWS_ = 3 ∧ m.COLS_ = 2 ∧
      ∀ i j, i < 3 → j < 2 →
        m.operator_call_const i j = .ok (if i = j then 1 else 0) :=
  identity_construction .sparse 3 2 (by decide)

namespace AbstractDynMat

end AbstractDynMat

/-! ## The threshold `ceil(0.05 * max_size_)` -/

theorem bitLength_spec (fuel N : Nat) (h : N < fuel) :
    N < 2 ^ bitLength fuel N ∧ (0 < N → 2 ^ (bitLength fuel N - 1) ≤ N) := by
  induction fuel generalizing N with
  | zero => omega
  | succ fuel ih =>
    by_cases hN : N = 0
    · subst hN; simp [bitLength]
    · have hlt : N / 2 < fuel := by omega
      obtain ⟨h1, h2⟩ := ih (N / 2) hlt
      simp only [bitLength, hN, if_false, Nat.add_sub_cancel]
      constructor
      · rw [Nat.pow_succ]; omega
      · intro _
        by_cases hh : N / 2 = 0
        · have : bitLength fuel (N / 2) = 0 := by
            rw [hh]; cases fuel <;> simp [bitLength]
          rw [this]; simp; omega
        · have h3 := h2 (by omega)
          have hb : 1 ≤ bitLength fuel (N / 2) := by
            rcases Nat.eq_zero_or_pos (bitLength fuel (N / 2)) with e | e
            · rw [e] at h1; simp at h1; omega
            · exact e
          have e : bitLength fuel (N / 2) = (bitLength fuel (N / 2) - 1) + 1 := by omega
          rw [e, Nat.pow_succ]
          omega

theorem roundTo53_unfold (N s : Nat) (hs : bitLength (N + 1) N = s + 53) (h1 : 1 ≤ s) :
    roundTo53 N =
      if N % 2 ^ s > 2 ^ (s - 1) ∨ (N % 2 ^ s = 2 ^ (s - 1) ∧ N / 2 ^ s % 2 = 1)
      then (N / 2 ^ s + 1) * 2 ^ s else N / 2 ^ s * 2 ^ s := by
  have hL : ¬ (s + 53 ≤ 53) := by omega
  simp only [roundTo53, hs, hL, if_false, Nat.add_sub_cancel]

/-- The arithmetic core of the threshold: `N = n * c` with `20 * c = 2^57 + 8`,
rounded at a unit `P = 2 * H` that divides `2^57`, is within one `2^57` below
its exact ceiling. -/
theorem round_ceil_core (n N P H M q r : Nat) (hn : n < 2 ^ 53)
    (hN : n * 7205759403792794 = N) (hP : P = 2 * H) (hH : H ≤ 2 ^ 52) (hH0 : 0 < H)
    (hMP : M * P = 2 ^ 57) (hlt : N < P * 2 ^ 53) (hge : H * 2 ^ 53 ≤ N)
    (hq : q = N / P) (hr : r = N % P) :
    ((if r > H ∨ (r = H ∧ q % 2 = 1) then (q + 1) * P else q * P) + (2 ^ 57 - 1)) / 2 ^ 57
      = (n + 19) / 20 := by
  have hP0 : 0 < P := by omega
  have hdm : P * q + r = N := by rw [hq, hr]; exact Nat.div_add_mod N P
  have hrlt : r < P := by rw [hr]; exact Nat.mod_lt _ hP0
  have e1 : (q + 1) * P = P * q + P := by ring
  have e2 : q * P = P * q := by ring
  rw [e1, e2]
  obtain ⟨f, b, hfb, hb19⟩ : ∃ f b, n = 20 * f + b ∧ b < 20 :=
    ⟨n / 20, n % 20, (Nat.div_add_mod n 20).symm, Nat.mod_lt _ (by omega)⟩
  have hNf : N = f * 2 ^ 57 + (8 * f + b * 7205759403792794) := by
    rw [← hN, hfb]; ring
  have hf : 20 * f < 2 ^ 53 := by omega
  clear hq hr hN
  by_cases hb : b = 0
  · -- `n = 20 f`: the product is `f * 2^57 + 8 f` and rounds down to `f * 2^57`
    subst hb
    have ht : (n + 19) / 20 = f := by omega
    rw [ht]
    have ht8 : 8 * f < H := by
      norm_num at hlt hge hf hH hNf ⊢
      omega
    have hNt : N = 8 * f + (f * M) * P := by
      rw [Nat.mul_assoc, hMP, hNf]; ring
    have hq2 : q = f * M := by
      have h1 : N / P = f * M := by
        rw [hNt, Nat.add_mul_div_right _ _ hP0, Nat.div_eq_of_lt (by omega)]
        simp
      have h2 : P * q ≤ N := by omega
      have h3 : N < P * (q + 1) := by rw [Nat.mul_add]; omega
      have h4 : q ≤ N / P := (Nat.le_div_iff_mul_le hP0).mpr (by rw [Nat.mul_comm]; exact h2)
      have h5 : N / P < q + 1 := (Nat.div_lt_iff_lt_mul hP0).mpr (by rw [Nat.mul_comm]; exact h3)
      omega
    have hA : P * q = f * 2 ^ 57 := by
      rw [hq2, Nat.mul_comm, Nat.mul_assoc, hMP]
    rw [hA] at hdm ⊢
    have hno : ¬ (r > H ∨ (r = H ∧ q % 2 = 1)) := by
      norm_num at hdm hNf ⊢
      omega
    rw [if_neg hno]
    norm_num
    omega
  · -- otherwise the product lies strictly between two multiples of `2^57`
    have ht : (n + 19) / 20 = f + 1 := by omega
    rw [ht]
    have hNup : N < (f + 1) * 2 ^ 57 := by
      norm_num at hf hNf ⊢
      omega
    have hNlo : f * 2 ^ 57 + 7205759403792794 ≤ N := by
      norm_num at hf hNf ⊢
      omega
    have hF1 : P * q + P ≤ (f + 1) * 2 ^ 57 := by
      have h1 : q * P < ((f + 1) * M) * P := by
        rw [Nat.mul_assoc, hMP, e2]; omega
      have h2 : q < (f + 1) * M := Nat.lt_of_mul_lt_mul_right h1
      have h3 : (q + 1) * P ≤ ((f + 1) * M) * P := Nat.mul_le_mul_right P h2
      rw [Nat.mul_assoc, hMP, e1] at h3
      exact h3
    clear hNf hfb hn ht hge hlt hMP e1 e2
    generalize P * q = A at *
    split_ifs with hc
    · norm_num at hH hNup hNlo hF1 ⊢
      omega
    · norm_num at hH hNup hNlo hF1 ⊢
      omega

theorem ceil_0_05_eq (n : Nat) (hn : n < 2 ^ 53) : ceil_0_05 n = (n + 19) / 20 := by
  by_cases h0 : n < 2
  · interval_cases n <;> decide
  · unfold ceil_0_05
    rw [roundTo53_of_lt n hn]
    generalize hN : n * 7205759403792794 = N
    obtain ⟨hlt, hge⟩ := bitLength_spec (N + 1) N (by omega)
    have hNlt : N < 2 ^ 106 := by norm_num at hn ⊢; omega
    have hNge : 2 ^ 53 ≤ N := by norm_num; omega
    have hup : bitLength (N + 1) N ≤ 106 := bitLength_le _ _ _ hNlt
    have hlow : 54 ≤ bitLength (N + 1) N := by
      by_contra hc
      have h1 : bitLength (N + 1) N ≤ 53 := by omega
      have h2 : 2 ^ bitLength (N + 1) N ≤ 2 ^ 53 := Nat.pow_le_pow_right (by omega) h1
      omega
    obtain ⟨s, hs⟩ : ∃ s, bitLength (N + 1) N = s + 53 :=
      ⟨bitLength (N + 1) N - 53, by omega⟩
    have hs1 : 1 ≤ s := by omega
    have hs2 : s ≤ 53 := by omega
    rw [roundTo53_unfold N s hs hs1]
    rw [hs] at hlt hge
    have hge2 := hge (by omega)
    have hPH : 2 ^ s = 2 * 2 ^ (s - 1) := by
      have : s = (s - 1) + 1 := by omega
      conv_lhs => rw [this, Nat.pow_succ]
      ring
    have hMP : 2 ^ (57 - s) * 2 ^ s = 2 ^ 57 := by
      rw [← Nat.pow_add]; congr 1; omega
    have hlt2 : N < 2 ^ s * 2 ^ 53 := by rw [← Nat.pow_add]; exact hlt
    have hge3 : 2 ^ (s - 1) * 2 ^ 53 ≤ N := by
      rw [← Nat.pow_add]
      have : s - 1 + 53 = s + 53 - 1 := by omega
      rw [this]; exact hge2
    exact round_ceil_core n N (2 ^ s) (2 ^ (s - 1)) (2 ^ (57 - s)) _ _ hn hN hPH
      (Nat.pow_le_pow_right (by omega) (by omega)) (Nat.pos_pow_of_pos _ (by omega)) hMP hlt2
      hge3 rfl rfl

/-! ## Representation of the sparse buffer -/

namespace HMap
variable {T : Type}

theorem at?_eq_none_iff (m : HMap T) (k : Nat) : m.at? k = none ↔ k ∉ m.map Prod.fst := by
  induction m with
  | nil => simp [at?]
  | cons p rest ih =>
    obtain ⟨a, b⟩ := p
    by_cases h : a = k
    · simp [at?, h]
    · have h2 : ¬ k = a := fun e => h e.symm
      simp [at?, h, h2, ih]

theorem at?_of_mem (m : HMap T) (k : Nat) (v : T) (hnd : (m.map Prod.fst).Nodup)
    (h : (k, v) ∈ m) : m.at? k = some v := by
  induction m with
  | nil => cases h
  | cons p rest ih =>
    obtain ⟨a, b⟩ := p
    rw [List.map_cons, List.nodup_cons] at hnd
    rcases List.mem_cons.mp h with e | e
    · cases e; simp [at?]
    · have hne : a ≠ k := by
        intro e2
        apply hnd.1
        rw [e2]
        exact List.mem_map.mpr ⟨(k, v), e, rfl⟩
      simp [at?, hne, ih hnd.2 e]

theorem keys_index [Inhabited T] (m : HMap T) (i : Nat) (hnd : (m.map Prod.fst).Nodup) :
    ((m.index i).map Prod.fst).Nodup := by
  unfold index
  cases h : m.at? i with
  | some v => exact hnd
  | none =>
    rw [List.map_cons, List.nodup_cons]
    exact ⟨(at?_eq_none_iff m i).mp h, hnd⟩

theorem keys_erase (m : HMap T) (x : Nat) :
    List.Sublist ((m.erase x).map Prod.fst) (m.map Prod.fst) := by
  induction m with
  | nil => simp [erase]
  | cons p rest ih =>
    obtain ⟨a, b⟩ := p
    by_cases h : a = x
    · simp only [erase, h, if_true, List.map_cons]
      exact List.Sublist.cons _ ih
    · simp only [erase, h, if_false, List.map_cons]
      exact List.Sublist.cons₂ _ ih

theorem keys_assign (m : HMap T) (i : Nat) (v : T) :
    (m.assign i v).map Prod.fst = m.map Prod.fst := by
  induction m with
  | nil => rfl
  | cons p rest ih =>
    obtain ⟨a, b⟩ := p
    by_cases h : a = i
    · simp [assign, h]
    · simp [assign, h, ih]

end HMap

namespace SparseBuffer
variable {T : Type}

theorem keys_sweepStep [Inhabited T] [DecidableEq T] (m : HMap T) (x : Nat)
    (hnd : (m.map Prod.fst).Nodup) : ((sweepStep m x).map Prod.fst).Nodup := by
  unfold sweepStep
  by_cases h : (m.index x).at? x = some default
  · simp only [h, if_true]
    exact List.Nodup.sublist (HMap.keys_erase _ _) (HMap.keys_index m x hnd)
  · simp only [h, if_false]
    exact HMap.keys_index m x hnd

theorem keys_sweep [Inhabited T] [DecidableEq T] (pz : List Nat) (m : HMap T)
    (hnd : (m.map Prod.fst).Nodup) : ((sweep m pz).map Prod.fst).Nodup := by
  induction pz generalizing m with
  | nil => exact hnd
  | cons x rest ih =>
    rw [sweep_cons]
    exact ih _ (keys_sweepStep m x hnd)

/-- What a compaction loop does to the table: a key is erased exactly when it
is one of the inspected indices and its current value is zero; every other
entry is left as it was. -/
theorem at?_sweep [Inhabited T] [DecidableEq T] (pz : List Nat) (m : HMap T) (k : Nat) :
    (sweep m pz).at? k =
      if k ∈ pz ∧ (m.at? k).getD default = default then none else m.at? k := by
  induction pz generalizing m with
  | nil => simp [sweep]
  | cons x rest ih =>
    rw [sweep_cons, ih, at?_sweepStep]
    by_cases hk : k = x
    · subst hk
      by_cases hz : (m.at? k).getD default = default
      · simp [hz]
      · simp [hz]
    · simp [hk]

theorem Inv_fresh [Inhabited T] (n t : Nat) : (fresh n t : SparseBuffer T).Inv := by
  refine ⟨by simp [fresh], ?_, by simp [fresh], by simp [fresh]⟩
  intro k h
  simp [fresh, HMap.at?] at h

theorem Inv_write [Inhabited T] [DecidableEq T] (b : SparseBuffer T) (i : Nat) (v : T)
    (h : b.Inv) : (b.write i v).Inv := by
  obtain ⟨hnd, hz, hlen, hcnt⟩ := h
  unfold write store
  by_cases hc : b.cnt_ + 1 > b.treshold_
  · rw [index_of_gt b i hc]
    refine ⟨?_, ?_, by simp, by simp⟩
    · show ((((sweep b.raw_ b.potentially_zero_).index i).assign i v).map Prod.fst).Nodup
      rw [HMap.keys_assign]
      exact HMap.keys_index _ _ (keys_sweep _ _ hnd)
    · intro k hk
      simp only [HMap.at?_assign, HMap.at?_index] at hk
      by_cases hki : k = i
      · simp [hki]
      · simp only [hki, if_false] at hk
        rw [at?_sweep] at hk
        by_cases hm : k ∈ b.potentially_zero_ ∧ (b.raw_.at? k).getD default = default
        · rw [if_pos hm] at hk; cases hk
        · rw [if_neg hm] at hk
          exact absurd ⟨hz k hk, by rw [hk]; rfl⟩ hm
  · rw [index_of_le b i hc]
    refine ⟨?_, ?_, by simp; omega, by simp; omega⟩
    · show (((b.raw_.index i).assign i v).map Prod.fst).Nodup
      rw [HMap.keys_assign]
      exact HMap.keys_index _ _ hnd
    · intro k hk
      simp only [HMap.at?_assign, HMap.at?_index] at hk
      by_cases hki : k = i
      · simp [hki]
      · simp only [hki, if_false] at hk
        simp [hz k hk]

theorem Inv_writes [Inhabited T] [DecidableEq T] (ws : List (Nat × T)) (b : SparseBuffer T)
    (h : b.Inv) : (b.writes ws).Inv := by
  induction ws generalizing b with
  | nil => exact h
  | cons w rest ih =>
    rw [writes_cons]
    exact ih _ (Inv_write b w.1 w.2 h)

/-- Under the invariant, the table holds at most `treshold_ + 1` entries with
the zero value. -/
theorem zeroCount_le [Inhabited T] [DecidableEq T] (b : SparseBuffer T) (h : b.Inv) :
    b.zeroCount ≤ b.treshold_ + 1 := by
  obtain ⟨hnd, hz, hlen, hcnt⟩ := h
  have hsub : ∀ k ∈ (b.raw_.filter (fun p => decide (p.2 = default))).map Prod.fst,
      k ∈ b.potentially_zero_ := by
    intro k hk
    obtain ⟨⟨k1, v⟩, hmem, hk1⟩ := List.mem_map.mp hk
    simp only at hk1
    subst hk1
    obtain ⟨hin, hv⟩ := List.mem_filter.mp hmem
    simp only [decide_eq_true_eq] at hv
    subst hv
    exact hz _ (HMap.at?_of_mem _ _ _ hnd hin)
  have hnd2 : ((b.raw_.filter (fun p => decide (p.2 = default))).map Prod.fst).Nodup :=
    List.Nodup.sublist (List.Sublist.map _ (List.filter_sublist _)) hnd
  have hle := (List.subperm_of_subset hnd2 hsub).length_le
  rw [List.length_map] at hle
  unfold zeroCount
  omega

end SparseBuffer

/-- Claim C19, the claim as stated fails: after the writes `m[0] = 0`,
`m[1] = 0`, `m[2] = 0` on a fresh sparse buffer of `2 * 3` slots (threshold
`1`), the table holds two entries with the zero value and none with a non-zero
value, more than the threshold plus the number of non-zero entries. -/
theorem stale_zero_bound_exceeded :
    ¬ (((SparseBuffer.new 2 3 : SparseBuffer Int).writes [(0, 0), (1, 0), (2, 0)]).zeroCount
        ≤ ((SparseBuffer.new 2 3 : SparseBuffer Int).writes [(0, 0), (1, 0), (2, 0)]).treshold_
          + ((SparseBuffer.new 2 3 : SparseBuffer Int).writes
              [(0, 0), (1, 0), (2, 0)]).nonzeroCount) := by
  decide

/-- Claim C19, amended. Stale-zero bound: in every state of a sparse buffer
reached from a fresh buffer by any sequence of writes, the number of table
entries whose value is zero is at most the eviction threshold plus one, hence
at most the threshold plus one plus the number of entries whose value is
non-zero. -/
theorem stale_zero_bound {T : Type} [Inhabited T] [DecidableEq T] (rows cols : Nat)
    (ws : List (Nat × T)) :
    ((SparseBuffer.new rows cols : SparseBuffer T).writes ws).zeroCount
      ≤ ((SparseBuffer.new rows cols : SparseBuffer T).writes ws).treshold_ + 1 ∧
    ((SparseBuffer.new rows cols : SparseBuffer T).writes ws).zeroCount
      ≤ ((SparseBuffer.new rows cols : SparseBuffer T).writes ws).treshold_ + 1
        + ((SparseBuffer.new rows cols : SparseBuffer T).writes ws).nonzeroCount := by
  have h := SparseBuffer.zeroCount_le _
    (SparseBuffer.Inv_writes ws (SparseBuffer.new rows cols : SparseBuffer T)
      (SparseBuffer.Inv_fresh _ _))
  exact ⟨h, by omega⟩

namespace SparseBuffer
variable {T : Type}

theorem writes_snoc [Inhabited T] [DecidableEq T] (b : SparseBuffer T) (ws : List (Nat × T))
    (w : Nat × T) : b.writes (ws ++ [w]) = (b.writes ws).write w.1 w.2 := by
  simp [writes, List.foldl_append]

/-- The counters after any sequence of writes on a fresh buffer with threshold
`t`: with `d` sweeps run so far and `r ≤ t` accesses since the last of them,
`cnt_` is `r` and `potentially_zero_` lists the indices accessed from the
access that ran the last sweep on (from the first access when `d = 0`). -/
theorem schedule [Inhabited T] [DecidableEq T] (n t : Nat) (ws : List (Nat × T)) :
    ∃ d r, ws.length = d * (t + 1) + r ∧ r ≤ t ∧
      ((fresh n t : SparseBuffer T).writes ws).cnt_ = r ∧
      ((fresh n t : SparseBuffer T).writes ws).potentially_zero_
        = (ws.drop (d * (t + 1) - 1)).map Prod.fst ∧
      ((fresh n t : SparseBuffer T).writes ws).treshold_ = t := by
  induction ws using List.reverseRecOn with
  | nil => exact ⟨0, 0, by simp, by omega, rfl, by simp [writes, fresh], rfl⟩
  | append_singleton ws w ih =>
    obtain ⟨d, r, hlen, hr, hcnt, hpz, ht⟩ := ih
    rw [writes_snoc]
    generalize (fresh n t : SparseBuffer T).writes ws = b at hcnt hpz ht
    unfold write store
    by_cases hc : b.cnt_ + 1 > b.treshold_
    · rw [index_of_gt b w.1 hc]
      have hrt : r = t := by omega
      refine ⟨d + 1, 0, ?_, by omega, rfl, ?_, ht⟩
      · rw [List.length_append, hlen, Nat.succ_mul]; simp; omega
      · have e : (d + 1) * (t + 1) - 1 = ws.length := by rw [Nat.succ_mul, hlen]; omega
        show [w.1] = _
        rw [e, List.drop_left]
        rfl
    · rw [index_of_le b w.1 hc]
      refine ⟨d, r + 1, ?_, by omega, by show b.cnt_ + 1 = r + 1; omega, ?_, ht⟩
      · rw [List.length_append, hlen]; simp; omega
      · show b.potentially_zero_ ++ [w.1] = _
        rw [hpz, List.drop_append_of_le_length (by omega), List.map_append]
        rfl

end SparseBuffer

/-- Claim C20, amended. Sweep schedule: on a sparse buffer freshly constructed
for `n = rows * cols < 2^53` slots (the `n` that are `double` values, which
the conversion of `n` to `double` does not round) the threshold is
`t = ceil(n / 20)`; after any
writes `ws`, the next mutable access (access number `ws.length + 1`) runs the
compaction loop exactly when that number is a multiple of `t + 1`; the loop
then inspects exactly the indices of the last `t + 1` accesses (of all `t`
accesses before the first sweep), erases exactly the inspected keys whose
current value is zero, and the access leaves `cnt_ = 0`; an access that is not
a multiple of `t + 1` erases nothing. -/
theorem sweep_schedule {T : Type} [Inhabited T] [DecidableEq T] (rows cols : Nat)
    (ws : List (Nat × T)) (i : Nat) (b : SparseBuffer T) (hn : rows * cols < 2 ^ 53)
    (hb : b = (SparseBuffer.new rows cols).writes ws) :
    b.treshold_ = (rows * cols + 19) / 20 ∧
    (b.sweeps = true ↔ (b.treshold_ + 1) ∣ (ws.length + 1)) ∧
    (b.sweeps = true →
      b.potentially_zero_ = (ws.drop (ws.length - (b.treshold_ + 1))).map Prod.fst ∧
      b.potentially_zero_.length
        = (if ws.length + 1 = b.treshold_ + 1 then b.treshold_ else b.treshold_ + 1) ∧
      (b.index i).raw_ = (SparseBuffer.sweep b.raw_ b.potentially_zero_).index i ∧
      (∀ k, (SparseBuffer.sweep b.raw_ b.potentially_zero_).at? k =
        if k ∈ b.potentially_zero_ ∧ b.index_const k = default then none else b.raw_.at? k) ∧
      (b.index i).cnt_ = 0) ∧
    (b.sweeps = false → (b.index i).raw_ = b.raw_.index i) := by
  obtain ⟨d, r, hlen, hr, hcnt, hpz, ht⟩ :=
    SparseBuffer.schedule (rows * cols) (ceil_0_05 (rows * cols)) ws
      (T := T)
  have hnew : (SparseBuffer.new rows cols : SparseBuffer T)
      = SparseBuffer.fresh (rows * cols) (ceil_0_05 (rows * cols)) := rfl
  rw [← hnew, ← hb] at hcnt hpz ht
  rw [ceil_0_05_eq _ hn] at hlen hr hpz ht
  generalize (rows * cols + 19) / 20 = t at hlen hr hcnt hpz ht
  have hsw : b.sweeps = true ↔ r = t := by
    simp only [SparseBuffer.sweeps, decide_eq_true_eq, hcnt, ht]
    omega
  have hgt : b.sweeps = true → b.cnt_ + 1 > b.treshold_ := by
    intro h
    simpa [SparseBuffer.sweeps] using h
  have hle : b.sweeps = false → ¬ b.cnt_ + 1 > b.treshold_ := by
    intro h
    simpa [SparseBuffer.sweeps] using h
  refine ⟨ht, ?_, ?_, ?_⟩
  · rw [hsw, ht]
    constructor
    · intro h
      subst h
      exact ⟨d + 1, by rw [hlen]; ring⟩
    · intro h
      rw [hlen, Nat.add_assoc] at h
      have h2 : t + 1 ∣ r + 1 := (Nat.dvd_add_right (Nat.dvd_mul_left (t + 1) d)).mp h
      have h3 := Nat.le_of_dvd (by omega) h2
      omega
  · intro hs
    have hrt : r = t := hsw.mp hs
    subst hrt
    generalize hX : d * (r + 1) = X at hlen hpz
    have e : ws.length - (b.treshold_ + 1) = X - 1 := by rw [ht, hlen]; omega
    refine ⟨by rw [e, hpz], ?_, ?_, ?_, ?_⟩
    · rw [hpz, List.length_map, List.length_drop, ht, hlen]
      split_ifs <;> omega
    · rw [SparseBuffer.index_of_gt b i (hgt hs)]
    · intro k
      rw [SparseBuffer.at?_sweep, SparseBuffer.index_const_eq]
    · rw [SparseBuffer.index_of_gt b i (hgt hs)]
  · intro hs
    rw [SparseBuffer.index_of_le b i (hle hs)]

theorem sweep_schedule_witness :
    ((SparseBuffer.new 2 3 : SparseBuffer Int).writes [(0, 0)]).treshold_ = (2 * 3 + 19) / 20 ∧
    ((SparseBuffer.new 2 3 : SparseBuffer Int).writes [(0, 0)]).sweeps = true ∧
    ((SparseBuffer.new 2 3 : SparseBuffer Int).writes [(0, 0)]).potentially_zero_ = [0] ∧
    (((SparseBuffer.new 2 3 : SparseBuffer Int).writes [(0, 0)]).index 4).cnt_ = 0 := by
  have h := sweep_schedule 2 3 [(0, 0)] 4
    ((SparseBuffer.new 2 3 : SparseBuffer Int).writes [(0, 0)]) (by decide) rfl
  have hs : ((SparseBuffer.new 2 3 : SparseBuffer Int).writes [(0, 0)]).sweeps = true :=
    h.2.1.mpr (by decide)
  exact ⟨h.1, hs, (h.2.2.1 hs).1, (h.2.2.1 hs).2.2.2.2⟩

/-! ## Loops that panic -/

theorem foldlM_range_total {σ : Type} (body : σ → Nat → Except Err σ) (Inv : Nat → σ → Prop)
    (n : Nat) (s0 : σ) (h0 : Inv 0 s0)
    (hstep : ∀ i s, i < n → Inv i s →
      (∃ s1, body s i = .ok s1 ∧ Inv (i + 1) s1) ∨ body s i = .error .panic) :
    (∃ s1, (List.range n).foldlM body s0 = .ok s1 ∧ Inv n s1) ∨
      (List.range n).foldlM body s0 = .error .panic := by
  induction n with
  | zero => exact Or.inl ⟨s0, rfl, h0⟩
  | succ n ih =>
    rw [List.range_succ, List.foldlM_append]
    rcases ih (fun i s hi hinv => hstep i s (by omega) hinv) with ⟨s1, h1, hI⟩ | h1
    · rw [h1]
      rcases hstep n s1 (by omega) hI with ⟨s2, h2, hI2⟩ | h2
      · exact Or.inl ⟨s2, by simp [bind, Except.bind, h2, pure, Except.pure], hI2⟩
      · exact Or.inr (by simp [bind, Except.bind, h2])
    · rw [h1]
      exact Or.inr rfl

theorem foldlM_range_error {σ : Type} (body : σ → Nat → Except Err σ) (n k : Nat) (s0 : σ)
    (e : Err) (hk : k ≤ n) (h : (List.range k).foldlM body s0 = .error e) :
    (List.range n).foldlM body s0 = .error e := by
  induction n with
  | zero =>
    have : k = 0 := by omega
    subst this; exact h
  | succ n ih =>
    by_cases hkn : k = n + 1
    · subst hkn; exact h
    · rw [List.range_succ, List.foldlM_append, ih (by omega)]
      rfl

/-- A loop over `0, ..., n - 1` whose body keeps an invariant or panics before
iteration `k < n`, and panics at iteration `k`, panics. -/
theorem foldlM_range_fail {σ : Type} (body : σ → Nat → Except Err σ) (Inv : Nat → σ → Prop)
    (n k : Nat) (hk : k < n) (s0 : σ) (h0 : Inv 0 s0)
    (hstep : ∀ i s, i < k → Inv i s →
      (∃ s1, body s i = .ok s1 ∧ Inv (i + 1) s1) ∨ body s i = .error .panic)
    (hfail : ∀ s, Inv k s → body s k = .error .panic) :
    (List.range n).foldlM body s0 = .error .panic := by
  apply foldlM_range_error body n (k + 1) s0 .panic (by omega)
  rw [List.range_succ, List.foldlM_append]
  rcases foldlM_range_total body Inv k s0 h0 hstep with ⟨s1, h1, hI⟩ | h1
  · rw [h1]
    simp [bind, Except.bind, hfail s1 hI]
  · rw [h1]; rfl

theorem forRange_total {σ : Type} (start stop step : Nat) (hstep : 1 ≤ step)
    (hle : start ≤ stop) (body : Int → σ → Except Err σ) (Inv : Nat → σ → Prop) (s0 : σ)
    (h0 : Inv 0 s0)
    (hbody : ∀ n s, n < stepCount start stop step → Inv n s →
      (∃ s1, body ((start + n * step : Nat) : Int) s = .ok s1 ∧ Inv (n + 1) s1) ∨
        body ((start + n * step : Nat) : Int) s = .error .panic) :
    (∃ s1, forRange (start : Int) (stop : Int) (step : Int) body s0 = .ok s1 ∧
      Inv (stepCount start stop step) s1) ∨
      forRange (start : Int) (stop : Int) (step : Int) body s0 = .error .panic := by
  rw [forRange_eq start stop step hstep hle]
  exact foldlM_range_total _ Inv _ s0 h0 hbody

theorem forRange_fail {σ : Type} (start stop step : Nat) (hstep : 1 ≤ step)
    (hle : start ≤ stop) (body : Int → σ → Except Err σ) (Inv : Nat → σ → Prop) (k : Nat)
    (hk : k < stepCount start stop step) (s0 : σ) (h0 : Inv 0 s0)
    (hbody : ∀ n s, n < k → Inv n s →
      (∃ s1, body ((start + n * step : Nat) : Int) s = .ok s1 ∧ Inv (n + 1) s1) ∨
        body ((start + n * step : Nat) : Int) s = .error .panic)
    (hfail : ∀ s, Inv k s → body ((start + k * step : Nat) : Int) s = .error .panic) :
    forRange (start : Int) (stop : Int) (step : Int) body s0 = .error .panic := by
  rw [forRange_eq start stop step hstep hle]
  exact foldlM_range_fail _ Inv _ k hk s0 h0 hbody hfail

theorem lt_stepCount (start stop step a : Nat) (hstep : 1 ≤ step)
    (h : start + a * step < stop) : a < stepCount start stop step := by
  unfold stepCount
  apply (Nat.le_div_iff_mul_le (by omega)).mpr
  rw [Nat.succ_mul]
  omega

theorem stepCount_not_dvd (start stop step : Nat) (hstep : 1 ≤ step)
    (h : ¬ step ∣ stop - start) : (stop - start) / step < stepCount start stop step := by
  unfold stepCount
  apply (Nat.le_div_iff_mul_le (by omega)).mpr
  have h1 := Nat.div_add_mod (stop - start) step
  have h2 : (stop - start) % step ≠ 0 := fun e => h (Nat.dvd_of_mod_eq_zero e)
  rw [Nat.succ_mul, Nat.mul_comm]
  omega

theorem stepCount_lt (start stop step n : Nat) (hstep : 1 ≤ step)
    (h : n < stepCount start stop step) : start + n * step < stop := by
  unfold stepCount at h
  have h1 := (Nat.le_div_iff_mul_le (by omega : 0 < step)).mp h
  rw [Nat.succ_mul] at h1
  omega

namespace AbstractDynMat
variable {T : Type}

/-- One pass through the body of the inner loop of `slice`: it either returns,
keeping both matrices well formed and of the same shape, or panics; it panics
when the parent index or the view index is out of range. -/
theorem slice_cell [Inhabited T] [DecidableEq T] (p : AbstractDynMat T) (m : AbstractDynMat Ptr)
    (i j im jm : Nat) (hp : p.WF) (hm : m.WF) :
    ((∃ p1 m1, (do
          let d ← p.operator_call i j
          let m3 ← m.set_call im jm (some d.2)
          pure (d.1, m3, jm + 1) : Except Err (AbstractDynMat T × AbstractDynMat Ptr × Nat))
        = .ok (p1, m1, jm + 1) ∧ p1.WF ∧ SameShape p p1 ∧ m1.WF ∧ SameShape m m1) ∨
      (do
          let d ← p.operator_call i j
          let m3 ← m.set_call im jm (some d.2)
          pure (d.1, m3, jm + 1) : Except Err (AbstractDynMat T × AbstractDynMat Ptr × Nat))
        = .error .panic) ∧
    ((p.ROWS_ ≤ i ∨ p.COLS_ ≤ j ∨ m.ROWS_ ≤ im ∨ m.COLS_ ≤ jm) →
      (do
          let d ← p.operator_call i j
          let m3 ← m.set_call im jm (some d.2)
          pure (d.1, m3, jm + 1) : Except Err (AbstractDynMat T × AbstractDynMat Ptr × Nat))
        = .error .panic) := by
  by_cases hin : i < p.ROWS_ ∧ j < p.COLS_
  · obtain ⟨p1, hcall, hwf1, hsh1, _, _, _⟩ := operator_call_ok p i j hp hin.1 hin.2
    by_cases hin2 : im < m.ROWS_ ∧ jm < m.COLS_
    · obtain ⟨m1, hset, hwfm, hshm, _⟩ :=
        set_call_ok m im jm (some (j + i * p.COLS_)) hm hin2.1 hin2.2
      refine ⟨Or.inl ⟨p1, m1, ?_, hwf1, hsh1, hwfm, hshm⟩, ?_⟩
      · simp [hcall, hset, bind, Except.bind, pure, Except.pure]
      · intro h; omega
    · have hset := set_call_panic m im jm (some (j + i * p.COLS_)) (by omega)
      have : (do
          let d ← p.operator_call i j
          let m3 ← m.set_call im jm (some d.2)
          pure (d.1, m3, jm + 1) : Except Err (AbstractDynMat T × AbstractDynMat Ptr × Nat))
        = .error .panic := by
        simp [hcall, hset, bind, Except.bind]
      exact ⟨Or.inr this, fun _ => this⟩
  · have hcall := operator_call_panic p i j (by omega)
    have : (do
        let d ← p.operator_call i j
        let m3 ← m.set_call im jm (some d.2)
        pure (d.1, m3, jm + 1) : Except Err (AbstractDynMat T × AbstractDynMat Ptr × Nat))
      = .error .panic := by
      simp [hcall, bind, Except.bind]
    exact ⟨Or.inr this, fun _ => this⟩

/-- The inner loop of `slice` for one row: it returns or panics, and it panics
when one of the cells it visits has an index out of range. -/
theorem slice_row [Inhabited T] [DecidableEq T] (R C VR VC sc ec stepc i : Nat)
    (st : AbstractDynMat T × AbstractDynMat Ptr × Nat) (h2 : 1 ≤ stepc) (hc : sc ≤ ec)
    (hinv : SliceInv R C VR VC st.1 st.2.1) :
    ((∃ s1, forRange (sc : Int) ((ec : Int) + 1) (stepc : Int) (fun j st2 => do
          let __discr ← st2.1.operator_call ((i : Nat) : Int).toNat j.toNat
          let m3 ← st2.2.1.set_call st.2.2 st2.2.2 (some __discr.2)
          pure (__discr.1, m3, st2.2.2 + 1)) (st.1, st.2.1, 0) = .ok s1 ∧
        SliceInv R C VR VC s1.1 s1.2.1) ∨
      forRange (sc : Int) ((ec : Int) + 1) (stepc : Int) (fun j st2 => do
          let __discr ← st2.1.operator_call ((i : Nat) : Int).toNat j.toNat
          let m3 ← st2.2.1.set_call st.2.2 st2.2.2 (some __discr.2)
          pure (__discr.1, m3, st2.2.2 + 1)) (st.1, st.2.1, 0) = .error .panic) ∧
    (∀ k1, sc + k1 * stepc ≤ ec → (R ≤ i ∨ C ≤ sc + k1 * stepc ∨ VR ≤ st.2.2 ∨ VC ≤ k1) →
      forRange (sc : Int) ((ec : Int) + 1) (stepc : Int) (fun j st2 => do
          let __discr ← st2.1.operator_call ((i : Nat) : Int).toNat j.toNat
          let m3 ← st2.2.1.set_call st.2.2 st2.2.2 (some __discr.2)
          pure (__discr.1, m3, st2.2.2 + 1)) (st.1, st.2.1, 0) = .error .panic) := by
  have hec : ((ec : Int) + 1) = ((ec + 1 : Nat) : Int) := by push_cast; rfl
  rw [hec]
  have hstepbody : ∀ n (s : AbstractDynMat T × AbstractDynMat Ptr × Nat),
      SliceInv R C VR VC s.1 s.2.1 ∧ s.2.2 = n →
      ((∃ s1, (do
          let __discr ← s.1.operator_call ((i : Nat) : Int).toNat
            (((sc + n * stepc : Nat) : Int)).toNat
          let m3 ← s.2.1.set_call st.2.2 s.2.2 (some __discr.2)
          pure (__discr.1, m3, s.2.2 + 1) :
            Except Err (AbstractDynMat T × AbstractDynMat Ptr × Nat)) = .ok s1 ∧
          SliceInv R C VR VC s1.1 s1.2.1 ∧ s1.2.2 = n + 1) ∨
        (do
          let __discr ← s.1.operator_call ((i : Nat) : Int).toNat
            (((sc + n * stepc : Nat) : Int)).toNat
          let m3 ← s.2.1.set_call st.2.2 s.2.2 (some __discr.2)
          pure (__discr.1, m3, s.2.2 + 1) :
            Except Err (AbstractDynMat T × AbstractDynMat Ptr × Nat)) = .error .panic) ∧
      ((R ≤ i ∨ C ≤ sc + n * stepc ∨ VR ≤ st.2.2 ∨ VC ≤ n) →
        (do
          let __discr ← s.1.operator_call ((i : Nat) : Int).toNat
            (((sc + n * stepc : Nat) : Int)).toNat
          let m3 ← s.2.1.set_call st.2.2 s.2.2 (some __discr.2)
          pure (__discr.1, m3, s.2.2 + 1) :
            Except Err (AbstractDynMat T × AbstractDynMat Ptr × Nat)) = .error .panic) := by
    intro n s ⟨⟨hpwf, hpr, hpc, hmwf, hmr, hmc⟩, hjm⟩
    simp only [Int.toNat_ofNat]
    obtain ⟨hA, hB⟩ := slice_cell s.1 s.2.1 i (sc + n * stepc) st.2.2 s.2.2 hpwf hmwf
    constructor
    · rcases hA with ⟨p1, m1, hok, hwf1, hsh1, hwfm, hshm⟩ | hpanic
      · refine Or.inl ⟨(p1, m1, s.2.2 + 1), hok, ⟨hwf1, ?_, ?_, hwfm, ?_, ?_⟩, by simp [hjm]⟩
        · rw [hsh1.1, hpr]
        · rw [hsh1.2.1, hpc]
        · rw [hshm.1, hmr]
        · rw [hshm.2.1, hmc]
      · exact Or.inr hpanic
    · intro hbad
      apply hB
      rw [hpr, hpc, hmr, hmc, hjm]
      exact hbad
  constructor
  · rcases forRange_total sc (ec + 1) stepc h2 (by omega)
      (fun j (st2 : AbstractDynMat T × AbstractDynMat Ptr × Nat) => do
          let __discr ← st2.1.operator_call ((i : Nat) : Int).toNat j.toNat
          let m3 ← st2.2.1.set_call st.2.2 st2.2.2 (some __discr.2)
          pure (__discr.1, m3, st2.2.2 + 1))
      (fun n s => SliceInv R C VR VC s.1 s.2.1 ∧ s.2.2 = n) (st.1, st.2.1, 0) ⟨hinv, rfl⟩
      (fun n s _ hI => by
        rcases (hstepbody n s hI).1 with ⟨s1, h1, h2⟩ | h1
        · exact Or.inl ⟨s1, h1, h2⟩
        · exact Or.inr h1) with ⟨s1, h1, hI⟩ | h1
    · exact Or.inl ⟨s1, h1, hI.1⟩
    · exact Or.inr h1
  · intro k1 hk1 hbad
    exact forRange_fail sc (ec + 1) stepc h2 (by omega) _
      (fun n s => SliceInv R C VR VC s.1 s.2.1 ∧ s.2.2 = n) k1
      (lt_stepCount _ _ _ _ h2 (by omega)) (st.1, st.2.1, 0) ⟨hinv, rfl⟩
      (fun n s _ hI => by
        rcases (hstepbody n s hI).1 with ⟨s1, h1, h2⟩ | h1
        · exact Or.inl ⟨s1, h1, h2⟩
        · exact Or.inr h1)
      (fun s hI => (hstepbody k1 s hI).2 hbad)

end AbstractDynMat

namespace AbstractDynMat
variable {T : Type}

/-- The method `slice` panics when one of the cells its loops visit, the
`k1`-th column of the `k`-th row visited, has a parent index out of range or
lies outside the view as sized. -/
theorem slice_fail [Inhabited T] [DecidableEq T] (out : BufKind) (self : AbstractDynMat T)
    (sr er sc ec stepr stepc : Nat) (hwf : self.WF) (h1 : 1 ≤ stepr) (h2 : 1 ≤ stepc)
    (hr : sr ≤ er) (hc : sc ≤ ec) (k k1 : Nat) (hk : sr + k * stepr ≤ er)
    (hk1 : sc + k1 * stepc ≤ ec)
    (hbad : self.ROWS_ ≤ sr + k * stepr ∨ self.COLS_ ≤ sc + k1 * stepc ∨
      (er + 1 - sr) / stepr ≤ k ∨ (ec + 1 - sc) / stepc ≤ k1) :
    slice out self sr er sc ec stepr stepc = .error .panic := by
  have hz : ¬ (stepr = 0 ∨ stepc = 0) := by omega
  have hsr : spanSize sr er = er + 1 - sr := by simp [spanSize]; omega
  have hsc : spanSize sc ec = ec + 1 - sc := by simp [spanSize]; omega
  have her : ((er : Int) + 1) = ((er + 1 : Nat) : Int) := by push_cast; rfl
  have hrowstep : ∀ n (st : AbstractDynMat T × AbstractDynMat Ptr × Nat),
      SliceInv self.ROWS_ self.COLS_ ((er + 1 - sr) / stepr) ((ec + 1 - sc) / stepc)
        st.1 st.2.1 ∧ st.2.2 = n →
      ((∃ s1, (do
          let __discr ← forRange (sc : Int) ((ec : Int) + 1) (stepc : Int) (fun j st2 => do
              let __discr ← st2.1.operator_call (((sr + n * stepr : Nat) : Int)).toNat j.toNat
              let m3 ← st2.2.1.set_call st.2.2 st2.2.2 (some __discr.2)
              pure (__discr.1, m3, st2.2.2 + 1)) (st.1, st.2.1, 0)
          pure (__discr.1, __discr.2.1, st.2.2 + 1) :
            Except Err (AbstractDynMat T × AbstractDynMat Ptr × Nat)) = .ok s1 ∧
          SliceInv self.ROWS_ self.COLS_ ((er + 1 - sr) / stepr) ((ec + 1 - sc) / stepc)
            s1.1 s1.2.1 ∧ s1.2.2 = n + 1) ∨
        (do
          let __discr ← forRange (sc : Int) ((ec : Int) + 1) (stepc : Int) (fun j st2 => do
              let __discr ← st2.1.operator_call (((sr + n * stepr : Nat) : Int)).toNat j.toNat
              let m3 ← st2.2.1.set_call st.2.2 st2.2.2 (some __discr.2)
              pure (__discr.1, m3, st2.2.2 + 1)) (st.1, st.2.1, 0)
          pure (__discr.1, __discr.2.1, st.2.2 + 1) :
            Except Err (AbstractDynMat T × AbstractDynMat Ptr × Nat)) = .error .panic) ∧
      ((self.ROWS_ ≤ sr + n * stepr ∨ self.COLS_ ≤ sc + k1 * stepc ∨
          (er + 1 - sr) / stepr ≤ n ∨ (ec + 1 - sc) / stepc ≤ k1) →
        (do
          let __discr ← forRange (sc : Int) ((ec : Int) + 1) (stepc : Int) (fun j st2 => do
              let __discr ← st2.1.operator_call (((sr + n * stepr : Nat) : Int)).toNat j.toNat
              let m3 ← st2.2.1.set_call st.2.2 st2.2.2 (some __discr.2)
              pure (__discr.1, m3, st2.2.2 + 1)) (st.1, st.2.1, 0)
          pure (__discr.1, __discr.2.1, st.2.2 + 1) :
            Except Err (AbstractDynMat T × AbstractDynMat Ptr × Nat)) = .error .panic) := by
    intro n st ⟨hinv, him⟩
    obtain ⟨hA, hB⟩ := slice_row self.ROWS_ self.COLS_ ((er + 1 - sr) / stepr)
      ((ec + 1 - sc) / stepc) sc ec stepc (sr + n * stepr) st h2 hc hinv
    constructor
    · rcases hA with ⟨s1, hs1, hI⟩ | hp
      · refine Or.inl ⟨(s1.1, s1.2.1, st.2.2 + 1), ?_, hI, by simp [him]⟩
        rw [hs1]; rfl
      · refine Or.inr ?_
        rw [hp]; rfl
    · intro hb
      rw [hB k1 hk1 (by rw [him]; exact hb)]
      rfl
  have hfail := forRange_fail sr (er + 1) stepr h1 (by omega)
    (fun i (st : AbstractDynMat T × AbstractDynMat Ptr × Nat) => do
      let __discr ← forRange (sc : Int) ((ec : Int) + 1) (stepc : Int) (fun j st2 => do
          let __discr ← st2.1.operator_call i.toNat j.toNat
          let m3 ← st2.2.1.set_call st.2.2 st2.2.2 (some __discr.2)
          pure (__discr.1, m3, st2.2.2 + 1)) (st.1, st.2.1, 0)
      pure (__discr.1, __discr.2.1, st.2.2 + 1))
    (fun n st => SliceInv self.ROWS_ self.COLS_ ((er + 1 - sr) / stepr)
      ((ec + 1 - sc) / stepc) st.1 st.2.1 ∧ st.2.2 = n) k
    (lt_stepCount _ _ _ _ h1 (by omega))
    (self, new out ((er + 1 - sr) / stepr) ((ec + 1 - sc) / stepc), 0)
    ⟨⟨hwf, rfl, rfl, WF_new _ _ _, rfl, rfl⟩, rfl⟩
    (fun n st _ hI => by
      rcases (hrowstep n st hI).1 with ⟨s1, h1, h2⟩ | h1
      · exact Or.inl ⟨s1, h1, h2⟩
      · exact Or.inr h1)
    (fun st hI => (hrowstep k st hI).2 hbad)
  simp only [slice, hz, if_false, hsr, hsc, her]
  simp only [her] at hfail
  rw [hfail]
  rfl

/-- An in-range `slice` that returns a view has strides that fit their spans
exactly. -/
theorem slice_dvd [Inhabited T] [DecidableEq T] (out : BufKind) (self : AbstractDynMat T)
    (sr er sc ec stepr stepc : Nat) (hwf : self.WF) (h1 : 1 ≤ stepr) (h2 : 1 ≤ stepc)
    (hr : sr ≤ er) (hc : sc ≤ ec) (p : AbstractDynMat T) (v : AbstractDynMat Ptr)
    (h : slice out self sr er sc ec stepr stepc = .ok (p, v)) :
    stepr ∣ er + 1 - sr ∧ stepc ∣ ec + 1 - sc := by
  constructor
  · by_contra hnd
    have hlt := stepCount_not_dvd sr (er + 1) stepr h1 hnd
    have hvis := stepCount_lt sr (er + 1) stepr _ h1 hlt
    rw [slice_fail out self sr er sc ec stepr stepc hwf h1 h2 hr hc
      ((er + 1 - sr) / stepr) 0 (by omega) (by omega) (Or.inr (Or.inr (Or.inl (le_refl _))))] at h
    cases h
  · by_contra hnd
    have hlt := stepCount_not_dvd sc (ec + 1) stepc h2 hnd
    have hvis := stepCount_lt sc (ec + 1) stepc _ h2 hlt
    rw [slice_fail out self sr er sc ec stepr stepc hwf h1 h2 hr hc
      0 ((ec + 1 - sc) / stepc) (by omega) (by omega) (Or.inr (Or.inr (Or.inr (le_refl _))))] at h
    cases h

end AbstractDynMat

theorem stride_fits (n s b : Nat) (hd : s ∣ n) (hb : b < n / s) : b * s + s ≤ n := by
  have h : (b + 1) * s ≤ n / s * s := Nat.mul_le_mul_right s hb
  rw [Nat.div_mul_cancel hd, Nat.succ_mul] at h
  exact h

namespace AbstractDynMat
variable {T : Type}

/-- The matrix assignment of a view whose elements are distinct pointers into
a dense parent stores `other[k]` in the slot the `k`-th element points to, for
every `k`, and leaves every other slot and the view as they were. -/
theorem operator_assign_ok [Inhabited T] (view : AbstractDynMat Ptr)
    (parent other : AbstractDynMat T) (hv : view.WF) (hp : parent.WF) (ho : other.WF)
    (hk : parent.raw_.kind = .dyn) (hsize : view.SIZE ≤ other.SIZE)
    (hptr : ∀ k, k < view.SIZE → ∃ slot, view.raw_.val k = some slot ∧ slot < parent.SIZE)
    (hinj : ∀ k k1, k < view.SIZE → k1 < view.SIZE → view.raw_.val k = view.raw_.val k1 →
      k = k1) :
    ∃ v2 p2, operator_assign view parent other = .ok (v2, p2) ∧
      p2.WF ∧ SameShape parent p2 ∧ p2.raw_.kind = .dyn ∧
      (SameShape view v2 ∧ ∀ x, v2.raw_.val x = view.raw_.val x) ∧
      (∀ k slot, k < view.SIZE → view.raw_.val k = some slot →
        p2.raw_.val slot = other.raw_.val k) ∧
      ∀ x, (¬ ∃ k, k < view.SIZE ∧ view.raw_.val k = some x) →
        p2.raw_.val x = parent.raw_.val x := by
  obtain ⟨s1, h1, hI⟩ := forRange_zero_inv view.SIZE
    (fun i (st : AbstractDynMat Ptr × AbstractDynMat T) => do
      let v ← other.operator_index_const i.toNat
      let b ← st.1.raw_.index i.toNat
      let ptr ← b.load i.toNat
      match ptr with
      | none => .error .undefined
      | some slot =>
        let p ← st.2.store slot v
        pure ({ st.1 with raw_ := b }, p))
    (fun n st => (st.1.raw_.WF view.SIZE ∧ SameShape view st.1 ∧
        ∀ x, st.1.raw_.val x = view.raw_.val x) ∧
      st.2.WF ∧ SameShape parent st.2 ∧ st.2.raw_.kind = .dyn ∧
      (∀ k slot, k < n → view.raw_.val k = some slot → st.2.raw_.val slot = other.raw_.val k) ∧
      ∀ x, (¬ ∃ k, k < n ∧ view.raw_.val k = some x) → st.2.raw_.val x = parent.raw_.val x)
    (view, parent)
    ⟨⟨hv.2, ⟨rfl, rfl, rfl⟩, fun _ => rfl⟩, hp, ⟨rfl, rfl, rfl⟩, hk,
      fun k slot hk0 => absurd hk0 (Nat.not_lt_zero k), fun x _ => rfl⟩
    (by
      intro i st hi ⟨⟨hvwf, hvsh, hvval⟩, hpwf, hpsh, hpk, hset, hframe⟩
      obtain ⟨slot, hslot, hlt⟩ := hptr i hi
      obtain ⟨b1, hb1, hwf1, hval1, hload, _⟩ := MemBuf.index_ok st.1.raw_ view.SIZE i hvwf hi
      obtain ⟨p2, hst, hwf2, hsh2, hk2, hval2⟩ :=
        store_dyn_ok st.2 slot (other.raw_.val i) hpwf hpk (by rw [hpsh.2.2]; exact hlt)
      have hoth := operator_index_const_ok other i ho (by omega)
      refine ⟨({ st.1 with raw_ := b1 }, p2), ?_, ⟨hwf1, hvsh, ?_⟩, hwf2, ?_, hk2, ?_, ?_⟩
      · rw [hvval i, hslot] at hload
        simp [hoth, hb1, hload, hst, bind, Except.bind, pure, Except.pure]
      · intro x
        show b1.val x = _
        rw [hval1 x, hvval x]
      · exact ⟨by rw [hsh2.1, hpsh.1], by rw [hsh2.2.1, hpsh.2.1], by rw [hsh2.2.2, hpsh.2.2]⟩
      · intro k s hk1 hks
        show p2.raw_.val s = _
        rw [hval2 s]
        by_cases hki : k = i
        · subst hki
          rw [hslot] at hks
          rw [if_pos (Option.some.inj hks).symm]
        · have hne : s ≠ slot := by
            intro e
            subst e
            exact hki (hinj k i (by omega) hi (by rw [hks, hslot]))
          rw [if_neg hne]
          exact hset k s (by omega) hks
      · intro x hx
        show p2.raw_.val x = _
        rw [hval2 x]
        have hne : x ≠ slot := by
          intro e
          subst e
          exact hx ⟨i, by omega, hslot⟩
        rw [if_neg hne]
        exact hframe x (fun ⟨k, hk1, hk2⟩ => hx ⟨k, by omega, hk2⟩))
  refine ⟨s1.1, s1.2, ?_, hI.2.1, hI.2.2.1, hI.2.2.2.1, ⟨hI.1.2.1, hI.1.2.2⟩, hI.2.2.2.2.1,
    hI.2.2.2.2.2⟩
  simp only [operator_assign]
  exact h1

/-- What an in-range `slice` of a dense matrix that returns gives: the matrix
itself and a view of shape `span / step` whose element `(a, b)` is the slot of
the parent entry `(start_row + a * step_row, start_col + b * step_col)`, which
is in range. -/
theorem slice_inv [Inhabited T] [DecidableEq T] (out : BufKind) (self : AbstractDynMat T)
    (sr er sc ec stepr stepc : Nat) (hwf : self.WF) (hdyn : self.raw_.kind = .dyn)
    (h1 : 1 ≤ stepr) (h2 : 1 ≤ stepc) (hr : sr ≤ er) (hr2 : er < self.ROWS_) (hc : sc ≤ ec)
    (hc2 : ec < self.COLS_) (p : AbstractDynMat T) (v : AbstractDynMat Ptr)
    (h : slice out self sr er sc ec stepr stepc = .ok (p, v)) :
    p = self ∧ v.WF ∧ v.ROWS_ = (er + 1 - sr) / stepr ∧ v.COLS_ = (ec + 1 - sc) / stepc ∧
      ∀ a b, a < v.ROWS_ → b < v.COLS_ →
        sr + a * stepr < self.ROWS_ ∧ sc + b * stepc < self.COLS_ ∧
        v.raw_.val (b + a * v.COLS_) = some (sliceSlot self.COLS_ sr sc stepr stepc a b) := by
  obtain ⟨hdr, hdc⟩ := slice_dvd out self sr er sc ec stepr stepc hwf h1 h2 hr hc p v h
  obtain ⟨p1, v1, hs, ⟨_, _, _, hp⟩, hvwf, hvr, hvc, hval⟩ :=
    slice_ok out self sr er sc ec stepr stepc hwf h1 h2 hr hr2 hc hc2 hdr hdc
  rw [hs] at h
  injection h with h
  injection h with e1 e2
  subst e1 e2
  refine ⟨hp hdyn, hvwf, hvr, hvc, ?_⟩
  intro a b ha hb
  rw [hvr] at ha
  rw [hvc] at hb
  have ea := stride_fits _ _ _ hdr ha
  have eb := stride_fits _ _ _ hdc hb
  refine ⟨by omega, by omega, ?_⟩
  rw [hvc]
  exact hval a b ha hb

end AbstractDynMat

/-- Claim C15. Assignment through a view: let `M` be a dense matrix and `V` a
view that an in-range slice of `M` (`start_row ≤ stop_row < ROWS_`,
`start_col ≤ stop_col < COLS_`, steps at least `1`) returned, and let `S` be a
matrix of either backend with the shape of `V`. Then the slice left `M` as it
was, the assignment `V = S` returns, and afterwards, for every linear index
`k < V.SIZE`, the `k`-th element of `V` points to a slot of the parent and
that slot holds `S[k]`; every parent slot no element of `V` points to holds
what it held in `M`; the shape of the parent and the elements of `V` are
unchanged. The source `S` is passed by value and only read, so it is not part
of the state the assignment returns. -/
theorem view_assign {T : Type} [Inhabited T] [DecidableEq T] (out : BufKind)
    (M M1 S : AbstractDynMat T) (V : AbstractDynMat Ptr)
    (start_row stop_row start_col stop_col step_row step_col : Nat)
    (hwf : M.WF) (hdyn : M.raw_.kind = .dyn) (h1 : 1 ≤ step_row) (h2 : 1 ≤ step_col)
    (hr : start_row ≤ stop_row) (hr2 : stop_row < M.ROWS_)
    (hc : start_col ≤ stop_col) (hc2 : stop_col < M.COLS_)
    (hslice : M.slice out start_row stop_row start_col stop_col step_row step_col = .ok (M1, V))
    (hS : S.WF) (hSr : S.ROWS_ = V.ROWS_) (hSc : S.COLS_ = V.COLS_) :
    M1 = M ∧ ∃ V2 M2, AbstractDynMat.operator_assign V M S = .ok (V2, M2) ∧
      M2.ROWS_ = M.ROWS_ ∧ M2.COLS_ = M.COLS_ ∧
      (∀ k, k < V.SIZE → ∃ slot, V.raw_.val k = some slot ∧ slot < M.SIZE ∧
        M2.operator_index_const slot = S.operator_index_const k ∧
        S.operator_index_const k = .ok (S.item k)) ∧
      (∀ x, x < M.SIZE → (¬ ∃ k, k < V.SIZE ∧ V.raw_.val k = some x) →
        M2.operator_index_const x = M.operator_index_const x) ∧
      ∀ k, V2.raw_.val k = V.raw_.val k := by
  obtain ⟨hM1, hVwf, hVr, hVc, hcell⟩ :=
    AbstractDynMat.slice_inv out M start_row stop_row start_col stop_col step_row step_col
      hwf hdyn h1 h2 hr hr2 hc hc2 M1 V hslice
  have hVsize : V.SIZE = V.ROWS_ * V.COLS_ := hVwf.1
  have hSsize : S.SIZE = V.SIZE := by rw [hS.1, hSr, hSc, hVsize]
  have hptr : ∀ k, k < V.SIZE → ∃ slot, V.raw_.val k = some slot ∧ slot < M.SIZE := by
    intro k hk
    rw [hVsize] at hk
    obtain ⟨ha, hb, hab⟩ := unslot _ _ k hk
    obtain ⟨e1, e2, e3⟩ := hcell _ _ ha hb
    rw [hab] at e3
    exact ⟨_, e3, by rw [hwf.1]; exact slot_lt _ _ _ _ e1 e2⟩
  have hinj : ∀ k k1, k < V.SIZE → k1 < V.SIZE → V.raw_.val k = V.raw_.val k1 → k = k1 := by
    intro k k1 hk hk1 he
    rw [hVsize] at hk hk1
    obtain ⟨ha, hb, hab⟩ := unslot _ _ k hk
    obtain ⟨ha1, hb1, hab1⟩ := unslot _ _ k1 hk1
    obtain ⟨e1, e2, e3⟩ := hcell _ _ ha hb
    obtain ⟨f1, f2, f3⟩ := hcell _ _ ha1 hb1
    rw [hab] at e3
    rw [hab1] at f3
    rw [e3, f3] at he
    have hs := Option.some.inj he
    simp only [AbstractDynMat.sliceSlot] at hs
    obtain ⟨g1, g2⟩ := slot_inj M.COLS_ _ _ _ _ e2 f2 hs
    have ga : k / V.COLS_ = k1 / V.COLS_ := by
      have := Nat.eq_of_mul_eq_mul_right (by omega : 0 < step_row)
        (by omega : k / V.COLS_ * step_row = k1 / V.COLS_ * step_row)
      exact this
    have gb : k % V.COLS_ = k1 % V.COLS_ := by
      have := Nat.eq_of_mul_eq_mul_right (by omega : 0 < step_col)
        (by omega : k % V.COLS_ * step_col = k1 % V.COLS_ * step_col)
      exact this
    rw [← hab, ← hab1, ga, gb]
  obtain ⟨V2, M2, hassign, hwf2, hsh2, _, ⟨_, hV2⟩, hset, hframe⟩ :=
    AbstractDynMat.operator_assign_ok V M S hVwf hwf hS hdyn (by omega) hptr hinj
  refine ⟨hM1, V2, M2, hassign, hsh2.1, hsh2.2.1, ?_, ?_, hV2⟩
  · intro k hk
    obtain ⟨slot, hslot, hlt⟩ := hptr k hk
    refine ⟨slot, hslot, hlt, ?_, ?_⟩
    · rw [AbstractDynMat.operator_index_const_ok M2 slot hwf2 (by rw [hsh2.2.2]; exact hlt),
        AbstractDynMat.operator_index_const_ok S k hS (by omega), hset k slot hk hslot]
    · rw [AbstractDynMat.operator_index_const_ok S k hS (by omega),
        AbstractDynMat.item_eq S k hS (by omega)]
  · intro x hx hnot
    rw [AbstractDynMat.operator_index_const_ok M2 x hwf2 (by rw [hsh2.2.2]; exact hx),
      AbstractDynMat.operator_index_const_ok M x hwf hx, hframe x hnot]

theorem view_assign_witness :
    ∃ V2 M2, AbstractDynMat.operator_assign example_view example_3x3 example_square
        = .ok (V2, M2) ∧
      M2.operator_index_const 0 = .ok 1 ∧ M2.operator_index_const 1 = .ok 2 ∧
      M2.operator_index_const 3 = .ok 3 ∧ M2.operator_index_const 4 = .ok 4 ∧
      M2.operator_index_const 8 = .ok 9 := by
  obtain ⟨_, V2, M2, h, _, _, hset, hframe, _⟩ :=
    view_assign .dyn example_3x3 example_3x3 example_square example_view 0 1 0 1 1 1
      ⟨rfl, rfl⟩ rfl (by decide) (by decide) (by decide) (by decide) (by decide) (by decide)
      rfl ⟨rfl, rfl⟩ rfl rfl
  refine ⟨V2, M2, h, ?_, ?_, ?_, ?_, ?_⟩
  · obtain ⟨slot, hs, _, e, _⟩ := hset 0 (by decide)
    cases hs
    rw [e]; rfl
  · obtain ⟨slot, hs, _, e, _⟩ := hset 1 (by decide)
    cases hs
    rw [e]; rfl
  · obtain ⟨slot, hs, _, e, _⟩ := hset 2 (by decide)
    cases hs
    rw [e]; rfl
  · obtain ⟨slot, hs, _, e, _⟩ := hset 3 (by decide)
    cases hs
    rw [e]; rfl
  · rw [hframe 8 (by decide) (by decide)]; rfl

namespace AbstractDynMat
variable {T : Type}

/-- A load through a pointer to a slot of a dense matrix returns the value of
that slot. -/
theorem load_dyn_ok [Inhabited T] (m : AbstractDynMat T) (slot : Nat) (hwf : m.WF)
    (hk : m.raw_.kind = .dyn) (hs : slot < m.SIZE) : m.load slot = .ok (m.raw_.val slot) := by
  obtain ⟨raw, S, R, C⟩ := m
  cases raw with
  | sparse s => cases hk
  | dyn d =>
    have hlen : d.raw_.length = S := hwf.2
    have hl : slot < d.raw_.length := by simp only at hs; omega
    simp [load, MemBuf.load, DynBuffer.index_const, MemBuf.val, List.getD,
      List.getElem?_eq_getElem hl]

/-- The method `to_owned` of a view all of whose elements point into a dense
parent returns a matrix of the shape of the view whose entry `(i, j)` is the
value of the slot the element `(i, j)` of the view points to. -/
theorem to_owned_ok [Inhabited T] [DecidableEq T] (view : AbstractDynMat Ptr)
    (parent : AbstractDynMat T) (hv : view.WF) (hp : parent.WF)
    (hk : parent.raw_.kind = .dyn)
    (hptr : ∀ k, k < view.SIZE → ∃ slot, view.raw_.val k = some slot ∧ slot < parent.SIZE) :
    ∃ m, to_owned view parent = .ok m ∧ m.WF ∧ m.ROWS_ = view.ROWS_ ∧ m.COLS_ = view.COLS_ ∧
      ∀ i j slot, i < view.ROWS_ → j < view.COLS_ →
        view.raw_.val (j + i * view.COLS_) = some slot →
        m.raw_.val (j + i * view.COLS_) = parent.raw_.val slot := by
  obtain ⟨m, h1, hP, hfill, _⟩ := nested_fill view.ROWS_ view.COLS_
    (fun i j (m : AbstractDynMat T) => do
      let x ← view.operator_call_const i.toNat j.toNat
      let y ← deref parent x
      m.set_call i.toNat j.toNat y)
    (fun m => m.WF ∧ m.ROWS_ = view.ROWS_ ∧ m.COLS_ = view.COLS_)
    (fun m x => m.raw_.val x)
    (fun i j => j + i * view.COLS_)
    (fun i j => match view.raw_.val (j + i * view.COLS_) with
      | some slot => parent.raw_.val slot
      | none => default)
    (fun i j a b _ hj _ hb h => slot_inj view.COLS_ i j a b hj hb h)
    (by
      intro i j m hi hj ⟨hwf, hr, hc⟩
      have hlt : j + i * view.COLS_ < view.SIZE := by rw [hv.1]; exact slot_lt _ _ _ _ hi hj
      obtain ⟨slot, hslot, hsl⟩ := hptr _ hlt
      obtain ⟨m2, hset, hwf2, hsh, hval⟩ :=
        set_call_ok m i j (parent.raw_.val slot) hwf (by omega) (by omega)
      refine ⟨m2, ?_, ⟨hwf2, by rw [hsh.1, hr], by rw [hsh.2.1, hc]⟩, ?_⟩
      · simp [operator_call_const_ok view i j hv hi hj, hslot, deref,
          load_dyn_ok parent slot hp hk hsl, hset, bind, Except.bind]
      · intro x
        show m2.raw_.val x = _
        rw [hval x, hc]
        simp only [hslot])
    (new view.raw_.kind view.ROWS_ view.COLS_) ⟨WF_new _ _ _, rfl, rfl⟩
  refine ⟨m, ?_, hP.1, hP.2.1, hP.2.2, ?_⟩
  · simp only [to_owned, map]
    exact h1
  · intro i j slot hi hj hs
    have := hfill i j hi hj
    simp only [hs] at this
    exact this

end AbstractDynMat

/-- Claim C16. The method `to_owned` materialises a view: let `M` be a dense
matrix and `V` a view that the in-range call `slice(start_row, stop_row,
start_col, stop_col, step_row, step_col)` of `M` (`start_row ≤ stop_row <
ROWS_`, `start_col ≤ stop_col < COLS_`, steps at least `1`) returned. Then
the slice left `M` as it was, `V.to_owned()` returns a matrix of the shape of
`V`, and its read-only access at `(i, j)` returns the entry `M(start_row +
i * step_row, start_col + j * step_col)`, for every `i < V.ROWS_` and
`j < V.COLS_`; when the slice is the whole matrix with unit steps, the result
has the shape of `M` and the read-only access returns at every valid `(i, j)`
what it returns on `M`. The method reads the parent only, which is not part
of what it returns. -/
theorem to_owned_materialises {T : Type} [Inhabited T] [DecidableEq T] (out : BufKind)
    (M M1 : AbstractDynMat T) (V : AbstractDynMat Ptr)
    (start_row stop_row start_col stop_col step_row step_col : Nat)
    (hwf : M.WF) (hdyn : M.raw_.kind = .dyn) (h1 : 1 ≤ step_row) (h2 : 1 ≤ step_col)
    (hr : start_row ≤ stop_row) (hr2 : stop_row < M.ROWS_)
    (hc : start_col ≤ stop_col) (hc2 : stop_col < M.COLS_)
    (hslice : M.slice out start_row stop_row start_col stop_col step_row step_col
      = .ok (M1, V)) :
    M1 = M ∧ ∃ R, AbstractDynMat.to_owned V M = .ok R ∧
      R.ROWS_ = V.ROWS_ ∧ R.COLS_ = V.COLS_ ∧
      (∀ i j, i < V.ROWS_ → j < V.COLS_ →
        start_row + i * step_row < M.ROWS_ ∧ start_col + j * step_col < M.COLS_ ∧
        R.operator_call_const i j
          = .ok (M.entry (start_row + i * step_row) (start_col + j * step_col))) ∧
      (start_row = 0 ∧ stop_row + 1 = M.ROWS_ ∧ start_col = 0 ∧ stop_col + 1 = M.COLS_ ∧
          step_row = 1 ∧ step_col = 1 →
        R.ROWS_ = M.ROWS_ ∧ R.COLS_ = M.COLS_ ∧
        ∀ i j, i < M.ROWS_ → j < M.COLS_ →
          R.operator_call_const i j = M.operator_call_const i j) := by
  obtain ⟨hM1, hVwf, hVr, hVc, hcell⟩ :=
    AbstractDynMat.slice_inv out M start_row stop_row start_col stop_col step_row step_col
      hwf hdyn h1 h2 hr hr2 hc hc2 M1 V hslice
  have hVsize : V.SIZE = V.ROWS_ * V.COLS_ := hVwf.1
  have hptr : ∀ k, k < V.SIZE → ∃ slot, V.raw_.val k = some slot ∧ slot < M.SIZE := by
    intro k hk
    rw [hVsize] at hk
    obtain ⟨ha, hb, hab⟩ := unslot _ _ k hk
    obtain ⟨e1, e2, e3⟩ := hcell _ _ ha hb
    rw [hab] at e3
    exact ⟨_, e3, by rw [hwf.1]; exact slot_lt _ _ _ _ e1 e2⟩
  obtain ⟨R, hto, hRwf, hRr, hRc, hval⟩ := AbstractDynMat.to_owned_ok V M hVwf hwf hdyn hptr
  have hentry : ∀ i j, i < V.ROWS_ → j < V.COLS_ →
      start_row + i * step_row < M.ROWS_ ∧ start_col + j * step_col < M.COLS_ ∧
      R.operator_call_const i j
        = .ok (M.entry (start_row + i * step_row) (start_col + j * step_col)) := by
    intro i j hi hj
    obtain ⟨e1, e2, e3⟩ := hcell i j hi hj
    refine ⟨e1, e2, ?_⟩
    rw [AbstractDynMat.operator_call_const_ok R i j hRwf (by omega) (by omega), hRc,
      hval i j _ hi hj e3, AbstractDynMat.entry_eq M _ _ hwf e1 e2]
    rfl
  refine ⟨hM1, R, hto, hRr, hRc, hentry, ?_⟩
  rintro ⟨rfl, her, rfl, hec, rfl, rfl⟩
  have hVr1 : V.ROWS_ = M.ROWS_ := by rw [hVr, Nat.div_one]; omega
  have hVc1 : V.COLS_ = M.COLS_ := by rw [hVc, Nat.div_one]; omega
  refine ⟨by rw [hRr, hVr1], by rw [hRc, hVc1], ?_⟩
  intro i j hi hj
  obtain ⟨_, _, e⟩ := hentry i j (by omega) (by omega)
  rw [e, AbstractDynMat.operator_call_const_ok M i j hwf hi hj,
    AbstractDynMat.entry_eq M _ _ hwf (by omega) (by omega)]
  simp

theorem to_owned_materialises_witness :
    ∃ R, AbstractDynMat.to_owned example_strided example_rhs = .ok R ∧
      R.ROWS_ = 3 ∧ R.COLS_ = 2 ∧
      R.operator_call_const 0 0 = .ok 7 ∧ R.operator_call_const 0 1 = .ok 9 ∧
      R.operator_call_const 1 0 = .ok 11 ∧ R.operator_call_const 1 1 = .ok 13 ∧
      R.operator_call_const 2 0 = .ok 15 ∧ R.operator_call_const 2 1 = .ok 17 := by
  obtain ⟨_, R, h, hr, hc, he, _⟩ :=
    to_owned_materialises .dyn example_rhs example_rhs example_strided 0 2 0 3 1 2
      ⟨rfl, rfl⟩ rfl (by decide) (by decide) (by decide) (by decide) (by decide) (by decide)
      rfl
  exact ⟨R, h, hr, hc, (he 0 0 (by decide) (by decide)).2.2,
    (he 0 1 (by decide) (by decide)).2.2, (he 1 0 (by decide) (by decide)).2.2,
    (he 1 1 (by decide) (by decide)).2.2, (he 2 0 (by decide) (by decide)).2.2,
    (he 2 1 (by decide) (by decide)).2.2⟩

namespace AbstractDynMat
variable {T : Type}

end AbstractDynMat

/-- Claim C22. Sparse representation invariant: in every state `b` of a sparse
buffer reached from a fresh one by any sequence of writes, (a) `cnt_` is at
most the threshold, (b) `potentially_zero_` holds at most `treshold_ + 1`
indices, and (c) every key of the table stored with the zero value occurs in
`potentially_zero_`. Hence a compaction loop run in that state erases every
key that holds zero and leaves no zero value in the table, so after an access
that sweeps only the key accessed can hold zero; and the table holds at most
`treshold_ + 1` entries with the zero value. -/
theorem sparse_invariant {T : Type} [Inhabited T] [DecidableEq T] (rows cols : Nat)
    (ws : List (Nat × T)) (b : SparseBuffer T)
    (hb : b = (SparseBuffer.new rows cols).writes ws) :
    b.cnt_ ≤ b.treshold_ ∧
    b.potentially_zero_.length ≤ b.treshold_ + 1 ∧
    (∀ k, b.raw_.at? k = some default → k ∈ b.potentially_zero_) ∧
    (∀ k, b.raw_.at? k = some default →
      (SparseBuffer.sweep b.raw_ b.potentially_zero_).at? k = none) ∧
    (∀ k, (SparseBuffer.sweep b.raw_ b.potentially_zero_).at? k ≠ some default) ∧
    (b.sweeps = true → ∀ i k, k ≠ i → (b.index i).raw_.at? k ≠ some default) ∧
    b.zeroCount ≤ b.treshold_ + 1 := by
  have hinv : b.Inv := by
    rw [hb]
    exact SparseBuffer.Inv_writes ws _ (SparseBuffer.Inv_fresh _ _)
  obtain ⟨hnd, hz, hlen, hcnt⟩ := hinv
  have hsweep : ∀ k, (SparseBuffer.sweep b.raw_ b.potentially_zero_).at? k ≠ some default := by
    intro k
    rw [SparseBuffer.at?_sweep]
    by_cases hk : k ∈ b.potentially_zero_ ∧ (b.raw_.at? k).getD default = default
    · rw [if_pos hk]; simp
    · rw [if_neg hk]
      intro h0
      exact hk ⟨hz k h0, by rw [h0]; rfl⟩
  refine ⟨hcnt, by omega, hz, ?_, hsweep, ?_, SparseBuffer.zeroCount_le b ⟨hnd, hz, hlen, hcnt⟩⟩
  · intro k h0
    rw [SparseBuffer.at?_sweep, if_pos ⟨hz k h0, by rw [h0]; rfl⟩]
  · intro hs i k hki
    have hgt : b.cnt_ + 1 > b.treshold_ := by simpa [SparseBuffer.sweeps] using hs
    rw [SparseBuffer.index_of_gt b i hgt]
    show ((SparseBuffer.sweep b.raw_ b.potentially_zero_).index i).at? k ≠ some default
    rw [HMap.at?_index, if_neg hki]
    exact hsweep k

theorem sparse_invariant_witness :
    ((SparseBuffer.new 2 3 : SparseBuffer Int).writes [(0, 0), (1, 5), (2, 0)]).cnt_ ≤ 1 ∧
    ((SparseBuffer.new 2 3 : SparseBuffer Int).writes
      [(0, 0), (1, 5), (2, 0)]).potentially_zero_.length ≤ 2 ∧
    ((SparseBuffer.new 2 3 : SparseBuffer Int).writes [(0, 0), (1, 5), (2, 0)]).zeroCount ≤ 2 :=
  have h := sparse_invariant 2 3 [(0, 0), (1, 5), (2, 0)]
    ((SparseBuffer.new 2 3 : SparseBuffer Int).writes [(0, 0), (1, 5), (2, 0)]) rfl
  ⟨h.1, h.2.1, h.2.2.2.2.2.2⟩

/-- Claim C23. Indexed write hits exactly one slot: on a `ROWS_ x COLS_` matrix
of either backend and a valid `(i, j)`, the statement `m(i, j) = v` returns
and keeps the shape; afterwards the read-only access at `(i, j)` returns `v`
and the read-only access at every other valid `(a, b)` returns what it
returned before. The map `(i, j) -> j + i * COLS_` is injective on the valid
indices and lands below `ROWS_ * COLS_`. -/
theorem indexed_write_one_slot {T : Type} [Inhabited T] [DecidableEq T] (m : AbstractDynMat T)
    (i j : Nat) (v : T) (hwf : m.WF) (hi : i < m.ROWS_) (hj : j < m.COLS_) :
    (∃ m2, m.set_call i j v = .ok m2 ∧ m2.ROWS_ = m.ROWS_ ∧ m2.COLS_ = m.COLS_ ∧
      m2.operator_call_const i j = .ok v ∧
      ∀ a b, a < m.ROWS_ → b < m.COLS_ → (a, b) ≠ (i, j) →
        m2.operator_call_const a b = m.operator_call_const a b) ∧
    j + i * m.COLS_ < m.ROWS_ * m.COLS_ ∧
    ∀ a b, a < m.ROWS_ → b < m.COLS_ → b + a * m.COLS_ = j + i * m.COLS_ → (a, b) = (i, j) := by
  obtain ⟨m2, hset, hwf2, hsh, hval⟩ := AbstractDynMat.set_call_ok m i j v hwf hi hj
  have hinj : ∀ a b, a < m.ROWS_ → b < m.COLS_ → b + a * m.COLS_ = j + i * m.COLS_ →
      (a, b) = (i, j) := by
    intro a b _ hb h
    obtain ⟨e1, e2⟩ := slot_inj m.COLS_ a b i j hb hj h
    rw [e1, e2]
  refine ⟨⟨m2, hset, hsh.1, hsh.2.1, ?_, ?_⟩, slot_lt _ _ _ _ hi hj, hinj⟩
  · rw [AbstractDynMat.operator_call_const_ok m2 i j hwf2 (by rw [hsh.1]; exact hi)
      (by rw [hsh.2.1]; exact hj), hsh.2.1, hval, if_pos rfl]
  · intro a b ha hb hne
    rw [AbstractDynMat.operator_call_const_ok m2 a b hwf2 (by rw [hsh.1]; exact ha)
      (by rw [hsh.2.1]; exact hb), hsh.2.1, hval,
      AbstractDynMat.operator_call_const_ok m a b hwf ha hb]
    have : ¬ b + a * m.COLS_ = j + i * m.COLS_ := fun h => hne (hinj a b ha hb h)
    rw [if_neg this]

theorem indexed_write_one_slot_witness :
    ∃ m2, example_sparse.set_call 1 0 8 = .ok m2 ∧
      m2.operator_call_const 1 0 = .ok 8 ∧
      m2.operator_call_const 0 1 = example_sparse.operator_call_const 0 1 ∧
      m2.operator_call_const 1 2 = example_sparse.operator_call_const 1 2 := by
  obtain ⟨⟨m2, h, _, _, h1, h2⟩, _⟩ :=
    indexed_write_one_slot example_sparse 1 0 8 ⟨rfl, trivial⟩ (by decide) (by decide)
  exact ⟨m2, h, h1, h2 0 1 (by decide) (by decide) (by decide),
    h2 1 2 (by decide) (by decide) (by decide)⟩

theorem ceilCount_zero (a step : Int) (hstep : 1 ≤ step) (h : a ≤ 0) :
    ((a + step - 1) / step).toNat = 0 := by
  have h1 : (a + step - 1) / step < 1 := Int.ediv_lt_of_lt_mul (by omega) (by omega)
  omega

theorem ceilCount_succ (a step : Int) (hstep : 1 ≤ step) (h : 0 < a) :
    ((a + step - 1) / step).toNat = ((a - step + step - 1) / step).toNat + 1 := by
  have e : a + step - 1 = (a - step + step - 1) + 1 * step := by ring
  have h0 : 0 ≤ (a - step + step - 1) / step := Int.ediv_nonneg (by omega) (by omega)
  rw [e, Int.add_mul_ediv_right _ _ (by omega : step ≠ 0)]
  omega

/-- The ceiling of `a / step` for `0 ≤ a` and `1 ≤ step`: the least `c` with
`a ≤ c * step`. -/
theorem ceilCount_spec (a step : Int) (hstep : 1 ≤ step) (h : 0 ≤ a) :
    a ≤ (((a + step - 1) / step).toNat : Int) * step ∧
    (((a + step - 1) / step).toNat : Int) * step < a + step := by
  have h0 : 0 ≤ (a + step - 1) / step := Int.ediv_nonneg (by omega) (by omega)
  rw [Int.toNat_of_nonneg h0]
  have hm := Int.emod_add_ediv (a + step - 1) step
  have hlt := Int.emod_lt_of_pos (a + step - 1) (by omega : 0 < step)
  have hge := Int.emod_nonneg (a + step - 1) (by omega : step ≠ 0)
  rw [Int.mul_comm] at hm
  generalize (a + step - 1) / step * step = q at hm ⊢
  generalize (a + step - 1) % step = r at hm hlt hge
  omega

/-- The loop over a range with `step ≥ 1`, from any position `i ≥ START_`: with
at least `STOP_ - i` tests allowed it ends, having visited `i + n * step` for
`n` below the ceiling of `(STOP_ - i) / step`. -/
theorem visit_int (fuel : Nat) (s0 i stop step : Int) (hstep : 1 ≤ step) (hs : s0 ≤ i)
    (hf : (stop - i).toNat ≤ fuel) :
    Range.visit fuel ⟨s0, i, stop, step⟩ =
      some ((List.range ((stop - i + step - 1) / step).toNat).map
        (fun (n : Nat) => i + (n : Int) * step)) := by
  induction fuel generalizing i with
  | zero =>
    have h : stop ≤ i := by omega
    have hd : Range.done ⟨s0, i, stop, step⟩ = true := by
      simp [Range.done]; omega
    simp [Range.visit, hd, ceilCount_zero (stop - i) step hstep (by omega)]
  | succ fuel ih =>
    by_cases h : stop ≤ i
    · have hd : Range.done ⟨s0, i, stop, step⟩ = true := by
        simp [Range.done]; omega
      simp [Range.visit, hd, ceilCount_zero (stop - i) step hstep (by omega)]
    · have hd : Range.done ⟨s0, i, stop, step⟩ = false := by
        simp [Range.done]; omega
      have hi : Range.incr ⟨s0, i, stop, step⟩ = ⟨s0, i + step, stop, step⟩ := rfl
      have ih' := ih (i + step) (by omega) (by omega)
      rw [Range.visit]
      simp only [hd, hi, ih', Bool.false_eq_true, if_false, Option.map_some']
      have e : stop - (i + step) + step - 1 = stop - i - step + step - 1 := by ring
      rw [ceilCount_succ (stop - i) step hstep (by omega), List.range_succ_eq_map, e]
      simp only [List.map_cons, List.map_map]
      congr 1
      congr 1
      · simp
      · apply List.map_congr_left
        intro n _
        simp only [Function.comp]
        push_cast
        ring

/-- Claim C26. Range iteration is half-open and terminates: for
`start ≤ stop` and `step ≥ 1` (the `int64_t` values as integers) the
constructor returns a range, and the loop over it ends within any number of
tests that is at least `stop - start`, having visited `start + n * step` for
`n = 0, 1, ..., c - 1` in this order, where `c` is the ceiling of
`(stop - start) / step`: the least `c` with `stop - start ≤ c * step`. These
are exactly the values `start + n * step` below `stop`, each one is at least
`start`, they increase strictly, and there is none when `start = stop`.
Constructing a range with `stop < start` panics. -/
theorem range_half_open (start stop step : Int) (hle : start ≤ stop) (hstep : 1 ≤ step) :
    ∃ c : Nat, Range.new start stop step = .ok ⟨start, start, stop, step⟩ ∧
      (∀ fuel, (stop - start).toNat ≤ fuel →
        Range.visit fuel ⟨start, start, stop, step⟩ =
          some ((List.range c).map (fun (n : Nat) => start + (n : Int) * step))) ∧
      Range.values ⟨start, start, stop, step⟩ =
        some ((List.range c).map (fun (n : Nat) => start + (n : Int) * step)) ∧
      (stop - start ≤ (c : Int) * step ∧ (c : Int) * step < stop - start + step) ∧
      (∀ n : Nat, n < c ↔ start + (n : Int) * step < stop) ∧
      (∀ n : Nat, start ≤ start + (n : Int) * step ∧
        start + (n : Int) * step < start + ((n + 1 : Nat) : Int) * step) ∧
      (start = stop → c = 0) ∧
      ∀ s, stop < s → Range.new s stop step = .error .panic := by
  refine ⟨((stop - start + step - 1) / step).toNat, ?_, ?_, ?_, ?_, ?_, ?_, ?_, ?_⟩
  · have h : ¬ stop < start := by omega
    simp [Range.new, h]
  · intro fuel hf
    exact visit_int fuel start start stop step hstep (le_refl _) hf
  · exact visit_int _ start start stop step hstep (le_refl _) (le_refl _)
  · exact ceilCount_spec (stop - start) step hstep (by omega)
  · intro n
    obtain ⟨h1, h2⟩ := ceilCount_spec (stop - start) step hstep (by omega)
    generalize ((stop - start + step - 1) / step).toNat = c at h1 h2 ⊢
    constructor
    · intro hn
      have h3 : ((n : Int) + 1) * step ≤ (c : Int) * step :=
        Int.mul_le_mul_of_nonneg_right (by omega) (by omega)
      rw [Int.add_mul, Int.one_mul] at h3
      omega
    · intro hn
      by_contra hc
      have h3 : (c : Int) * step ≤ (n : Int) * step :=
        Int.mul_le_mul_of_nonneg_right (by omega) (by omega)
      omega
  · intro n
    have h0 : 0 ≤ (n : Int) * step := Int.mul_nonneg (by omega) (by omega)
    constructor
    · omega
    · push_cast
      rw [Int.add_mul, Int.one_mul]
      omega
  · intro he
    exact ceilCount_zero (stop - start) step hstep (by omega)
  · intro s hs
    simp [Range.new, hs]

theorem range_half_open_witness :
    ∃ c : Nat, Range.new 4 10 1 = .ok ⟨4, 4, 10, 1⟩ ∧
      Range.values ⟨4, 4, 10, 1⟩ = some ((List.range c).map (fun (n : Nat) => 4 + (n : Int) * 1)) ∧
      Range.values ⟨4, 4, 10, 1⟩ = some [4, 5, 6, 7, 8, 9] ∧
      Range.new 11 10 1 = .error .panic := by
  obtain ⟨c, h1, _, h3, _, _, _, _, h8⟩ := range_half_open 4 10 1 (by decide) (by decide)
  exact ⟨c, h1, h3, by decide, h8 11 (by decide)⟩

namespace AbstractDynMat
variable {T : Type}

/-- For a key below `2^64` and at least one column, the decoding returns the
quotient and the remainder of the key by the number of columns. -/
theorem decodeIndex_ok (cols k : Nat) (hc : 1 ≤ cols) (hk : k < 2 ^ 64) :
    decodeIndex cols k = .ok (k / cols, k % cols) := by
  have hj : k % cols ≤ k := Nat.mod_le k cols
  have hsub : (k + 2 ^ 64 - k % cols) % 2 ^ 64 = k - k % cols := by
    have e : k + 2 ^ 64 - k % cols = (k - k % cols) + 2 ^ 64 := by omega
    rw [e, Nat.add_mod_right, Nat.mod_eq_of_lt (by omega)]
  have hdiv : (k - k % cols) / cols = k / cols := by
    have h := Nat.mod_add_div k cols
    have e : k - k % cols = cols * (k / cols) := by omega
    rw [e, Nat.mul_div_cancel_left _ (by omega : 0 < cols)]
  have hsum : k % cols + k / cols * cols = k := Nat.mod_add_div' k cols
  have hne : ¬ cols = 0 := by omega
  simp only [decodeIndex, hne, if_false, hsub, hdiv, hsum, Nat.mod_eq_of_lt hk, if_true]

theorem show_sparse_ok (strIdx : Nat → Str) (str : T → Str) (m : AbstractDynMat T)
    (hc : 1 ≤ m.COLS_) (hk : ∀ x ∈ m.entries, x.1 < 2 ^ 64) :
    ∃ text, show_sparse strIdx str m = .ok text := by
  have key : ∀ (es : List (Nat × T)) (s0 : Str), (∀ x ∈ es, x.1 < 2 ^ 64) →
      ∃ text, es.foldlM (fun s x => do
        let (i, j) ← decodeIndex m.COLS_ x.1
        pure (s ++ (['('] ++ strIdx i ++ [','] ++ strIdx j ++ [')'] ++ str x.2 ++ [' ']))) s0
          = .ok text := by
    intro es
    induction es with
    | nil => exact fun s0 _ => ⟨s0, rfl⟩
    | cons x rest ih =>
      intro s0 hk
      rw [List.foldlM_cons, decodeIndex_ok m.COLS_ x.1 hc (hk x (List.mem_cons_self _ _))]
      exact ih _ (fun y hy => hk y (List.mem_cons_of_mem _ hy))
  exact key m.entries [] hk

end AbstractDynMat

/-- Claim C25. The index decoding of `show_sparse` is exact: for `cols ≥ 1`
and every linear index `k` (a `size_t`, below `2^64`), the body computes
`j = k mod cols` and `i = (k - j) / cols = k / cols` and its `assert` holds:
`j + i * cols = k`, with `j < cols`; if `k < rows * cols` then `i < rows`; the
decoding inverts the row-major map, `(i, j)` being the only pair with
`j < cols` and `j + i * cols = k`. Hence `show_sparse` returns a text on every
sparse matrix with at least one column: its `assert` never fails. -/
theorem show_sparse_decoding {T : Type} (cols k : Nat) (hc : 1 ≤ cols) (hk : k < 2 ^ 64) :
    AbstractDynMat.decodeIndex cols k = .ok (k / cols, k % cols) ∧
    k % cols + k / cols * cols = k ∧
    k % cols < cols ∧
    (∀ rows, k < rows * cols → k / cols < rows) ∧
    (∀ i j, j < cols → j + i * cols = k →
      AbstractDynMat.decodeIndex cols k = .ok (i, j)) ∧
    ∀ (strIdx : Nat → Str) (str : T → Str) (m : AbstractDynMat T), m.COLS_ = cols →
      (∀ x ∈ m.entries, x.1 < 2 ^ 64) →
      ∃ text, AbstractDynMat.show_sparse strIdx str m = .ok text := by
  have hdec := AbstractDynMat.decodeIndex_ok cols k hc hk
  refine ⟨hdec, Nat.mod_add_div' k cols, Nat.mod_lt _ (by omega), ?_, ?_, ?_⟩
  · intro rows h
    apply Nat.div_lt_of_lt_mul
    rw [Nat.mul_comm]; exact h
  · intro i j hj h
    obtain ⟨e1, e2⟩ := slot_inj cols (k / cols) (k % cols) i j (Nat.mod_lt _ (by omega)) hj
      (by rw [Nat.mod_add_div' k cols, h])
    rw [hdec, e1, e2]
  · intro strIdx str m hm hkeys
    exact AbstractDynMat.show_sparse_ok strIdx str m (by omega) hkeys

theorem show_sparse_decoding_witness :
    AbstractDynMat.decodeIndex 3 5 = .ok (1, 2) ∧ 2 + 1 * 3 = 5 ∧
    ∃ text, AbstractDynMat.show_sparse (fun n => strInt n) strInt example_sparse = .ok text :=
  have h := show_sparse_decoding (T := Int) 3 5 (by decide) (by decide)
  ⟨h.1, h.2.1, h.2.2.2.2.2 _ _ example_sparse rfl (by decide)⟩

namespace AbstractDynMat
variable {T : Type}

/-- The listed-value constructor on `rows * cols` values returns the matrix
whose slot `k` holds the `k`-th value. -/
theorem new_listed_ok [Inhabited T] [DecidableEq T] (kind : BufKind) (rows cols : Nat) (a11 : T)
    (rest : List T) (hlen : rest.length + 1 = rows * cols) :
    ∃ m, new_listed kind rows cols a11 rest = .ok m ∧ m.WF ∧ m.ROWS_ = rows ∧ m.COLS_ = cols ∧
      ∀ k, k < rows * cols → m.raw_.val k = (a11 :: rest).getD k default := by
  have hN : 0 < rows * cols := by omega
  obtain ⟨raw0, hraw0, _, _, _, hstore0⟩ :=
    MemBuf.index_ok (MemBuf.new kind rows cols : MemBuf T) (rows * cols) 0
      (MemBuf.buf_WF_new kind rows cols) hN
  obtain ⟨raw1, hraw1, hwf1, hval1⟩ := hstore0 a11
  obtain ⟨st, hloop, hI⟩ := forRange_inv 1 (rows * cols) 1 (le_refl _) (by omega)
    (fun i (st : MemBuf T × List T) =>
      match st.2 with
      | [] => .error .undefined
      | v :: vl => do
        let b ← st.1.index i.toNat
        let b2 ← b.store i.toNat v
        pure (b2, vl))
    (fun n st => st.1.WF (rows * cols) ∧ st.2 = rest.drop n ∧
      ∀ x, st.1.val x = if x < 1 + n then (a11 :: rest).getD x default else default)
    (raw1, rest)
    ⟨hwf1, rfl, fun x => by
      rw [hval1 x, MemBuf.buf_val_new]
      by_cases hx : x = 0
      · subst hx; simp
      · have : ¬ x < 1 + 0 := by omega
        rw [if_neg hx, if_neg this]⟩
    (by
      intro n st hn ⟨hwf, hrest, hval⟩
      rw [stepCount_one] at hn
      have hnl : n < rest.length := by omega
      obtain ⟨b1, hb1, _, _, _, hstore⟩ := MemBuf.index_ok st.1 (rows * cols) (1 + n) hwf (by omega)
      obtain ⟨b2, hb2, hwf2, hval2⟩ := hstore (rest.get ⟨n, hnl⟩)
      have hdrop : st.2 = rest.get ⟨n, hnl⟩ :: rest.drop (n + 1) := by
        rw [hrest]
        exact List.drop_eq_getElem_cons hnl
      refine ⟨(b2, rest.drop (n + 1)), ?_, hwf2, rfl, ?_⟩
      · have e : ((((1 + n * 1 : Nat) : Int)).toNat) = 1 + n := by omega
        simp only [hdrop, e, hb1, hb2, bind, Except.bind, pure, Except.pure]
      · intro x
        show b2.val x = _
        rw [hval2 x, hval x]
        by_cases hx : x = 1 + n
        · subst hx
          have : 1 + n < 1 + (n + 1) := by omega
          rw [if_pos rfl, if_pos this]
          have e : 1 + n = n + 1 := by omega
          rw [e, List.getD_cons_succ, List.getD_eq_getElem _ _ hnl]
          rfl
        · rw [if_neg hx]
          by_cases h1 : x < 1 + n
          · have : x < 1 + (n + 1) := by omega
            rw [if_pos h1, if_pos this]
          · have : ¬ x < 1 + (n + 1) := by omega
            rw [if_neg h1, if_neg this])
  rw [stepCount_one] at hI
  obtain ⟨hwfN, _, hvalN⟩ := hI
  refine ⟨{ (new kind rows cols : AbstractDynMat T) with raw_ := st.1 }, ?_, ⟨rfl, hwfN⟩, rfl, rfl,
    ?_⟩
  · have hloop2 : forRange 1 ((new kind rows cols : AbstractDynMat T).SIZE : Int) 1
        (fun i (st : MemBuf T × List T) =>
          match st.2 with
          | [] => .error .undefined
          | v :: vl => do
            let b ← st.1.index i.toNat
            let b2 ← b.store i.toNat v
            pure (b2, vl)) (raw1, rest) = .ok st := hloop
    simp only [bind, Except.bind, pure, Except.pure] at hloop2
    simp only [new_listed, hraw0, hraw1, bind, Except.bind, pure, Except.pure]
    rw [hloop2]
  · intro k hk
    show st.1.val k = _
    rw [hvalN k, if_pos (by omega)]

end AbstractDynMat

/-- Claim C21. Listed-value construction is row-major: for a shape with
`rows * cols ≥ 1` and exactly `rows * cols` values `a11, rest...`, the
constructor returns, on either backend, a `rows x cols` matrix whose read-only
linear access at `k` returns the `k`-th value for every `k < rows * cols`, and
whose read-only access at `(i, j)` returns the value number `j + i * cols`,
zero values on the sparse backend included. -/
theorem listed_construction {T : Type} [Inhabited T] [DecidableEq T] (kind : BufKind)
    (rows cols : Nat) (a11 : T) (rest : List T) (hlen : (a11 :: rest).length = rows * cols) :
    ∃ m, AbstractDynMat.new_listed kind rows cols a11 rest = .ok m ∧
      m.ROWS_ = rows ∧ m.COLS_ = cols ∧
      (∀ k, k < rows * cols →
        ∃ x, (a11 :: rest)[k]? = some x ∧ m.operator_index_const k = .ok x) ∧
      ∀ i j, i < rows → j < cols →
        ∃ x, (a11 :: rest)[j + i * cols]? = some x ∧ m.operator_call_const i j = .ok x := by
  obtain ⟨m, hm, hwf, hr, hc, hval⟩ :=
    AbstractDynMat.new_listed_ok kind rows cols a11 rest (by simpa using hlen)
  have hget : ∀ k, k < rows * cols →
      (a11 :: rest)[k]? = some ((a11 :: rest).getD k default) := by
    intro k hk
    have hk2 : k < (a11 :: rest).length := by rw [hlen]; exact hk
    rw [List.getD_eq_getElem _ _ hk2, List.getElem?_eq_getElem hk2]
  refine ⟨m, hm, hr, hc, ?_, ?_⟩
  · intro k hk
    refine ⟨_, hget k hk, ?_⟩
    rw [AbstractDynMat.operator_index_const_ok m k hwf (by rw [hwf.1, hr, hc]; exact hk),
      hval k hk]
  · intro i j hi hj
    have hk : j + i * cols < rows * cols := slot_lt _ _ _ _ hi hj
    refine ⟨_, hget _ hk, ?_⟩
    rw [AbstractDynMat.operator_call_const_ok m i j hwf (by rw [hr]; exact hi)
      (by rw [hc]; exact hj), hc, hval _ hk]

theorem listed_construction_witness :
    ∃ m, AbstractDynMat.new_listed .sparse 2 3 (0 : Int) [7, 0, 0, 0, 9] = .ok m ∧
      m.operator_index_const 0 = .ok 0 ∧ m.operator_index_const 1 = .ok 7 ∧
      m.operator_call_const 1 2 = .ok 9 ∧ m.operator_call_const 1 0 = .ok 0 := by
  obtain ⟨m, h, _, _, h1, h2⟩ :=
    listed_construction .sparse 2 3 (0 : Int) [7, 0, 0, 0, 9] (by decide)
  refine ⟨m, h, ?_, ?_, ?_, ?_⟩
  · obtain ⟨x, e1, e2⟩ := h1 0 (by decide)
    cases e1; exact e2
  · obtain ⟨x, e1, e2⟩ := h1 1 (by decide)
    cases e1; exact e2
  · obtain ⟨x, e1, e2⟩ := h2 1 2 (by decide) (by decide)
    cases e1; exact e2
  · obtain ⟨x, e1, e2⟩ := h2 1 0 (by decide) (by decide)
    cases e1; exact e2

/-- The loop `for (auto &&i : Range(n))` panics when its body panics at some
`k < n` and returns or panics before. -/
theorem forRange_zero_fail {σ : Type} (n : Nat) (body : Int → σ → Except Err σ)
    (Inv : Nat → σ → Prop) (k : Nat) (hk : k < n) (s0 : σ) (h0 : Inv 0 s0)
    (hbody : ∀ i s, i < k → Inv i s →
      (∃ s1, body (i : Int) s = .ok s1 ∧ Inv (i + 1) s1) ∨ body (i : Int) s = .error .panic)
    (hfail : ∀ s, Inv k s → body (k : Int) s = .error .panic) :
    forRange 0 (n : Int) 1 body s0 = .error .panic := by
  have h := forRange_fail 0 n 1 (le_refl _) (Nat.zero_le _) body Inv k
    (by rw [stepCount_one]; omega) s0 h0
    (fun i s hi hinv => by
      rcases hbody i s hi hinv with ⟨s1, h1, h2⟩ | h1
      · exact Or.inl ⟨s1, by simpa using h1, h2⟩
      · exact Or.inr (by simpa using h1))
    (fun s hinv => by simpa using hfail s hinv)
  simpa using h

namespace Mat
variable {T : Type} {ROWS COLS : Nat}

/-- One assignment `m2(j, i) = m1(i, j)` of the static `transpose`, for a
valid `(i, j)`: it returns when `(j, i)` is a valid index too, and panics
otherwise. -/
theorem transpose_cell (m1 m2 : Mat T ROWS COLS) (i j : Nat) (h1 : m1.WF) (h2 : m2.WF)
    (hi : i < ROWS) (hj : j < COLS) :
    (j < ROWS → i < COLS → ∃ m3 : Mat T ROWS COLS, (do
        let src ← m1.operator_call i j
        let v ← m1.load src
        let dst ← m2.operator_call j i
        m2.store dst v) = .ok m3 ∧ m3.WF) ∧
    (ROWS ≤ j ∨ COLS ≤ i → (do
        let src ← m1.operator_call i j
        let v ← m1.load src
        let dst ← m2.operator_call j i
        m2.store dst v) = .error .panic) := by
  have hi1 : ¬ i ≥ ROWS := by omega
  have hj1 : ¬ j ≥ COLS := by omega
  have hs : j + i * COLS < m1.raw_.length := by rw [h1]; exact slot_lt _ _ _ _ hi hj
  have hload : m1.load (j + i * COLS) = .ok (m1.raw_.get ⟨j + i * COLS, hs⟩) := by
    simp [load, List.getElem?_eq_getElem hs]
  constructor
  · intro hj2 hi2
    have hj3 : ¬ j ≥ ROWS := by omega
    have hi3 : ¬ i ≥ COLS := by omega
    have hd : i + j * COLS < m2.raw_.length := by rw [h2]; exact slot_lt _ _ _ _ hj2 hi2
    refine ⟨⟨m2.raw_.set (i + j * COLS) (m1.raw_.get ⟨j + i * COLS, hs⟩)⟩, ?_, ?_⟩
    · simp [operator_call, hi1, hj1, hj3, hi3, hload, store, hd, bind, Except.bind]
    · show (m2.raw_.set _ _).length = ROWS * COLS
      rw [List.length_set]; exact h2
  · intro hbad
    by_cases hj3 : j ≥ ROWS
    · simp [operator_call, hi1, hj1, hj3, hload, bind, Except.bind]
    · have hi3 : i ≥ COLS := by omega
      simp [operator_call, hi1, hj1, hj3, hi3, hload, bind, Except.bind]

/-- The static `transpose` of a matrix that is not square panics: the result
is declared with the shape of the receiver, so that `m2(j, i)` is out of range
for some valid `(i, j)`. -/
theorem transpose_nonsquare [Inhabited T] (self : Mat T ROWS COLS) (hwf : self.WF)
    (hR : 1 ≤ ROWS) (hC : 1 ≤ COLS) (hne : ROWS ≠ COLS) :
    self.transpose = .error .panic := by
  have hnew : (new : Mat T ROWS COLS).WF := by simp [new, WF]
  unfold transpose
  by_cases hlt : ROWS < COLS
  · refine forRange_zero_fail ROWS _ (fun _ (m2 : Mat T ROWS COLS) => m2.WF) 0 hR _ hnew
      (fun i s hi _ => absurd hi (Nat.not_lt_zero i)) ?_
    intro m2 h2
    refine forRange_zero_fail COLS _ (fun _ (m : Mat T ROWS COLS) => m.WF) ROWS hlt m2 h2 ?_ ?_
    · intro j m hj hm
      obtain ⟨m3, e, hm3⟩ := (transpose_cell self m 0 j hwf hm hR (by omega)).1 hj (by omega)
      exact Or.inl ⟨m3, by simpa using e, hm3⟩
    · intro m hm
      have e := (transpose_cell self m 0 ROWS hwf hm hR hlt).2 (Or.inl (le_refl _))
      simpa using e
  · have hgt : COLS < ROWS := by omega
    refine forRange_zero_fail ROWS _ (fun _ (m2 : Mat T ROWS COLS) => m2.WF) COLS hgt _ hnew
      ?_ ?_
    · intro i m2 hi h2
      obtain ⟨m3, e, hm3⟩ := forRange_zero_inv COLS
        (fun j (m : Mat T ROWS COLS) => do
          let src ← self.operator_call ((i : Nat) : Int).toNat j.toNat
          let v ← self.load src
          let dst ← m.operator_call j.toNat ((i : Nat) : Int).toNat
          m.store dst v)
        (fun _ m => m.WF) m2 h2
        (by
          intro j m hj hm
          obtain ⟨m3, e, hm3⟩ :=
            (transpose_cell self m i j hwf hm (by omega) hj).1 (by omega) hi
          exact ⟨m3, by simpa using e, hm3⟩)
      exact Or.inl ⟨m3, e, hm3⟩
    · intro m2 h2
      refine forRange_zero_fail COLS _ (fun _ (m : Mat T ROWS COLS) => m.WF) 0 hC m2 h2
        (fun j s hj _ => absurd hj (Nat.not_lt_zero j)) ?_
      intro m hm
      have e := (transpose_cell self m COLS 0 hwf hm hgt hC).2 (Or.inr (le_refl _))
      simpa using e

end Mat

/-- Claim C24, evaluated on the code: the static `transpose` panics on every
matrix that is not square (with at least one row and one column), whereas
`AbstractDynMat::transpose` returns the transposed matrix for the same
contents. On `[[1,2,3],[4,5,6]]` the static method panics at `m2(2, 0)`, and
the dynamic method returns the `3 x 2` matrix with `result(j, i) = self(i, j)`.
On a square matrix the static method returns the transposed matrix. -/
theorem static_transpose_panics :
    (∀ (T : Type) [Inhabited T] (ROWS COLS : Nat) (M : Mat T ROWS COLS), M.WF →
      1 ≤ ROWS → 1 ≤ COLS → ROWS ≠ COLS → M.transpose = .error .panic) ∧
    example_static.transpose = .error .panic ∧
    example_static_tall.transpose = .error .panic ∧
    (∃ m2, example_lhs.transpose = .ok (example_lhs, m2) ∧ m2.ROWS_ = 3 ∧ m2.COLS_ = 2 ∧
      ∀ i, i < 2 → ∀ j, j < 3 →
        m2.operator_call_const j i = example_lhs.operator_call_const i j) ∧
    example_static_square.transpose = .ok ⟨[1, 3, 2, 4]⟩ :=
  ⟨fun _ _ _ _ M hwf hR hC hne => Mat.transpose_nonsquare M hwf hR hC hne, rfl, rfl,
    ⟨{ raw_ := .dyn ⟨[1, 4, 2, 5, 3, 6]⟩, SIZE := 6, ROWS_ := 3, COLS_ := 2 }, rfl, rfl, rfl,
      fun i hi j hj => by interval_cases i <;> interval_cases j <;> rfl⟩, rfl⟩

/-! ## Products computed in the element type -/

theorem foldlM_range_congr {σ : Type} (m : Nat) (f g : σ → Nat → Except Err σ)
    (h : ∀ k, k < m → ∀ s, f s k = g s k) (s0 : σ) :
    (List.range m).foldlM f s0 = (List.range m).foldlM g s0 := by
  induction m with
  | zero => rfl
  | succ m ih =>
    rw [List.range_succ, List.foldlM_append, List.foldlM_append,
      ih (fun k hk s => h k (by omega) s)]
    congr 1
    funext s
    simp only [List.foldlM_cons, List.foldlM_nil]
    rw [h m (by omega) s]

/-- Two loops `for (auto &&i : Range(n))` whose bodies agree at every `i < n`
agree. -/
theorem forRange_congr {σ : Type} (n : Nat) (f g : Int → σ → Except Err σ)
    (h : ∀ i, i < n → ∀ s, f (i : Int) s = g (i : Int) s) (s0 : σ) :
    forRange 0 (n : Int) 1 f s0 = forRange 0 (n : Int) 1 g s0 := by
  have e1 := forRange_eq 0 n 1 (le_refl _) (Nat.zero_le _) f s0
  have e2 := forRange_eq 0 n 1 (le_refl _) (Nat.zero_le _) g s0
  simp only [Nat.cast_zero, Nat.cast_one] at e1 e2
  rw [e1, e2]
  apply foldlM_range_congr
  intro k _ s
  rw [stepCount_one] at *
  simpa using h k (by omega) s

theorem mulT_ok (bits : Nat) (a b : Int) (h : fitsT bits (a * b)) :
    mulT bits a b = .ok (a * b) := by
  simp [mulT, h]

theorem ofDouble_ok (bits : Nat) (x : Int) (h : fitsT bits x) : ofDouble bits x = .ok x := by
  simp [ofDouble, h]

namespace AbstractDynMat

/-- The loop over `k` of the matrix product with the products taken in `T`:
where no product of the entry `(i, j)` leaves `T`, it returns the value
`dotAcc`. -/
theorem dot_loop_T (bits : Nat) (self other : AbstractDynMat Int) (i j : Nat) (hs : self.WF)
    (ho : other.WF) (hc : self.COLS_ = other.ROWS_) (hi : i < self.ROWS_)
    (hj : j < other.COLS_)
    (hfit : ∀ k, k < self.COLS_ → fitsT bits (self.entry i k * other.entry k j)) :
    forRange 0 (self.COLS_ : Int) 1 (fun k sum => do
        let a ← self.operator_call_const (i : Int).toNat k.toNat
        let b ← other.operator_call_const k.toNat (j : Int).toNat
        let p ← mulT bits a b
        pure (roundDouble (sum + roundDouble p))) (0 : Int)
      = .ok (dotAcc self other i j) := by
  rw [← dot_loop self other i j hs ho hc hi hj]
  apply forRange_congr
  intro k hk s
  have e1 := operator_call_const_ok self i k hs hi hk
  have e2 := operator_call_const_ok other k j ho (by omega) hj
  have e3 := mulT_ok bits _ _ (hfit k hk)
  rw [entry_eq self i k hs hi hk, entry_eq other k j ho (by omega) hj] at e3
  simp [e1, e2, e3, bind, Except.bind, pure, Except.pure]

/-- Where no product and no accumulated sum leaves `T`, the matrix product
with the products taken in `T` is the matrix product with the products taken
in the integers. -/
theorem operator_mul_T_eq (bits : Nat) (out : BufKind) (self other : AbstractDynMat Int)
    (hs : self.WF) (ho : other.WF)
    (hfit : ∀ i j, i < self.ROWS_ → j < other.COLS_ →
      (∀ k, k < self.COLS_ → fitsT bits (self.entry i k * other.entry k j)) ∧
      fitsT bits (dotAcc self other i j)) :
    operator_mul_T bits out self other = operator_mul out self other := by
  by_cases hc : self.COLS_ = other.ROWS_
  · have hne : ¬ self.COLS_ ≠ other.ROWS_ := by simp [hc]
    simp only [operator_mul_T, operator_mul, hne, if_false]
    apply forRange_congr
    intro i hi m3
    apply forRange_congr
    intro j hj m
    have h1 := dot_loop_T bits self other i j hs ho hc hi hj (hfit i j hi hj).1
    have h2 := dot_loop self other i j hs ho hc hi hj
    have h3 := ofDouble_ok bits _ (hfit i j hi hj).2
    simp only [Int.toNat_ofNat] at h1 h2 ⊢
    rw [h1, h2]
    simp [bind, Except.bind, h3]
  · simp [operator_mul_T, operator_mul, hc]

end AbstractDynMat

set_option maxRecDepth 100000 in
/-- Claim C20, the claim as stated fails: a buffer constructed for
`n = 1 * (2^53 + 9)` slots has the threshold `450359962737050`, because the
conversion of `n` to `double` rounds it to `2^53 + 8`, whereas
`ceil(n / 20) = 450359962737051`. After `450359962737050` writes the next
mutable access, number `450359962737051`, runs the compaction loop although
that number is not a multiple of `ceil(n / 20) + 1`. -/
theorem sweep_schedule_rounded :
    (SparseBuffer.new 1 (2 ^ 53 + 9) : SparseBuffer Int).treshold_ = 450359962737050 ∧
    (1 * (2 ^ 53 + 9) + 19) / 20 = 450359962737051 ∧
    ((SparseBuffer.new 1 (2 ^ 53 + 9) : SparseBuffer Int).writes
      (List.replicate 450359962737050 (0, 0))).sweeps = true ∧
    ¬ ((1 * (2 ^ 53 + 9) + 19) / 20 + 1) ∣ (450359962737050 + 1) := by
  have ht : ceil_0_05 (1 * (2 ^ 53 + 9)) = 450359962737050 := by decide
  refine ⟨ht, by decide, ?_, by decide⟩
  obtain ⟨d, r, hlen, hr, hcnt, _, htr⟩ :=
    SparseBuffer.schedule (1 * (2 ^ 53 + 9)) (ceil_0_05 (1 * (2 ^ 53 + 9)))
      (List.replicate 450359962737050 ((0 : Nat), (0 : Int)))
  have hnew : (SparseBuffer.new 1 (2 ^ 53 + 9) : SparseBuffer Int)
      = SparseBuffer.fresh (1 * (2 ^ 53 + 9)) (ceil_0_05 (1 * (2 ^ 53 + 9))) := rfl
  rw [← hnew] at hcnt htr
  rw [ht] at hlen hr htr
  rw [List.length_replicate] at hlen
  have hd : d = 0 := by
    rcases Nat.eq_zero_or_pos d with h | h
    · exact h
    · have : 1 * (450359962737050 + 1) ≤ d * (450359962737050 + 1) :=
        Nat.mul_le_mul_right _ h
      omega
  subst hd
  simp only [SparseBuffer.sweeps, decide_eq_true_eq, hcnt, htr]
  omega

open Finset in
/-- The products with `identity(n, n)` leave no signed integer type: on an
`n x n` matrix `M` whose entries are values of `T` below `2^53` in magnitude,
`identity(n, n) * M` and `M * identity(n, n)` with the products taken in `T`
are the products taken in the integers. -/
theorem identity_products_in_T (bits : Nat) (kind out : BufKind) (n : Nat)
    (M : AbstractDynMat Int) (hwf : M.WF) (hr : M.ROWS_ = n) (hc : M.COLS_ = n)
    (hex : ∀ i, i < n → ∀ j, j < n → exactInt (M.entry i j))
    (hfit : ∀ i, i < n → ∀ j, j < n → fitsT bits (M.entry i j)) :
    ∃ I, AbstractDynMat.identity kind n n = .ok I ∧
      AbstractDynMat.operator_mul_T bits out I M = AbstractDynMat.operator_mul out I M ∧
      AbstractDynMat.operator_mul_T bits out M I = AbstractDynMat.operator_mul out M I := by
  obtain ⟨I, hI, hIwf, hIr, hIc, hIval⟩ := AbstractDynMat.identity_ok kind n n (le_refl n)
  have hzero : fitsT bits 0 := by
    unfold fitsT
    have : (0 : Int) < 2 ^ (bits - 1) := by positivity
    omega
  refine ⟨I, hI, ?_, ?_⟩
  · apply AbstractDynMat.operator_mul_T_eq bits out I M hIwf hwf
    intro i j hi hj
    rw [hIr] at hi
    rw [hc] at hj
    have e : ∀ k, k < n → I.entry i k * M.entry k j = if i = k then M.entry i j else 0 := by
      intro k hk
      rw [hIval i k hi hk]
      by_cases hik : i = k
      · subst hik; simp
      · simp [hik]
    have hsum : ∀ m, m ≤ n → ∑ k ∈ range m, I.entry i k * M.entry k j
        = if i < m then M.entry i j else 0 := by
      intro m hm
      rw [sum_congr rfl (fun k hk => e k (by have := mem_range.mp hk; omega)), sum_ite_eq]
      simp
    have hacc : AbstractDynMat.dotAcc I M i j = M.entry i j := by
      rw [AbstractDynMat.dotAcc_exact I M i j (by
        intro m hm
        rw [hIc] at hm
        rw [e m hm, hsum (m + 1) (by omega)]
        constructor
        · split
          · exact hex i hi j hj
          · exact exactInt_zero
        · split
          · exact hex i hi j hj
          · exact exactInt_zero), hIc, hsum n (le_refl n)]
      simp [hi]
    refine ⟨?_, by rw [hacc]; exact hfit i hi j hj⟩
    intro k hk
    rw [hIc] at hk
    rw [e k hk]
    split
    · exact hfit i hi j hj
    · exact hzero
  · apply AbstractDynMat.operator_mul_T_eq bits out M I hwf hIwf
    intro i j hi hj
    rw [hr] at hi
    rw [hIc] at hj
    have e : ∀ k, k < n → M.entry i k * I.entry k j = if j = k then M.entry i j else 0 := by
      intro k hk
      rw [hIval k j hk hj]
      by_cases hjk : j = k
      · subst hjk; simp
      · have : ¬ k = j := fun e => hjk e.symm
        simp [hjk, this]
    have hsum : ∀ m, m ≤ n → ∑ k ∈ range m, M.entry i k * I.entry k j
        = if j < m then M.entry i j else 0 := by
      intro m hm
      rw [sum_congr rfl (fun k hk => e k (by have := mem_range.mp hk; omega)), sum_ite_eq]
      simp
    have hacc : AbstractDynMat.dotAcc M I i j = M.entry i j := by
      rw [AbstractDynMat.dotAcc_exact M I i j (by
        intro m hm
        rw [hc] at hm
        rw [e m hm, hsum (m + 1) (by omega)]
        constructor
        · split
          · exact hex i hi j hj
          · exact exactInt_zero
        · split
          · exact hex i hi j hj
          · exact exactInt_zero), hc, hsum n (le_refl n)]
      simp [hj]
    refine ⟨?_, by rw [hacc]; exact hfit i hi j hj⟩
    intro k hk
    rw [hc] at hk
    rw [e k hk]
    split
    · exact hfit i hi j hj
    · exact hzero

theorem spanWrap_eq (start stop : Nat) (hs : start < 2 ^ 64) (he : stop < 2 ^ 64 - 1) :
    spanWrap start stop = spanSize start stop := by
  unfold spanWrap spanSize
  by_cases h : start ≤ stop + 1
  · rw [if_pos h]
    have e : stop + 1 + 2 ^ 64 - start = (stop + 1 - start) + 2 ^ 64 := by omega
    rw [e, Nat.add_mod_right, Nat.mod_eq_of_lt (by omega)]
  · rw [if_neg h, Nat.mod_eq_of_lt (by omega)]
    omega

namespace AbstractDynMat
variable {T : Type}

/-- For `size_t` arguments with both stops below `SIZE_MAX = 2^64 - 1`, the
method `slice` in `size_t` arithmetic is `slice`. -/
theorem slice_size_t_eq [Inhabited T] [DecidableEq T] (out : BufKind) (self : AbstractDynMat T)
    (sr er sc ec stepr stepc : Nat) (hsr : sr < 2 ^ 64) (hsc : sc < 2 ^ 64)
    (her : er < 2 ^ 64 - 1) (hec : ec < 2 ^ 64 - 1) :
    slice_size_t out self sr er sc ec stepr stepc = slice out self sr er sc ec stepr stepc := by
  have e1 : (((er + 1) % 2 ^ 64 : Nat) : Int) = (er : Int) + 1 := by
    rw [Nat.mod_eq_of_lt (by omega)]; push_cast; rfl
  have e2 : (((ec + 1) % 2 ^ 64 : Nat) : Int) = (ec : Int) + 1 := by
    rw [Nat.mod_eq_of_lt (by omega)]; push_cast; rfl
  simp only [slice_size_t, slice, spanWrap_eq sr er hsr her, spanWrap_eq sc ec hsc hec, e1, e2]

end AbstractDynMat

/-- Claim C14, the claim as stated fails. On the dense `3 x 3` matrix,
`slice(0, 3, 0, 0, 2, 1)` has `stop_row = 3 >= rows`, yet it returns a `2 x 1`
view: with step `2` the loop visits the rows `0` and `2` and never reaches the
stop. And `slice(0, SIZE_MAX, 0, 0, 1, 1)` returns an empty `0 x 1` view: the
bound `stop_row + 1` wraps to `0` and the loop over the rows visits nothing. -/
theorem slice_stop_stepped_over :
    (∃ p v, example_3x3.slice_size_t .dyn 0 3 0 0 2 1 = .ok (p, v) ∧
      v.ROWS_ = 2 ∧ v.COLS_ = 1) ∧
    ∃ p v, example_3x3.slice_size_t .dyn 0 (2 ^ 64 - 1) 0 0 1 1 = .ok (p, v) ∧
      v.ROWS_ = 0 ∧ v.COLS_ = 1 :=
  ⟨⟨_, _, rfl, rfl, rfl⟩, ⟨_, _, rfl, rfl, rfl⟩⟩

/-- Claim C14, amended. Out-of-range slices are rejected where the loops reach
them: for every `rows x cols` matrix and every slice call with
`start_row ≤ stop_row`, `start_col ≤ stop_col`, steps at least `1` and both
stops below `SIZE_MAX = 2^64 - 1` (so that `stop + 1` does not wrap in
`size_t`), if a row index `start_row + a * step_row ≤ stop_row` that is
visited is not below `rows`, or a column index
`start_col + b * step_col ≤ stop_col` that is visited is not below `cols`,
then `slice` panics. This is so for every out-of-range start, and for every
out-of-range stop whose step is `1`. -/
theorem slice_out_of_range {T : Type} [Inhabited T] [DecidableEq T] (out : BufKind)
    (M : AbstractDynMat T) (start_row stop_row start_col stop_col step_row step_col : Nat)
    (hwf : M.WF) (h1 : 1 ≤ step_row) (h2 : 1 ≤ step_col) (hr : start_row ≤ stop_row)
    (hc : start_col ≤ stop_col) (hsr : stop_row < 2 ^ 64 - 1) (hsc : stop_col < 2 ^ 64 - 1) :
    ((∃ a, start_row + a * step_row ≤ stop_row ∧ M.ROWS_ ≤ start_row + a * step_row) →
      M.slice_size_t out start_row stop_row start_col stop_col step_row step_col
        = .error .panic) ∧
    ((∃ b, start_col + b * step_col ≤ stop_col ∧ M.COLS_ ≤ start_col + b * step_col) →
      M.slice_size_t out start_row stop_row start_col stop_col step_row step_col
        = .error .panic) ∧
    ((M.ROWS_ ≤ start_row ∨ M.COLS_ ≤ start_col) →
      M.slice_size_t out start_row stop_row start_col stop_col step_row step_col
        = .error .panic) ∧
    ((step_row = 1 ∧ M.ROWS_ ≤ stop_row) ∨ (step_col = 1 ∧ M.COLS_ ≤ stop_col) →
      M.slice_size_t out start_row stop_row start_col stop_col step_row step_col
        = .error .panic) := by
  rw [AbstractDynMat.slice_size_t_eq out M start_row stop_row start_col stop_col step_row
    step_col (by omega) (by omega) hsr hsc]
  have hA : (∃ a, start_row + a * step_row ≤ stop_row ∧ M.ROWS_ ≤ start_row + a * step_row) →
      M.slice out start_row stop_row start_col stop_col step_row step_col = .error .panic := by
    rintro ⟨a, ha1, ha2⟩
    exact AbstractDynMat.slice_fail out M _ _ _ _ _ _ hwf h1 h2 hr hc a 0 ha1 (by omega)
      (Or.inl ha2)
  have hB : (∃ b, start_col + b * step_col ≤ stop_col ∧ M.COLS_ ≤ start_col + b * step_col) →
      M.slice out start_row stop_row start_col stop_col step_row step_col = .error .panic := by
    rintro ⟨b, hb1, hb2⟩
    exact AbstractDynMat.slice_fail out M _ _ _ _ _ _ hwf h1 h2 hr hc 0 b (by omega) hb1
      (Or.inr (Or.inl hb2))
  refine ⟨hA, hB, ?_, ?_⟩
  · rintro (h | h)
    · exact hA ⟨0, by omega, by omega⟩
    · exact hB ⟨0, by omega, by omega⟩
  · rintro (⟨hs, h⟩ | ⟨hs, h⟩)
    · subst hs
      exact hA ⟨stop_row - start_row, by omega, by omega⟩
    · subst hs
      exact hB ⟨stop_col - start_col, by omega, by omega⟩

theorem slice_out_of_range_witness :
    example_3x3.slice_size_t .dyn 0 3 0 0 1 1 = .error .panic ∧
    example_3x3.slice_size_t .dyn 0 0 1 3 2 1 = .error .panic ∧
    example_3x3.slice_size_t .dyn 3 4 0 0 2 2 = .error .panic :=
  have h1 := slice_out_of_range .dyn example_3x3 0 3 0 0 1 1 ⟨rfl, rfl⟩ (by decide) (by decide)
    (by decide) (by decide) (by decide) (by decide)
  have h2 := slice_out_of_range .dyn example_3x3 0 0 1 3 2 1 ⟨rfl, rfl⟩ (by decide) (by decide)
    (by decide) (by decide) (by decide) (by decide)
  have h3 := slice_out_of_range .dyn example_3x3 3 4 0 0 2 2 ⟨rfl, rfl⟩ (by decide) (by decide)
    (by decide) (by decide) (by decide) (by decide)
  ⟨h1.2.2.2 (Or.inl ⟨rfl, by decide⟩), h2.2.2.2 (Or.inr ⟨rfl, by decide⟩),
    h3.2.2.1 (Or.inl (by decide))⟩

end MatraC
